import Mathlib

/-!
printbang: a bit-banged serial transmitter and its reference receiver.

A shallow embedding of

* `printbang.h`: `bang_char` (the cycle-counted inline assembly that shifts one
  word out of a port pin), the default `PRINTBANG_DELAY` snippets, `bang_pstr`,
  `bangln` on a program-space string, and the integer template
  `_DEFINE_BANG_INT` (`bang_uint`, `bang_int` and their wider variants);
* `tests/serial.c`, `tests/serial.h`: the receiver state machine that the
  simulator test attaches to the port (`serial_write_cb`, `check_timing`,
  `get_even_parity`, `serial_init`, `serial_connect`).

Registers are natural numbers kept below 256 by explicit reductions; the status
flags that the code reads (carry, zero, global interrupt enable) are booleans;
the cycle counter is a natural number.
-/

namespace Printbang

/-! ## The receiver: `tests/serial.h` -/

/-- The enum `serial_parity`. -/
inductive serial_parity where
  | SERIAL_PARITY_NONE
  | SERIAL_PARITY_EVEN
  | SERIAL_PARITY_ODD
deriving DecidableEq, Repr

/-- The integer value of a `serial_parity` enumerator (`NONE = -1`, `EVEN = 0`, `ODD = 1`). -/
def serial_parity.toInt : serial_parity → Int
  | .SERIAL_PARITY_NONE => -1
  | .SERIAL_PARITY_EVEN => 0
  | .SERIAL_PARITY_ODD => 1

/-- The enum `serial_order`. -/
inductive serial_order where
  | SERIAL_ORDER_LSB
  | SERIAL_ORDER_MSB
deriving DecidableEq, Repr

/-- The enum `serial_state`. -/
inductive serial_state where
  | SERIAL_STATE_IDLE
  | SERIAL_STATE_IN_WORD
  | SERIAL_STATE_STOP_BIT
  | SERIAL_STATE_PARITY_BIT
  | SERIAL_STATE_FAULT
deriving DecidableEq, Repr

/-- The struct `serial_config`. -/
structure serial_config where
  baudrate : Nat
  databits : Nat
  parity : serial_parity
  order : serial_order
deriving DecidableEq, Repr

/-- The bit and mask of simavr's `avr_regbit_t`; `AVR_IO_REGBIT(io, bit)` builds one with
mask 1.  The register address is left out: the callback is registered for exactly that
address, so the byte whose bit is read is the byte being written. -/
structure avr_regbit_t where
  bit : Nat
  mask : Nat
deriving DecidableEq, Repr

/-- The struct `serial_receiver`.  The field `buffer` stands for the simavr FIFO
`serial_buffer`: it lists the bytes handed to `serial_buffer_write` since the last
`serial_buffer_reset`, oldest first (capacity and overflow of the FIFO are simavr's). -/
structure serial_receiver where
  config : serial_config
  regbit : avr_regbit_t
  buffer : List Nat
  current_byte : Nat
  bits_remaining : Nat
  state : serial_state
  last_cycle : Nat
  expected_cycles : Int
deriving DecidableEq, Repr

/-! ## The receiver: `tests/serial.c` -/

/-- The loop of `get_even_parity`: `while (byte) { parity += byte & 1; byte >>= 1; }`
with `parity` a `uint8_t`. -/
def get_even_parity_loop (byte parity : Nat) : Nat :=
  if byte ≠ 0 then
    get_even_parity_loop (byte >>> 1) ((parity + (byte &&& 1)) % 256)
  else
    parity
termination_by byte
decreasing_by
  simp_wf
  rw [Nat.shiftRight_eq_div_pow]
  omega

/-- The function `get_even_parity`: `return !(parity & 1);` after the counting loop. -/
def get_even_parity (byte : Nat) : Int :=
  if get_even_parity_loop byte 0 &&& 1 = 0 then 1 else 0

/-- Conversion of a 64-bit unsigned difference to `int` (32 bits, two's complement). -/
def to_int (x : Int) : Int :=
  (x + 2 ^ 31) % 2 ^ 32 - 2 ^ 31

/-- The function `check_timing`; `cycle` is `avr->cycle` (an unsigned 64-bit counter), the
subtraction wraps modulo `2 ^ 64` and its result is converted to `int`.  The messages to
stderr are not part of the receiver and are left out. -/
def check_timing (cycle : Nat) (recv : serial_receiver) : serial_receiver :=
  let cycles : Int := to_int (((cycle : Int) - (recv.last_cycle : Int)) % 2 ^ 64)
  let recv := { recv with last_cycle := cycle }
  if cycles ≠ recv.expected_cycles then
    { recv with state := .SERIAL_STATE_FAULT }
  else
    recv

/-- The simavr helper `avr_regbit_get` applied to the byte just stored at the register:
`(data >> bit) & mask`. -/
def avr_regbit_get (value : Nat) (rb : avr_regbit_t) : Nat :=
  (value >>> rb.bit) &&& rb.mask

/-- The callback `serial_write_cb`: `cycle` is `avr->cycle` at the write and `value` the byte
written to the watched register.  All receiver fields are bytes (`uint8_t`). -/
def serial_write_cb (recv : serial_receiver) (cycle : Nat) (value : Nat) : serial_receiver :=
  let level := avr_regbit_get value recv.regbit
  match recv.state with
  | .SERIAL_STATE_IDLE =>
    if level = 0 then
      { recv with
        state := .SERIAL_STATE_IN_WORD
        bits_remaining := recv.config.databits
        current_byte := 0
        last_cycle := cycle }
    else
      recv
  | .SERIAL_STATE_IN_WORD =>
    let recv := { recv with bits_remaining := (recv.bits_remaining + 255) % 256 }
    let recv :=
      if recv.config.order = .SERIAL_ORDER_LSB then
        { recv with current_byte := ((recv.current_byte >>> 1) ||| (level <<< 7)) % 256 }
      else
        { recv with current_byte := (((recv.current_byte <<< 1) % 256) ||| level) % 256 }
    let recv :=
      if recv.bits_remaining = 0 then
        if recv.config.parity ≠ .SERIAL_PARITY_NONE then
          { recv with state := .SERIAL_STATE_PARITY_BIT }
        else
          { recv with state := .SERIAL_STATE_STOP_BIT }
      else
        recv
    check_timing cycle recv
  | .SERIAL_STATE_PARITY_BIT =>
    let parity := get_even_parity recv.current_byte
    let recv :=
      if (if parity = (level : Int) then (1 : Int) else 0) ≠ recv.config.parity.toInt then
        { recv with state := .SERIAL_STATE_FAULT }
      else
        { recv with state := .SERIAL_STATE_STOP_BIT }
    check_timing cycle recv
  | .SERIAL_STATE_STOP_BIT =>
    let recv :=
      if level = 1 then
        let recv := { recv with state := .SERIAL_STATE_IDLE }
        let recv :=
          if recv.config.order = .SERIAL_ORDER_LSB then
            { recv with current_byte := recv.current_byte >>> (8 - recv.config.databits) }
          else
            recv
        { recv with buffer := recv.buffer ++ [recv.current_byte] }
      else
        recv
    check_timing cycle recv
  | .SERIAL_STATE_FAULT => recv

/-- The function `serial_init`. -/
def serial_init (recv : serial_receiver) (config : serial_config) (regbit : avr_regbit_t) :
    serial_receiver :=
  { recv with
    config := config
    regbit := regbit
    current_byte := 0
    bits_remaining := config.databits
    state := .SERIAL_STATE_IDLE
    buffer := [] }

/-- The function `serial_connect`: `expected_cycles = avr->frequency / config.baudrate`
(unsigned division, the quotient stored in an `int`). -/
def serial_connect (frequency : Nat) (recv : serial_receiver) : serial_receiver :=
  { recv with expected_cycles := to_int ((frequency / recv.config.baudrate : Nat) : Int) }

/-! ## The transmitter: `printbang.h` -/

/-- Which of the configuration switches `PRINTBANG_PARITY_EVEN` and `PRINTBANG_PARITY_ODD`
is defined (defining both is rejected by `#error`). -/
inductive printbang_parity where
  | PRINTBANG_PARITY_NONE
  | PRINTBANG_PARITY_EVEN
  | PRINTBANG_PARITY_ODD
deriving DecidableEq, Repr

/-- What a `PRINTBANG_DELAY` snippet works on: the register named by
`PRINTBANG_DELAY_CLOBBER`, the carry and zero flags, and the cycle counter. -/
structure delay_state where
  r18 : Nat
  carry : Bool
  zero : Bool
  cycle : Nat
deriving DecidableEq, Repr

/-- The compile-time configuration of `printbang.h`. -/
structure printbang_config where
  PRINTBANG_PIN_MASK : Nat
  PRINTBANG_DATA_BITS : Nat
  PRINTBANG_ORDER_MSB : Bool
  parity : printbang_parity
  PRINTBANG_DELAY : delay_state → delay_state

/-- One `out` to the port: the value of the cycle counter when the instruction starts, the
byte written, and the global interrupt enable flag at that moment. -/
structure pin_write where
  cycle : Nat
  value : Nat
  interrupts : Bool
deriving DecidableEq, Repr

/-- What is recorded about the global interrupt enable flag `I` while the code runs: every
change made by `cli()` or `sei()`, with the cycle counter and the new value of the flag, and
every run of a delay snippet, with the cycle counter at its start and at its end and the
value that the flag has while it runs. -/
inductive irq_event where
  | changed (cycle : Nat) (enabled : Bool)
  | held (start finish : Nat) (enabled : Bool)
deriving DecidableEq, Repr

/-- The part of the AVR that `bang_char` touches: cycle counter, flags `I`, `C`, `Z`, `r18`,
the port register with the log of the writes to it, the four operand registers of the
`asm` statement, and the record of the flag `I` over time. -/
structure avr_state where
  cycle : Nat
  interrupts : Bool
  carry : Bool
  zero : Bool
  r18 : Nat
  port : Nat
  writes : List pin_write
  value : Nat
  bits_remaining : Nat
  port_value : Nat
  parity : Nat
  irq_log : List irq_event
deriving DecidableEq, Repr

/-- Number of set bits among the low `n` bits of `b`. -/
def popcount_bits : Nat → Nat → Nat
  | 0, _ => 0
  | n + 1, b => b % 2 + popcount_bits n (b / 2)

/-- Number of set bits of a byte. -/
def popcount (b : Nat) : Nat :=
  popcount_bits 8 b

/-- The avr-libc helper `parity_even_bit` of `util/parity.h`: 1 if the byte has an odd
number of bits set, else 0. -/
def parity_even_bit (val : Nat) : Nat :=
  popcount val % 2

/-- The call `cli()`; the change of the flag is logged with the cycle counter. -/
def cli (s : avr_state) : avr_state :=
  { s with
    interrupts := false
    irq_log := s.irq_log ++ [.changed s.cycle false] }

/-- The call `sei()`; the change of the flag is logged with the cycle counter. -/
def sei (s : avr_state) : avr_state :=
  { s with
    interrupts := true
    irq_log := s.irq_log ++ [.changed s.cycle true] }

/-- Instruction `cbr %[port_value], K`, that is `andi` with the complement of `K`; 1 cycle. -/
def cbr_port_value (K : Nat) (s : avr_state) : avr_state :=
  let r := s.port_value &&& (0xFF - K)
  { s with port_value := r, zero := r == 0, cycle := s.cycle + 1 }

/-- Instruction `sbr %[port_value], K`, that is `ori`; 1 cycle. -/
def sbr_port_value (K : Nat) (s : avr_state) : avr_state :=
  let r := s.port_value ||| K
  { s with port_value := r, zero := r == 0, cycle := s.cycle + 1 }

/-- Instruction `out %[port_io], %[port_value]`; 1 cycle.  The write is logged with the
cycle counter at the start of the instruction, as simavr reports it to a write callback. -/
def out_port (s : avr_state) : avr_state :=
  { s with
    port := s.port_value
    writes := s.writes ++ [{ cycle := s.cycle, value := s.port_value, interrupts := s.interrupts }]
    cycle := s.cycle + 1 }

/-- Instruction `lpm` (used as a three-cycle pause; it loads `r0`, which is no operand). -/
def lpm (s : avr_state) : avr_state :=
  { s with cycle := s.cycle + 3 }

/-- Instruction `nop`; 1 cycle. -/
def nop (s : avr_state) : avr_state :=
  { s with cycle := s.cycle + 1 }

/-- Instruction `ror %[value]`: rotate right through carry; 1 cycle. -/
def ror_value (s : avr_state) : avr_state :=
  let r := (if s.carry then 128 else 0) ||| (s.value >>> 1)
  { s with value := r, carry := s.value &&& 1 == 1, zero := r == 0, cycle := s.cycle + 1 }

/-- Instruction `rol %[value]`: rotate left through carry; 1 cycle. -/
def rol_value (s : avr_state) : avr_state :=
  let r := ((s.value <<< 1) % 256) ||| (if s.carry then 1 else 0)
  { s with value := r, carry := (s.value >>> 7) &&& 1 == 1, zero := r == 0,
           cycle := s.cycle + 1 }

/-- Instruction `dec %[bits_remaining]`; 1 cycle, carry untouched. -/
def dec_bits_remaining (s : avr_state) : avr_state :=
  let r := (s.bits_remaining + 255) % 256
  { s with bits_remaining := r, zero := r == 0, cycle := s.cycle + 1 }

/-- Instruction `tst %[parity]`; 1 cycle. -/
def tst_parity (s : avr_state) : avr_state :=
  { s with zero := s.parity == 0, cycle := s.cycle + 1 }

/-- The cost of a conditional branch (`brcs`, `brne`, `breq`): 2 cycles taken, 1 not. -/
def branch (taken : Bool) (s : avr_state) : avr_state :=
  { s with cycle := s.cycle + (if taken then 2 else 1) }

/-- Runs a `PRINTBANG_DELAY` snippet inside the `asm` statement; the value of the flag `I`
while the snippet runs is recorded. -/
def run_delay (d : delay_state → delay_state) (s : avr_state) : avr_state :=
  let r := d { r18 := s.r18, carry := s.carry, zero := s.zero, cycle := s.cycle }
  { s with
    r18 := r.r18, carry := r.carry, zero := r.zero, cycle := r.cycle
    irq_log := s.irq_log ++ [.held s.cycle r.cycle s.interrupts] }

/-- The loop `%=: dec r18; brne %=b` of the default delay snippets. -/
def delay_loop (s : delay_state) : delay_state :=
  let r := (s.r18 + 255) % 256
  let s1 : delay_state := { s with r18 := r, zero := r == 0, cycle := s.cycle + 1 }
  if s1.zero then
    { s1 with cycle := s1.cycle + 1 }
  else
    delay_loop { s1 with cycle := s1.cycle + 2 }
termination_by (s.r18 + 255) % 256
decreasing_by
  simp_wf
  simp at *
  omega

/-- Instruction `ldi r18, k`; 1 cycle. -/
def ldi_r18 (k : Nat) (s : delay_state) : delay_state :=
  { s with r18 := k, cycle := s.cycle + 1 }

/-- A straight-line instruction of the delay snippets that only takes time
(`nop` 1 cycle, `rjmp` 2 cycles, `lpm` 3 cycles). -/
def delay_pause (cycles : Nat) (s : delay_state) : delay_state :=
  { s with cycle := s.cycle + cycles }

/-- Default `PRINTBANG_DELAY` for `F_CPU == 16500000`: `ldi r18, 19`, the loop, `nop`. -/
def delay_16500000 (s : delay_state) : delay_state :=
  delay_pause 1 (delay_loop (ldi_r18 19 s))

/-- Default `PRINTBANG_DELAY` for `F_CPU == 16000000`: `ldi r18, 18`, the loop, `rjmp .`. -/
def delay_16000000 (s : delay_state) : delay_state :=
  delay_pause 2 (delay_loop (ldi_r18 18 s))

/-- Default `PRINTBANG_DELAY` for `F_CPU == 8000000`: `ldi r18, 8`, the loop. -/
def delay_8000000 (s : delay_state) : delay_state :=
  delay_loop (ldi_r18 8 s)

/-- A delay snippet under way in the instruction stream: the delay state and the location
counter `pc`, the byte address of the instruction that runs next. -/
structure snippet_state where
  regs : delay_state
  pc : Nat
deriving DecidableEq, Repr

/-- A one-word instruction that does not branch (`ldi`, `nop`, `lpm`), given by what it does
to the delay state: control goes on to the next word. -/
def straight (f : delay_state → delay_state) (s : snippet_state) : snippet_state :=
  { regs := f s.regs, pc := s.pc + 2 }

/-- The loop `%=: dec r18; brne %=b`, two words: `brne` goes back to the `dec` until `r18`
is zero, and control leaves the loop at the word after the `brne`. -/
def located_loop (s : snippet_state) : snippet_state :=
  { regs := delay_loop s.regs, pc := s.pc + 4 }

/-- Instruction `rjmp`, one word, 2 cycles.  Its operand is the destination, and control
goes there. -/
def rjmp (target : Nat) (s : snippet_state) : snippet_state :=
  { regs := delay_pause 2 s.regs, pc := target }

/-- Default `PRINTBANG_DELAY` for `F_CPU == 16500000` in the instruction stream:
`ldi r18, 19`, the loop, `nop`. -/
def snippet_16500000 (s : snippet_state) : snippet_state :=
  straight (delay_pause 1) (located_loop (straight (ldi_r18 19) s))

/-- Default `PRINTBANG_DELAY` for `F_CPU == 16000000` in the instruction stream:
`ldi r18, 18`, the loop, `rjmp .`.  In the operand of `rjmp` the location counter `.` stands
for the word after the instruction (this is the two-cycle pause that avr-gcc emits
itself), so the destination is the next word. -/
def snippet_16000000 (s : snippet_state) : snippet_state :=
  let t := located_loop (straight (ldi_r18 18) s)
  rjmp (t.pc + 2) t

/-- Default `PRINTBANG_DELAY` for `F_CPU == 8000000` in the instruction stream:
`ldi r18, 8`, the loop. -/
def snippet_8000000 (s : snippet_state) : snippet_state :=
  located_loop (straight (ldi_r18 8) s)

/-- Default `PRINTBANG_DELAY` for `F_CPU == 4000000` in the instruction stream: `lpm`,
`lpm`, `rjmp 0`.  The operand of this `rjmp` is the number 0, so its destination is
address 0. -/
def snippet_4000000 (s : snippet_state) : snippet_state :=
  rjmp 0 (straight (delay_pause 3) (straight (delay_pause 3) s))

/-- The `#if F_CPU == ...` chain that selects the default snippet; any other frequency is
`#error`. -/
def default_delay (F_CPU : Nat) : Option (snippet_state → snippet_state) :=
  if F_CPU = 16500000 then some snippet_16500000
  else if F_CPU = 16000000 then some snippet_16000000
  else if F_CPU = 8000000 then some snippet_8000000
  else if F_CPU = 4000000 then some snippet_4000000
  else none

/-- One pass of the data-bit section of the `asm` statement, from label `1:` through
`dec %[bits_remaining]`. -/
def transmit_bit (cfg : printbang_config) (s : avr_state) : avr_state :=
  let s := run_delay cfg.PRINTBANG_DELAY s
  let s := sbr_port_value cfg.PRINTBANG_PIN_MASK s
  let s := if cfg.PRINTBANG_ORDER_MSB then rol_value s else ror_value s
  let s := if s.carry then branch true s
           else cbr_port_value cfg.PRINTBANG_PIN_MASK (branch false s)
  let s := out_port s
  dec_bits_remaining s

/-- The data-bit loop: passes of `transmit_bit` repeated by `brne 1b` until
`bits_remaining` reaches zero. -/
def transmit_bits (cfg : printbang_config) (s : avr_state) : avr_state :=
  let s1 := transmit_bit cfg s
  if s1.zero then
    branch false s1
  else
    transmit_bits cfg (branch true s1)
termination_by (s.bits_remaining + 255) % 256
decreasing_by
  simp_wf
  rename_i h
  simp only [s1, transmit_bit, dec_bits_remaining, out_port, branch, cbr_port_value,
    sbr_port_value, run_delay, ror_value, rol_value] at h ⊢
  split_ifs at h ⊢ <;> simp at h ⊢ <;> omega

/-- The parity section of the `asm` statement, present when a parity switch is defined:
`brne parity_high` for even parity, `breq parity_high` for odd parity. -/
def transmit_parity (cfg : printbang_config) (s : avr_state) : avr_state :=
  match cfg.parity with
  | .PRINTBANG_PARITY_NONE => s
  | .PRINTBANG_PARITY_EVEN =>
    let s := sbr_port_value cfg.PRINTBANG_PIN_MASK s
    let s := tst_parity s
    let s := if !s.zero then branch true s
             else cbr_port_value cfg.PRINTBANG_PIN_MASK (branch false s)
    let s := out_port s
    let s := lpm s
    run_delay cfg.PRINTBANG_DELAY s
  | .PRINTBANG_PARITY_ODD =>
    let s := sbr_port_value cfg.PRINTBANG_PIN_MASK s
    let s := tst_parity s
    let s := if s.zero then branch true s
             else cbr_port_value cfg.PRINTBANG_PIN_MASK (branch false s)
    let s := out_port s
    let s := lpm s
    run_delay cfg.PRINTBANG_DELAY s

/-- The function `bang_char`.  The C statements before the `asm` block are compiled code
whose cycle cost is not fixed by the source; they are given no cost here, which does not
affect the distance between two writes. -/
def bang_char (cfg : printbang_config) (s : avr_state) (value : Nat) : avr_state :=
  let s := cli s
  let s := { s with port_value := s.port }
  let s := { s with bits_remaining := cfg.PRINTBANG_DATA_BITS % 256 }
  let s := { s with value := value }
  let s :=
    if cfg.PRINTBANG_ORDER_MSB ∧ cfg.PRINTBANG_DATA_BITS ≠ 8 then
      { s with value := (s.value <<< (8 - cfg.PRINTBANG_DATA_BITS)) % 256 }
    else
      s
  let s :=
    if cfg.parity ≠ .PRINTBANG_PARITY_NONE then
      { s with parity := parity_even_bit s.value }
    else
      s
  let s := cbr_port_value cfg.PRINTBANG_PIN_MASK s
  let s := out_port s
  let s := lpm s
  let s := transmit_bits cfg s
  let s := nop s
  let s := run_delay cfg.PRINTBANG_DELAY s
  let s := transmit_parity cfg s
  let s := lpm s
  let s := sbr_port_value cfg.PRINTBANG_PIN_MASK s
  let s := out_port s
  let s := run_delay cfg.PRINTBANG_DELAY s
  sei s

/-- The simulator delivers every write to the watched port register to the callback, in
program order, together with the cycle counter. -/
def serial_run (recv : serial_receiver) (ws : List pin_write) : serial_receiver :=
  ws.foldl (fun r w => serial_write_cb r w.cycle w.value) recv

/-! ## Vocabulary of the statements -/

/-- A delay snippet costs exactly `D` cycles, whatever the state it starts in. -/
def delay_costs (d : delay_state → delay_state) (D : Nat) : Prop :=
  ∀ s, (d s).cycle = s.cycle + D

/-- A snippet of `size` bytes in the instruction stream returns to the `asm` statement:
wherever it stands, control ends at the word after it, and the snippet has then acted on
the delay state as `d`, the function that a configuration carries as `PRINTBANG_DELAY`. -/
def falls_through (f : snippet_state → snippet_state) (size : Nat)
    (d : delay_state → delay_state) : Prop :=
  ∀ s, f s = { regs := d s.regs, pc := s.pc + size }

/-- The port byte with the bits of the pin mask `m` cleared, `P` being the port value read
at entry. -/
def pin_low (P m : Nat) : Nat :=
  P &&& (0xFF - m)

/-- The port byte with the bits of the pin mask `m` set. -/
def pin_high (P m : Nat) : Nat :=
  (P &&& (0xFF - m)) ||| m

/-- The port byte that puts the pin at a level. -/
def pin_byte (P m : Nat) (level : Bool) : Nat :=
  if level then pin_high P m else pin_low P m

/-- Writes of the given bytes, the first at cycle `t`, each further one `T` cycles after the
one before. -/
def timed_writes (t T : Nat) (irq : Bool) : List Nat → List pin_write
  | [] => []
  | b :: bs => { cycle := t, value := b, interrupts := irq } :: timed_writes (t + T) T irq bs

/-- The content of the register `value` when the `asm` statement starts: the argument,
shifted left by `8 - PRINTBANG_DATA_BITS` for MSB order with fewer than 8 data bits. -/
def aligned_value (cfg : printbang_config) (value : Nat) : Nat :=
  if cfg.PRINTBANG_ORDER_MSB ∧ cfg.PRINTBANG_DATA_BITS ≠ 8 then
    (value <<< (8 - cfg.PRINTBANG_DATA_BITS)) % 256
  else
    value

/-- The bit that pass number `j` (from 0) of the data-bit loop moves into carry: bit `j` of
the register for `ror`, bit `7 - j` for `rol`. -/
def data_bit (msb : Bool) (x : Nat) (j : Nat) : Bool :=
  if msb then x.testBit (7 - j) else x.testBit j

/-- What the loop needs to know about the register `value` after `j` passes: the bits not
yet shifted out are those of the register content `x` at the start. -/
def value_inv (msb : Bool) (x : Nat) (j : Nat) (r : Nat) : Prop :=
  if msb then ∀ i, j ≤ i → i < 8 → r.testBit i = x.testBit (i - j)
  else ∀ i, i + j < 8 → r.testBit i = x.testBit (i + j)

/-- The level that the parity section writes, given the content `x` of the register `value`
at the start of the `asm` statement. -/
def parity_levels (p : printbang_parity) (x : Nat) : List Bool :=
  match p with
  | .PRINTBANG_PARITY_NONE => []
  | .PRINTBANG_PARITY_EVEN => [decide (parity_even_bit x ≠ 0)]
  | .PRINTBANG_PARITY_ODD => [decide (parity_even_bit x = 0)]

/-- The levels of one frame: start, data bits, parity, stop. -/
def frame_levels (cfg : printbang_config) (value : Nat) : List Bool :=
  false ::
    ((List.range' 0 cfg.PRINTBANG_DATA_BITS).map
        (data_bit cfg.PRINTBANG_ORDER_MSB (aligned_value cfg value)) ++
      (parity_levels cfg.parity (aligned_value cfg value) ++ [true]))

/-- The writes that one call of `bang_char` adds to the log. -/
def bang_char_frame (cfg : printbang_config) (s : avr_state) (value : Nat) : List pin_write :=
  (bang_char cfg s value).writes.drop s.writes.length

/-- The level of the pin `pin` in a written byte, as a receiver watching
`AVR_IO_REGBIT(port, pin)` reads it. -/
def pin_level (pin : Nat) (w : pin_write) : Nat :=
  avr_regbit_get w.value { bit := pin, mask := 1 }

/-- The value of a bit sequence sent least significant bit first: the sum of
`b_i * 2 ^ (i - 1)` over the positions `i = 1, 2, ...`. -/
def lsb_value : List Nat → Nat
  | [] => 0
  | b :: bs => b + 2 * lsb_value bs

/-- The value of a bit sequence sent most significant bit first: the sum of
`b_i * 2 ^ (n - i)` over the positions `i = 1, ..., n`. -/
def msb_value (bs : List Nat) : Nat :=
  bs.foldl (fun acc b => 2 * acc + b) 0

/-- The state in which the `asm` statement of `bang_char` starts. -/
def bang_char_entry (cfg : printbang_config) (s : avr_state) (value : Nat) : avr_state :=
  { s with
    interrupts := false
    port_value := s.port
    bits_remaining := cfg.PRINTBANG_DATA_BITS % 256
    value := aligned_value cfg value
    parity := if cfg.parity ≠ .PRINTBANG_PARITY_NONE then parity_even_bit (aligned_value cfg value)
              else s.parity
    irq_log := s.irq_log ++ [.changed s.cycle false] }

/-- The configuration of `tests/firmware/firmware.c` built for 16 MHz: pin `PB0`, 7 data
bits, LSB first, no parity, the 16 MHz delay snippet. -/
def firmware_config : printbang_config :=
  { PRINTBANG_PIN_MASK := 1
    PRINTBANG_DATA_BITS := 7
    PRINTBANG_ORDER_MSB := false
    parity := .PRINTBANG_PARITY_NONE
    PRINTBANG_DELAY := delay_16000000 }

/-- A machine state at the call of `bang_char`: the pin is high (idle line), interrupts are
enabled, nothing has been written yet. -/
def idle_avr : avr_state :=
  { cycle := 0, interrupts := true, carry := false, zero := false, r18 := 0, port := 1,
    writes := [], value := 0, bits_remaining := 0, port_value := 0, parity := 0,
    irq_log := [] }

/-- The default table as the header documents it: clock frequency in Hz and the documented
number of delay cycles (`16.5MHz: 250000 baud, 58 delay cycles`, and so on). -/
def default_table : List (Nat × Nat) :=
  [(16500000, 58), (16000000, 56), (8000000, 24), (4000000, 8)]

/-- The configuration `conf` of `tests/runner.c`. -/
def conf : serial_config :=
  { baudrate := 250000
    databits := 7
    parity := .SERIAL_PARITY_NONE
    order := .SERIAL_ORDER_LSB }

/-- The global `recv` of `tests/runner.c` before `serial_init`: static storage, all zero. -/
def zero_receiver : serial_receiver :=
  { config := { baudrate := 0, databits := 0, parity := .SERIAL_PARITY_EVEN,
                order := .SERIAL_ORDER_LSB }
    regbit := { bit := 0, mask := 0 }
    buffer := []
    current_byte := 0
    bits_remaining := 0
    state := .SERIAL_STATE_IDLE
    last_cycle := 0
    expected_cycles := 0 }

/-- The receiver as `main` of `tests/runner.c` sets it up for a 16 MHz firmware:
`serial_init(&recv, &conf, AVR_IO_REGBIT(port_addr, 0))`, then `serial_connect`. -/
def runner_receiver : serial_receiver :=
  serial_connect 16000000 (serial_init zero_receiver conf { bit := 0, mask := 1 })

/-- A receiver waiting for the parity bit: configured for even parity, accumulated byte
0x01 (an odd number of set bits), previous event at cycle 100, 64 cycles per bit. -/
def parity_receiver : serial_receiver :=
  { runner_receiver with
    config := { conf with parity := .SERIAL_PARITY_EVEN }
    state := .SERIAL_STATE_PARITY_BIT
    current_byte := 1
    bits_remaining := 0
    last_cycle := 100 }

/-- The update of `current_byte` by one data bit in `serial_write_cb`: shift right and put
the level into bit 7 (LSB order), or shift left and put the level into bit 0 (MSB order). -/
def shift_in (order : serial_order) (current_byte level : Nat) : Nat :=
  if order = .SERIAL_ORDER_LSB then
    ((current_byte >>> 1) ||| (level <<< 7)) % 256
  else
    (((current_byte <<< 1) % 256) ||| level) % 256

/-- The byte that the stop-bit branch of `serial_write_cb` writes to the buffer. -/
def aligned_byte (config : serial_config) (current_byte : Nat) : Nat :=
  if config.order = .SERIAL_ORDER_LSB then current_byte >>> (8 - config.databits)
  else current_byte

/-- The value of a received bit sequence in the configured order. -/
def bits_value (order : serial_order) (bs : List Nat) : Nat :=
  if order = .SERIAL_ORDER_LSB then lsb_value bs else msb_value bs

/-- The receiver configuration describes the same wire format as the transmitter
configuration: data bits, bit order and parity mode agree. -/
def same_configuration (cfg : printbang_config) (c : serial_config) : Prop :=
  c.databits = cfg.PRINTBANG_DATA_BITS ∧
  c.order = (if cfg.PRINTBANG_ORDER_MSB then .SERIAL_ORDER_MSB else .SERIAL_ORDER_LSB) ∧
  c.parity =
    (match cfg.parity with
     | .PRINTBANG_PARITY_NONE => .SERIAL_PARITY_NONE
     | .PRINTBANG_PARITY_EVEN => .SERIAL_PARITY_EVEN
     | .PRINTBANG_PARITY_ODD => .SERIAL_PARITY_ODD)

/-- Events of one frame for a receiver with 7 data bits, LSB first, no parity, watching bit
0 and expecting 64 cycles per bit: a start bit at cycle 1000, the data levels
0,0,0,1,0,0,1 and the stop bit, 64 cycles apart. -/
def sample_start : pin_write := { cycle := 1000, value := 0, interrupts := false }

/-- The seven data events of the sample frame. -/
def sample_data : List pin_write :=
  [{ cycle := 1064, value := 0, interrupts := false },
   { cycle := 1128, value := 0, interrupts := false },
   { cycle := 1192, value := 0, interrupts := false },
   { cycle := 1256, value := 1, interrupts := false },
   { cycle := 1320, value := 0, interrupts := false },
   { cycle := 1384, value := 0, interrupts := false },
   { cycle := 1448, value := 1, interrupts := false }]

/-- The stop event of the sample frame. -/
def sample_stop : pin_write := { cycle := 1512, value := 1, interrupts := false }

/-- The transitions that the spec allows for one event: from Idle to InWord on level 0 and
to Idle otherwise; from InWord to InWord, to ParityBit (only with a parity mode), to StopBit
(only without) or to Fault; from ParityBit to StopBit or Fault; from StopBit to StopBit,
Idle or Fault; from Fault only to Fault. -/
def forward_transition (parity : serial_parity) (level : Nat) :
    serial_state → serial_state → Prop
  | .SERIAL_STATE_IDLE, t =>
    t = (if level = 0 then .SERIAL_STATE_IN_WORD else .SERIAL_STATE_IDLE)
  | .SERIAL_STATE_IN_WORD, t =>
    t = .SERIAL_STATE_IN_WORD ∨
    (t = .SERIAL_STATE_PARITY_BIT ∧ parity ≠ .SERIAL_PARITY_NONE) ∨
    (t = .SERIAL_STATE_STOP_BIT ∧ parity = .SERIAL_PARITY_NONE) ∨
    t = .SERIAL_STATE_FAULT
  | .SERIAL_STATE_PARITY_BIT, t => t = .SERIAL_STATE_STOP_BIT ∨ t = .SERIAL_STATE_FAULT
  | .SERIAL_STATE_STOP_BIT, t =>
    t = .SERIAL_STATE_STOP_BIT ∨ t = .SERIAL_STATE_IDLE ∨ t = .SERIAL_STATE_FAULT
  | .SERIAL_STATE_FAULT, t => t = .SERIAL_STATE_FAULT

/-- A receiver of the test's configuration waiting for the stop bit, with 0x48 accumulated
(seven bits shifted in from the top: 0x90), previous event at cycle 100. -/
def stop_receiver : serial_receiver :=
  { runner_receiver with
    state := .SERIAL_STATE_STOP_BIT
    current_byte := 0x90
    bits_remaining := 0
    last_cycle := 100 }

/-- The two words `"even"` and `"odd"` that the parity message can name. -/
inductive parity_name where
  | even
  | odd
deriving DecidableEq, Repr

/-- The two words `"parity"` and `"stop"` that the timing message can name. -/
inductive bit_name where
  | parity
  | stop
deriving DecidableEq, Repr

/-- The messages that the receiver prints to stderr:
`Timing glitch before bit %u: expected %u cycles, counted %u`,
`Timing glitch before %s bit: expected %u cycles, counted %u` and
`Wrong parity bit, expected %s parity`, each with its arguments. -/
inductive serial_diagnostic where
  | timing_glitch_bit (bit expected counted : Nat)
  | timing_glitch_named (name : bit_name) (expected counted : Nat)
  | wrong_parity (expected : parity_name)
deriving DecidableEq, Repr

/-- An `int` argument printed with `%u`: its value modulo `2 ^ 32`. -/
def to_unsigned (x : Int) : Nat :=
  (x % 2 ^ 32).toNat

/-- The messages of `check_timing`, for the receiver as the switch of `serial_write_cb`
leaves it. -/
def check_timing_stderr (cycle : Nat) (recv : serial_receiver) : List serial_diagnostic :=
  let cycles : Int := to_int (((cycle : Int) - (recv.last_cycle : Int)) % 2 ^ 64)
  if cycles ≠ recv.expected_cycles then
    if recv.state = .SERIAL_STATE_IN_WORD then
      [.timing_glitch_bit
        (to_unsigned (((recv.config.databits : Int) - (recv.bits_remaining : Int)) + 1))
        (to_unsigned recv.expected_cycles) (to_unsigned cycles)]
    else
      [.timing_glitch_named
        (if recv.state = .SERIAL_STATE_PARITY_BIT then .parity else .stop)
        (to_unsigned recv.expected_cycles) (to_unsigned cycles)]
  else
    []

/-- The messages that one call of `serial_write_cb` prints to stderr, in order. -/
def serial_write_cb_stderr (recv : serial_receiver) (cycle : Nat) (value : Nat) :
    List serial_diagnostic :=
  let level := avr_regbit_get value recv.regbit
  match recv.state with
  | .SERIAL_STATE_IDLE => []
  | .SERIAL_STATE_IN_WORD =>
    let recv := { recv with bits_remaining := (recv.bits_remaining + 255) % 256 }
    let recv :=
      if recv.bits_remaining = 0 then
        if recv.config.parity ≠ .SERIAL_PARITY_NONE then
          { recv with state := .SERIAL_STATE_PARITY_BIT }
        else
          { recv with state := .SERIAL_STATE_STOP_BIT }
      else
        recv
    check_timing_stderr cycle recv
  | .SERIAL_STATE_PARITY_BIT =>
    let parity := get_even_parity recv.current_byte
    if (if parity = (level : Int) then (1 : Int) else 0) ≠ recv.config.parity.toInt then
      .wrong_parity (if parity ≠ 0 then .even else .odd) ::
        check_timing_stderr cycle { recv with state := .SERIAL_STATE_FAULT }
    else
      check_timing_stderr cycle { recv with state := .SERIAL_STATE_STOP_BIT }
  | .SERIAL_STATE_STOP_BIT =>
    let recv :=
      if level = 1 then { recv with state := .SERIAL_STATE_IDLE } else recv
    check_timing_stderr cycle recv
  | .SERIAL_STATE_FAULT => []

/-- Since the log held `base`, interrupts have stayed disabled: the flag is clear and every
write added to the log was made with the flag clear. -/
def masked_since (base : List pin_write) (s : avr_state) : Prop :=
  s.interrupts = false ∧ ∃ l, s.writes = base ++ l ∧ ∀ w ∈ l, w.interrupts = false

/-- Since the record of the flag held `base`, the flag has stayed clear and has not been
changed: it is clear, and all that was added to the record are runs of the delay snippet
with the flag clear. -/
def quiet_since (base : List irq_event) (s : avr_state) : Prop :=
  s.interrupts = false ∧
    ∃ hs, s.irq_log = base ++ hs ∧ ∀ e ∈ hs, ∃ a b, e = irq_event.held a b false

/-! ## Strings and integers: `printbang.h` -/

/-- Compiled C code that runs outside the `asm` block of `bang_char` (loop tests, loads,
calls, divisions): it takes `cycles` cycles, a number that the source does not fix, and
writes nothing to the port. -/
def compiled_code (cycles : Nat) (s : avr_state) : avr_state :=
  { s with cycle := s.cycle + cycles }

/-- The function `bang_pstr`: `while ((chr = pgm_read_byte(str++)) != '\0') bang_char(chr);`.
The list holds the bytes of program memory from `str` on; the loop stops at the first zero
byte (or where the list ends).  `glue` is the number of cycles of compiled code before each
call of `bang_char`. -/
def bang_pstr (cfg : printbang_config) (glue : Nat) : List Nat → avr_state → avr_state
  | [], s => s
  | chr :: str, s =>
    if chr ≠ 0 then bang_pstr cfg glue str (bang_char cfg (compiled_code glue s) chr)
    else s

/-- The array `printbang_line_ending` for the default `PRINTBANG_LINE_ENDING "\r\n"`: the two
characters and the terminating zero byte. -/
def printbang_line_ending : List Nat := [0x0D, 0x0A, 0]

/-- The macro `bangln` applied to a program-space string:
`bang_pstr(str); bang_pstr(printbang_line_ending);`. -/
def bangln (cfg : printbang_config) (glue : Nat) (str : List Nat) (s : avr_state) : avr_state :=
  bang_pstr cfg glue printbang_line_ending (bang_pstr cfg glue str s)

/-- The function `NU` of `_DEFINE_BANG_INT` (`bang_uint`, `bang_ulong`, `bang_ulonglong`).
The value is a natural number, which covers the three unsigned types; the argument of
`bang_char` is converted to `char`, hence the reduction modulo 256. -/
def bang_uint (cfg : printbang_config) (glue : Nat) (s : avr_state) (value base : Nat) :
    avr_state :=
  if hb : base < 2 ∨ base > 36 then s
  else
    let div := value / base
    let mod := value % base
    let s := if hdiv : div > 0 then bang_uint cfg glue s div base else s
    bang_char cfg (compiled_code glue s)
      ((if base > 10 ∧ mod ≥ 10 then (65 - 10) + mod else 48 + mod) % 256)
termination_by value
decreasing_by
  have h2 : 2 ≤ base := by omega
  have hd : 0 < value / base := hdiv
  have hv : 0 < value := by
    rcases Nat.eq_zero_or_pos value with h | h
    · rw [h, Nat.zero_div] at hd; exact absurd hd (lt_irrefl 0)
    · exact h
  exact Nat.div_lt_self hv h2

/-- The result of an arithmetic operation in the signed type of `w` bits: two's complement,
the only value for which the operation overflows here being the negated most negative
number. -/
def wrap_signed (w : Nat) (x : Int) : Int :=
  (x + 2 ^ (w - 1)) % 2 ^ w - 2 ^ (w - 1)

/-- Conversion of a signed value to the unsigned type of `w` bits. -/
def convert_unsigned (w : Nat) (x : Int) : Nat :=
  (x % 2 ^ w).toNat

/-- The function `NS` of `_DEFINE_BANG_INT` (`bang_int`, `bang_long`, `bang_longlong`) for a
signed type of `w` bits: `-value` is computed in the signed type and converted to the
unsigned one at the call of `NU`. -/
def bang_int (cfg : printbang_config) (glue w : Nat) (s : avr_state) (value : Int)
    (base : Nat) : avr_state :=
  if value < 0 then
    let s := bang_char cfg (compiled_code glue s) 45
    bang_uint cfg glue s (convert_unsigned w (wrap_signed w (-value))) base
  else
    bang_uint cfg glue s (convert_unsigned w value) base

/-- The calls `bang_char(c)` for the characters `c` of a list, in order, each after `glue`
cycles of compiled code. -/
def bang_char_sequence (cfg : printbang_config) (glue : Nat) (s : avr_state)
    (chars : List Nat) : avr_state :=
  chars.foldl (fun t c => bang_char cfg (compiled_code glue t) c) s

/-- The character of a digit: `'0'` to `'9'` for 0 to 9, `'A'` to `'Z'` for 10 to 35. -/
def digit_char (d : Nat) : Nat :=
  if d < 10 then 48 + d else 65 + (d - 10)

/-- The digits of `value` in base `base`, most significant first, without leading zero; the
single digit 0 for the value 0. -/
def base_digits (base value : Nat) : List Nat :=
  if value = 0 then [0] else (Nat.digits base value).reverse

/-- The string "Hello, World!" of `tests/firmware/firmware.c`, as character codes. -/
def hello_world : List Nat :=
  [0x48, 0x65, 0x6C, 0x6C, 0x6F, 0x2C, 0x20, 0x57, 0x6F, 0x72, 0x6C, 0x64, 0x21]

/-! ## The integer template with its call stack and its divisions made explicit -/

/-- What a run of `NU` could do wrong: need more nested calls than the stack allows, or
divide by zero. -/
inductive uint_fault where
  | stack_exhausted
  | division_by_zero
deriving DecidableEq, Repr

/-- The function `NU` of `_DEFINE_BANG_INT` once more, statement by statement, run with
room for `depth` nested calls: every call (the outermost included) takes one level, and
`value / base`, `value % base` fail for `base = 0`. -/
def bang_uint_bounded (cfg : printbang_config) (glue : Nat) :
    Nat → avr_state → Nat → Nat → Except uint_fault avr_state
  | 0, _, _, _ => .error .stack_exhausted
  | depth + 1, s, value, base =>
    if base < 2 ∨ base > 36 then .ok s
    else if base = 0 then .error .division_by_zero
    else
      let div := value / base
      let mod := value % base
      match (if div > 0 then bang_uint_bounded cfg glue depth s div base else .ok s) with
      | .error e => .error e
      | .ok s =>
        .ok (bang_char cfg (compiled_code glue s)
          ((if base > 10 ∧ mod ≥ 10 then (65 - 10) + mod else 48 + mod) % 256))

/-! ## Bytes and bits -/

theorem lor_land_compl (x m : Nat) : (x ||| m) &&& (255 - m) = x &&& (255 - m) := by
  apply Nat.eq_of_testBit_eq
  intro i
  simp only [Nat.testBit_land, Nat.testBit_lor]
  by_cases hm : m ≤ 255
  · have h255 : 255 - m = 2 ^ 8 - (m + 1) := by omega
    rw [h255, Nat.testBit_two_pow_sub_succ (by omega)]
    cases x.testBit i <;> cases m.testBit i <;> simp
  · have h0 : 255 - m = 0 := by omega
    simp [h0]

theorem pin_byte_lor (P m : Nat) (l : Bool) : pin_byte P m l ||| m = pin_high P m := by
  cases l
  · simp [pin_byte, pin_low, pin_high]
  · simp [pin_byte, pin_high, Nat.lor_assoc]

theorem pin_high_land (P m : Nat) : pin_high P m &&& (255 - m) = pin_low P m := by
  simp [pin_high, pin_low, lor_land_compl, Nat.land_assoc]

theorem and_one_beq (x : Nat) : (x &&& 1 == 1) = x.testBit 0 := by
  rw [Nat.and_one_is_mod, Nat.testBit_zero]
  by_cases h : x % 2 = 1 <;> simp [h]

theorem shift7_and_one_beq (x : Nat) : (x >>> 7 &&& 1 == 1) = x.testBit 7 := by
  rw [and_one_beq, Nat.testBit_shiftRight]

/-! ## The transmitter: the write log of one call -/

theorem run_delay_cycle {d : delay_state → delay_state} {D : Nat} (hd : delay_costs d D)
    (s : avr_state) : (run_delay d s).cycle = s.cycle + D := by
  simp [run_delay, hd _]

theorem ror_inv (x j r : Nat) (c : Bool) (hj : j < 8) (h : value_inv false x j r) :
    value_inv false x (j + 1) ((if c then 128 else 0) ||| (r >>> 1)) := by
  simp only [value_inv, Bool.false_eq_true, if_false] at h ⊢
  intro i hi
  rw [Nat.testBit_lor, Nat.testBit_shiftRight, Nat.add_comm 1 i, h (i + 1) (by omega)]
  have hc : (if c then 128 else 0 : Nat).testBit i = false := by
    cases c
    · simp
    · have : (128 : Nat) = 2 ^ 7 := by norm_num
      simp only [if_true, this]
      exact Nat.testBit_two_pow_of_ne (by omega)
  rw [hc, Bool.false_or]
  congr 1
  omega

theorem rol_inv (x j r : Nat) (c : Bool) (hj : j < 8) (h : value_inv true x j r) :
    value_inv true x (j + 1) (((r <<< 1) % 256) ||| (if c then 1 else 0)) := by
  simp only [value_inv, if_true] at h ⊢
  intro i hji hi
  have h256 : (256 : Nat) = 2 ^ 8 := by norm_num
  rw [Nat.testBit_lor, h256, Nat.testBit_mod_two_pow, Nat.testBit_shiftLeft,
    h (i - 1) (by omega) (by omega)]
  have hc : (if c then 1 else 0 : Nat).testBit i = false := by
    cases c
    · simp
    · simp only [if_true]
      have : (1 : Nat) = 2 ^ 0 := by norm_num
      rw [this]
      exact Nat.testBit_two_pow_of_ne (by omega)
  rw [hc, Bool.or_false]
  have e : i - 1 - j = i - (j + 1) := by omega
  simp [hi, e]
  omega

theorem transmit_bit_spec (cfg : printbang_config) (D P x j : Nat)
    (hd : delay_costs cfg.PRINTBANG_DELAY D) (s : avr_state) (hj : j < 8)
    (hv : value_inv cfg.PRINTBANG_ORDER_MSB x j s.value)
    (hp : ∃ l, s.port_value = pin_byte P cfg.PRINTBANG_PIN_MASK l) :
    (transmit_bit cfg s).writes = s.writes ++
        [{ cycle := s.cycle + D + 4,
           value := pin_byte P cfg.PRINTBANG_PIN_MASK (data_bit cfg.PRINTBANG_ORDER_MSB x j),
           interrupts := s.interrupts }]
    ∧ (transmit_bit cfg s).cycle = s.cycle + D + 6
    ∧ (transmit_bit cfg s).bits_remaining = (s.bits_remaining + 255) % 256
    ∧ (transmit_bit cfg s).zero = ((s.bits_remaining + 255) % 256 == 0)
    ∧ (transmit_bit cfg s).interrupts = s.interrupts
    ∧ (transmit_bit cfg s).parity = s.parity
    ∧ value_inv cfg.PRINTBANG_ORDER_MSB x (j + 1) (transmit_bit cfg s).value
    ∧ (transmit_bit cfg s).port_value =
        pin_byte P cfg.PRINTBANG_PIN_MASK (data_bit cfg.PRINTBANG_ORDER_MSB x j)
    ∧ (transmit_bit cfg s).port = (transmit_bit cfg s).port_value := by
  obtain ⟨l, hl⟩ := hp
  have hD := hd { r18 := s.r18, carry := s.carry, zero := s.zero, cycle := s.cycle }
  simp only at hD
  cases hmsb : cfg.PRINTBANG_ORDER_MSB
  · -- ror
    rw [hmsb] at hv
    have hb : s.value.testBit 0 = x.testBit j := by
      have := hv
      simp only [value_inv, Bool.false_eq_true, if_false] at this
      simpa using this 0 (by omega)
    have hinv := ror_inv x j s.value
      (cfg.PRINTBANG_DELAY { r18 := s.r18, carry := s.carry, zero := s.zero, cycle := s.cycle }).carry hj hv
    have hc : (s.value &&& 1 == 1) = x.testBit j := by rw [and_one_beq, hb]
    simp only [transmit_bit, hmsb, run_delay, sbr_port_value, ror_value, branch,
      cbr_port_value, out_port, dec_bits_remaining, hc, hl, pin_byte_lor, hD,
      Bool.false_eq_true, if_false]
    cases hbit : x.testBit j <;>
      simp [pin_high_land, data_bit, pin_byte, hinv, hbit, Nat.add_assoc]
  · rw [hmsb] at hv
    have hb : s.value.testBit 7 = x.testBit (7 - j) := by
      have := hv
      simp only [value_inv, if_true] at this
      simpa using this 7 (by omega) (by omega)
    have hinv := rol_inv x j s.value
      (cfg.PRINTBANG_DELAY { r18 := s.r18, carry := s.carry, zero := s.zero, cycle := s.cycle }).carry hj hv
    have hc : (s.value >>> 7 &&& 1 == 1) = x.testBit (7 - j) := by rw [shift7_and_one_beq, hb]
    simp only [transmit_bit, hmsb, run_delay, sbr_port_value, rol_value, branch,
      cbr_port_value, out_port, dec_bits_remaining, hc, hl, pin_byte_lor, hD, if_true]
    cases hbit : x.testBit (7 - j) <;>
      simp [pin_high_land, data_bit, pin_byte, hinv, hbit, Nat.add_assoc]

theorem transmit_bits_spec (cfg : printbang_config) (D P x : Nat)
    (hd : delay_costs cfg.PRINTBANG_DELAY D) :
    ∀ (k j : Nat) (s : avr_state), s.bits_remaining = k + 1 → j + k + 1 ≤ 8 →
      value_inv cfg.PRINTBANG_ORDER_MSB x j s.value →
      (∃ l, s.port_value = pin_byte P cfg.PRINTBANG_PIN_MASK l) →
      (transmit_bits cfg s).writes = s.writes ++
          timed_writes (s.cycle + D + 4) (D + 8) s.interrupts
            ((List.range' j (k + 1)).map
              (fun i => pin_byte P cfg.PRINTBANG_PIN_MASK (data_bit cfg.PRINTBANG_ORDER_MSB x i)))
      ∧ (transmit_bits cfg s).cycle = s.cycle + k * (D + 8) + D + 7
      ∧ (transmit_bits cfg s).interrupts = s.interrupts
      ∧ (transmit_bits cfg s).parity = s.parity
      ∧ (∃ l, (transmit_bits cfg s).port_value = pin_byte P cfg.PRINTBANG_PIN_MASK l) := by
  intro k
  induction k with
  | zero =>
    intro j s hb hj hv hp
    obtain ⟨hw, hc, hbr, hz, hi, hpar, -, hpv, -⟩ :=
      transmit_bit_spec cfg D P x j hd s (by omega) hv hp
    rw [transmit_bits]
    have hz1 : (transmit_bit cfg s).zero = true := by rw [hz, hb]; rfl
    simp only [hz1, if_true, branch, Bool.false_eq_true, if_false]
    refine ⟨?_, ?_, hi, hpar, ⟨_, hpv⟩⟩
    · rw [hw]; simp [timed_writes]
    · rw [hc]; omega
  | succ k ih =>
    intro j s hb hj hv hp
    obtain ⟨hw, hc, hbr, hz, hi, hpar, hv1, hpv, -⟩ :=
      transmit_bit_spec cfg D P x j hd s (by omega) hv hp
    rw [transmit_bits]
    have hbr1 : (s.bits_remaining + 255) % 256 = k + 1 := by omega
    have hz1 : (transmit_bit cfg s).zero = false := by rw [hz, hbr1]; simp
    simp only [hz1, Bool.false_eq_true, if_false]
    have ih1 := ih (j + 1) (branch true (transmit_bit cfg s))
      (by simp only [branch]; rw [hbr, hbr1]) (by omega) (by simpa [branch] using hv1)
      ⟨_, by simpa [branch] using hpv⟩
    obtain ⟨iw, ic, ii, ipar, ipv⟩ := ih1
    have ht : s.cycle + D + 6 + 2 + D + 4 = s.cycle + D + 4 + (D + 8) := by omega
    refine ⟨?_, ?_, ?_, ?_, ipv⟩
    · rw [iw]
      simp only [branch, if_true, hw, hc, hi, ht]
      rw [List.range'_succ j (k + 1)]
      simp [timed_writes]
    · rw [ic]; simp only [branch, if_true, hc]; ring
    · rw [ii]; simpa [branch] using hi
    · rw [ipar]; simpa [branch] using hpar

theorem bang_char_eq (cfg : printbang_config) (s : avr_state) (value : Nat) :
    bang_char cfg s value =
      sei (run_delay cfg.PRINTBANG_DELAY (out_port (sbr_port_value cfg.PRINTBANG_PIN_MASK (lpm
        (transmit_parity cfg (run_delay cfg.PRINTBANG_DELAY (nop (transmit_bits cfg (lpm
          (out_port (cbr_port_value cfg.PRINTBANG_PIN_MASK
            (bang_char_entry cfg s value)))))))))))) := by
  unfold bang_char bang_char_entry aligned_value cli
  split_ifs <;> rfl

theorem transmit_parity_spec (cfg : printbang_config) (D P x : Nat)
    (hd : delay_costs cfg.PRINTBANG_DELAY D) (s : avr_state)
    (hpar : cfg.parity ≠ .PRINTBANG_PARITY_NONE → s.parity = parity_even_bit x)
    (hp : ∃ l, s.port_value = pin_byte P cfg.PRINTBANG_PIN_MASK l) :
    (transmit_parity cfg s).writes = s.writes ++
        timed_writes (s.cycle + 4) (D + 8) s.interrupts
          ((parity_levels cfg.parity x).map (pin_byte P cfg.PRINTBANG_PIN_MASK))
    ∧ (transmit_parity cfg s).cycle = s.cycle + (parity_levels cfg.parity x).length * (D + 8)
    ∧ (transmit_parity cfg s).interrupts = s.interrupts
    ∧ (∃ l, (transmit_parity cfg s).port_value = pin_byte P cfg.PRINTBANG_PIN_MASK l) := by
  obtain ⟨l, hl⟩ := hp
  cases hpc : cfg.parity
  · simp [transmit_parity, hpc, parity_levels, timed_writes, hl]
  · have hpe := hpar (by simp [hpc])
    have hD : ∀ t, (cfg.PRINTBANG_DELAY t).cycle = t.cycle + D := hd
    simp only [transmit_parity, hpc, sbr_port_value, tst_parity, branch, cbr_port_value,
      out_port, lpm, run_delay, hl, pin_byte_lor, hpe, hD, parity_levels]
    by_cases h0 : parity_even_bit x = 0
    · simp [h0, pin_high_land, pin_byte, timed_writes]
      omega
    · simp [h0, pin_high_land, pin_byte, timed_writes]
      omega
  · have hpe := hpar (by simp [hpc])
    have hD : ∀ t, (cfg.PRINTBANG_DELAY t).cycle = t.cycle + D := hd
    simp only [transmit_parity, hpc, sbr_port_value, tst_parity, branch, cbr_port_value,
      out_port, lpm, run_delay, hl, pin_byte_lor, hpe, hD, parity_levels]
    by_cases h0 : parity_even_bit x = 0
    · simp [h0, pin_high_land, pin_byte, timed_writes]
      omega
    · simp [h0, pin_high_land, pin_byte, timed_writes]
      omega

theorem timed_writes_append (t T : Nat) (irq : Bool) (xs ys : List Nat) :
    timed_writes t T irq (xs ++ ys) =
      timed_writes t T irq xs ++ timed_writes (t + xs.length * T) T irq ys := by
  induction xs generalizing t with
  | nil => simp [timed_writes]
  | cons b bs ih =>
    have e : t + T + bs.length * T = t + (bs.length + 1) * T := by ring
    show timed_writes t T irq (b :: (bs ++ ys)) = _
    simp only [timed_writes, ih, List.length_cons, List.cons_append, e]

theorem bang_char_writes (cfg : printbang_config) (D : Nat)
    (hd : delay_costs cfg.PRINTBANG_DELAY D) (s : avr_state) (value : Nat)
    (h1 : 1 ≤ cfg.PRINTBANG_DATA_BITS) (h8 : cfg.PRINTBANG_DATA_BITS ≤ 8) :
    (bang_char cfg s value).writes = s.writes ++
      timed_writes (s.cycle + 1) (D + 8) false
        ((frame_levels cfg value).map (pin_byte s.port cfg.PRINTBANG_PIN_MASK)) := by
  obtain ⟨k, hk⟩ : ∃ k, cfg.PRINTBANG_DATA_BITS = k + 1 := ⟨cfg.PRINTBANG_DATA_BITS - 1, by omega⟩
  have hD : ∀ t, (cfg.PRINTBANG_DELAY t).cycle = t.cycle + D := hd
  rw [bang_char_eq]
  -- the start bit
  have ew : (lpm (out_port (cbr_port_value cfg.PRINTBANG_PIN_MASK
      (bang_char_entry cfg s value)))).writes = s.writes ++
        [{ cycle := s.cycle + 1, value := pin_byte s.port cfg.PRINTBANG_PIN_MASK false,
           interrupts := false }] := by
    simp [lpm, out_port, cbr_port_value, bang_char_entry, pin_byte, pin_low]
  have ec : (lpm (out_port (cbr_port_value cfg.PRINTBANG_PIN_MASK
      (bang_char_entry cfg s value)))).cycle = s.cycle + 5 := by
    simp [lpm, out_port, cbr_port_value, bang_char_entry]
  have ei : (lpm (out_port (cbr_port_value cfg.PRINTBANG_PIN_MASK
      (bang_char_entry cfg s value)))).interrupts = false := by
    simp [lpm, out_port, cbr_port_value, bang_char_entry]
  have epar : cfg.parity ≠ .PRINTBANG_PARITY_NONE →
      (lpm (out_port (cbr_port_value cfg.PRINTBANG_PIN_MASK
        (bang_char_entry cfg s value)))).parity = parity_even_bit (aligned_value cfg value) := by
    intro hne
    simp [lpm, out_port, cbr_port_value, bang_char_entry, hne]
  have eb : (lpm (out_port (cbr_port_value cfg.PRINTBANG_PIN_MASK
      (bang_char_entry cfg s value)))).bits_remaining = k + 1 := by
    simp only [lpm, out_port, cbr_port_value, bang_char_entry]; omega
  have ev : value_inv cfg.PRINTBANG_ORDER_MSB (aligned_value cfg value) 0
      (lpm (out_port (cbr_port_value cfg.PRINTBANG_PIN_MASK
        (bang_char_entry cfg s value)))).value := by
    simp only [lpm, out_port, cbr_port_value, bang_char_entry, value_inv]
    split_ifs <;> simp
  have epv : (lpm (out_port (cbr_port_value cfg.PRINTBANG_PIN_MASK
      (bang_char_entry cfg s value)))).port_value =
        pin_byte s.port cfg.PRINTBANG_PIN_MASK false := by
    simp [lpm, out_port, cbr_port_value, bang_char_entry, pin_byte, pin_low]
  generalize lpm (out_port (cbr_port_value cfg.PRINTBANG_PIN_MASK
      (bang_char_entry cfg s value))) = e at ew ec ei epar eb ev epv ⊢
  -- the data bits
  obtain ⟨bw, bc, bi, bpar, bpv⟩ :=
    transmit_bits_spec cfg D s.port (aligned_value cfg value) hd k 0 e eb (by omega) ev ⟨_, epv⟩
  rw [ew, ec, ei] at bw
  rw [ec] at bc
  rw [ei] at bi
  generalize transmit_bits cfg e = s2 at bw bc bi bpar bpv ⊢
  -- the parity bit
  have dw : (run_delay cfg.PRINTBANG_DELAY (nop s2)).writes = s2.writes := rfl
  have dc : (run_delay cfg.PRINTBANG_DELAY (nop s2)).cycle = s2.cycle + 1 + D := by
    simp [run_delay, nop, hD]
  have di : (run_delay cfg.PRINTBANG_DELAY (nop s2)).interrupts = s2.interrupts := rfl
  have dpar : (run_delay cfg.PRINTBANG_DELAY (nop s2)).parity = s2.parity := rfl
  have dpv : (run_delay cfg.PRINTBANG_DELAY (nop s2)).port_value = s2.port_value := rfl
  obtain ⟨pw, pc, pi, l, hl⟩ :=
    transmit_parity_spec cfg D s.port (aligned_value cfg value) hd
      (run_delay cfg.PRINTBANG_DELAY (nop s2))
      (fun hne => by rw [dpar, bpar]; exact epar hne) (by rw [dpv]; exact bpv)
  rw [dw, dc, di, bw, bc, bi] at pw
  rw [dc, bc] at pc
  rw [di, bi] at pi
  generalize transmit_parity cfg (run_delay cfg.PRINTBANG_DELAY (nop s2)) = s4 at pw pc pi hl ⊢
  -- the stop bit
  have t1 : s.cycle + 5 + D + 4 = s.cycle + 1 + (D + 8) := by omega
  have t2 : s.cycle + 5 + k * (D + 8) + D + 7 + 1 + D + 4 =
      s.cycle + 1 + (D + 8) + (k + 1) * (D + 8) := by ring
  have t3 : ∀ L, s.cycle + 5 + k * (D + 8) + D + 7 + 1 + D + L + 3 + 1 =
      s.cycle + 1 + (D + 8) + (k + 1) * (D + 8) + L := by intro L; ring
  rw [t1, t2] at pw
  simp only [sei, run_delay, out_port, sbr_port_value, lpm, pw, pc, pi, hl, pin_byte_lor, t3]
  simp only [frame_levels, hk, List.map_cons, List.map_append, timed_writes,
    timed_writes_append, List.length_map, List.length_range', List.map_nil, List.length_cons,
    List.length_nil, List.append_assoc, List.cons_append, List.nil_append, List.map_map,
    Function.comp_def]
  simp [pin_byte]

/-! ## The transmitter: the bytes written, whatever the delay snippet does -/

theorem transmit_bit_values (cfg : printbang_config) (P x j : Nat) (s : avr_state) (hj : j < 8)
    (hv : value_inv cfg.PRINTBANG_ORDER_MSB x j s.value)
    (hp : ∃ l, s.port_value = pin_byte P cfg.PRINTBANG_PIN_MASK l) :
    (transmit_bit cfg s).writes.map (fun w => (w.value, w.interrupts)) =
        s.writes.map (fun w => (w.value, w.interrupts)) ++
        [(pin_byte P cfg.PRINTBANG_PIN_MASK (data_bit cfg.PRINTBANG_ORDER_MSB x j),
          s.interrupts)]
    ∧ (transmit_bit cfg s).bits_remaining = (s.bits_remaining + 255) % 256
    ∧ (transmit_bit cfg s).zero = ((s.bits_remaining + 255) % 256 == 0)
    ∧ (transmit_bit cfg s).interrupts = s.interrupts
    ∧ (transmit_bit cfg s).parity = s.parity
    ∧ value_inv cfg.PRINTBANG_ORDER_MSB x (j + 1) (transmit_bit cfg s).value
    ∧ (transmit_bit cfg s).port_value =
        pin_byte P cfg.PRINTBANG_PIN_MASK (data_bit cfg.PRINTBANG_ORDER_MSB x j) := by
  obtain ⟨l, hl⟩ := hp
  cases hmsb : cfg.PRINTBANG_ORDER_MSB
  · rw [hmsb] at hv
    have hb : s.value.testBit 0 = x.testBit j := by
      have := hv
      simp only [value_inv, Bool.false_eq_true, if_false] at this
      simpa using this 0 (by omega)
    have hinv := ror_inv x j s.value
      (cfg.PRINTBANG_DELAY { r18 := s.r18, carry := s.carry, zero := s.zero, cycle := s.cycle }).carry hj hv
    have hc : (s.value &&& 1 == 1) = x.testBit j := by rw [and_one_beq, hb]
    simp only [transmit_bit, hmsb, run_delay, sbr_port_value, ror_value, branch,
      cbr_port_value, out_port, dec_bits_remaining, hc, hl, pin_byte_lor,
      Bool.false_eq_true, if_false]
    cases hbit : x.testBit j <;>
      simp [pin_high_land, data_bit, pin_byte, hinv, hbit]
  · rw [hmsb] at hv
    have hb : s.value.testBit 7 = x.testBit (7 - j) := by
      have := hv
      simp only [value_inv, if_true] at this
      simpa using this 7 (by omega) (by omega)
    have hinv := rol_inv x j s.value
      (cfg.PRINTBANG_DELAY { r18 := s.r18, carry := s.carry, zero := s.zero, cycle := s.cycle }).carry hj hv
    have hc : (s.value >>> 7 &&& 1 == 1) = x.testBit (7 - j) := by rw [shift7_and_one_beq, hb]
    simp only [transmit_bit, hmsb, run_delay, sbr_port_value, rol_value, branch,
      cbr_port_value, out_port, dec_bits_remaining, hc, hl, pin_byte_lor, if_true]
    cases hbit : x.testBit (7 - j) <;>
      simp [pin_high_land, data_bit, pin_byte, hinv, hbit]

theorem transmit_bits_values (cfg : printbang_config) (P x : Nat) :
    ∀ (k j : Nat) (s : avr_state), s.bits_remaining = k + 1 → j + k + 1 ≤ 8 →
      value_inv cfg.PRINTBANG_ORDER_MSB x j s.value →
      (∃ l, s.port_value = pin_byte P cfg.PRINTBANG_PIN_MASK l) →
      (transmit_bits cfg s).writes.map (fun w => (w.value, w.interrupts)) =
          s.writes.map (fun w => (w.value, w.interrupts)) ++
          (List.range' j (k + 1)).map (fun i =>
            (pin_byte P cfg.PRINTBANG_PIN_MASK (data_bit cfg.PRINTBANG_ORDER_MSB x i),
              s.interrupts))
      ∧ (transmit_bits cfg s).interrupts = s.interrupts
      ∧ (transmit_bits cfg s).parity = s.parity
      ∧ (∃ l, (transmit_bits cfg s).port_value = pin_byte P cfg.PRINTBANG_PIN_MASK l) := by
  intro k
  induction k with
  | zero =>
    intro j s hb hj hv hp
    obtain ⟨hw, hbr, hz, hi, hpar, -, hpv⟩ := transmit_bit_values cfg P x j s (by omega) hv hp
    rw [transmit_bits]
    have hz1 : (transmit_bit cfg s).zero = true := by rw [hz, hb]; rfl
    simp only [hz1, if_true, branch, Bool.false_eq_true, if_false]
    exact ⟨by rw [hw]; simp, hi, hpar, ⟨_, hpv⟩⟩
  | succ k ih =>
    intro j s hb hj hv hp
    obtain ⟨hw, hbr, hz, hi, hpar, hv1, hpv⟩ := transmit_bit_values cfg P x j s (by omega) hv hp
    rw [transmit_bits]
    have hbr1 : (s.bits_remaining + 255) % 256 = k + 1 := by omega
    have hz1 : (transmit_bit cfg s).zero = false := by rw [hz, hbr1]; simp
    simp only [hz1, Bool.false_eq_true, if_false]
    obtain ⟨iw, ii, ipar, ipv⟩ := ih (j + 1) (branch true (transmit_bit cfg s))
      (by simp only [branch]; rw [hbr, hbr1]) (by omega) (by simpa [branch] using hv1)
      ⟨_, by simpa [branch] using hpv⟩
    refine ⟨?_, ?_, ?_, ipv⟩
    · rw [iw]
      simp only [branch, hw, hi]
      rw [List.range'_succ j (k + 1)]
      simp
    · rw [ii]; simpa [branch] using hi
    · rw [ipar]; simpa [branch] using hpar

theorem transmit_parity_values (cfg : printbang_config) (P x : Nat) (s : avr_state)
    (hpar : cfg.parity ≠ .PRINTBANG_PARITY_NONE → s.parity = parity_even_bit x)
    (hp : ∃ l, s.port_value = pin_byte P cfg.PRINTBANG_PIN_MASK l) :
    (transmit_parity cfg s).writes.map (fun w => (w.value, w.interrupts)) =
        s.writes.map (fun w => (w.value, w.interrupts)) ++
        (parity_levels cfg.parity x).map
          (fun l => (pin_byte P cfg.PRINTBANG_PIN_MASK l, s.interrupts))
    ∧ (transmit_parity cfg s).interrupts = s.interrupts
    ∧ (∃ l, (transmit_parity cfg s).port_value = pin_byte P cfg.PRINTBANG_PIN_MASK l) := by
  obtain ⟨l, hl⟩ := hp
  cases hpc : cfg.parity
  · simp [transmit_parity, hpc, parity_levels, hl]
  · have hpe := hpar (by simp [hpc])
    simp only [transmit_parity, hpc, sbr_port_value, tst_parity, branch, cbr_port_value,
      out_port, lpm, run_delay, hl, pin_byte_lor, hpe, parity_levels]
    by_cases h0 : parity_even_bit x = 0 <;> simp [h0, pin_high_land, pin_byte]
  · have hpe := hpar (by simp [hpc])
    simp only [transmit_parity, hpc, sbr_port_value, tst_parity, branch, cbr_port_value,
      out_port, lpm, run_delay, hl, pin_byte_lor, hpe, parity_levels]
    by_cases h0 : parity_even_bit x = 0 <;> simp [h0, pin_high_land, pin_byte]

theorem bang_char_values (cfg : printbang_config) (s : avr_state) (value : Nat)
    (h1 : 1 ≤ cfg.PRINTBANG_DATA_BITS) (h8 : cfg.PRINTBANG_DATA_BITS ≤ 8) :
    (bang_char cfg s value).writes.map (fun w => (w.value, w.interrupts)) =
      s.writes.map (fun w => (w.value, w.interrupts)) ++
        (frame_levels cfg value).map (fun l => (pin_byte s.port cfg.PRINTBANG_PIN_MASK l, false)) := by
  obtain ⟨k, hk⟩ : ∃ k, cfg.PRINTBANG_DATA_BITS = k + 1 := ⟨cfg.PRINTBANG_DATA_BITS - 1, by omega⟩
  rw [bang_char_eq]
  have ew : (lpm (out_port (cbr_port_value cfg.PRINTBANG_PIN_MASK
      (bang_char_entry cfg s value)))).writes.map (fun w => (w.value, w.interrupts)) =
        s.writes.map (fun w => (w.value, w.interrupts)) ++
        [(pin_byte s.port cfg.PRINTBANG_PIN_MASK false, false)] := by
    simp [lpm, out_port, cbr_port_value, bang_char_entry, pin_byte, pin_low]
  have ei : (lpm (out_port (cbr_port_value cfg.PRINTBANG_PIN_MASK
      (bang_char_entry cfg s value)))).interrupts = false := by
    simp [lpm, out_port, cbr_port_value, bang_char_entry]
  have epar : cfg.parity ≠ .PRINTBANG_PARITY_NONE →
      (lpm (out_port (cbr_port_value cfg.PRINTBANG_PIN_MASK
        (bang_char_entry cfg s value)))).parity = parity_even_bit (aligned_value cfg value) := by
    intro hne
    simp [lpm, out_port, cbr_port_value, bang_char_entry, hne]
  have eb : (lpm (out_port (cbr_port_value cfg.PRINTBANG_PIN_MASK
      (bang_char_entry cfg s value)))).bits_remaining = k + 1 := by
    simp only [lpm, out_port, cbr_port_value, bang_char_entry]; omega
  have ev : value_inv cfg.PRINTBANG_ORDER_MSB (aligned_value cfg value) 0
      (lpm (out_port (cbr_port_value cfg.PRINTBANG_PIN_MASK
        (bang_char_entry cfg s value)))).value := by
    simp only [lpm, out_port, cbr_port_value, bang_char_entry, value_inv]
    split_ifs <;> simp
  have epv : (lpm (out_port (cbr_port_value cfg.PRINTBANG_PIN_MASK
      (bang_char_entry cfg s value)))).port_value =
        pin_byte s.port cfg.PRINTBANG_PIN_MASK false := by
    simp [lpm, out_port, cbr_port_value, bang_char_entry, pin_byte, pin_low]
  generalize lpm (out_port (cbr_port_value cfg.PRINTBANG_PIN_MASK
      (bang_char_entry cfg s value))) = e at ew ei epar eb ev epv ⊢
  obtain ⟨bw, bi, bpar, bpv⟩ :=
    transmit_bits_values cfg s.port (aligned_value cfg value) k 0 e eb (by omega) ev ⟨_, epv⟩
  rw [ew, ei] at bw
  rw [ei] at bi
  generalize transmit_bits cfg e = s2 at bw bi bpar bpv ⊢
  have dw : (run_delay cfg.PRINTBANG_DELAY (nop s2)).writes = s2.writes := rfl
  have di : (run_delay cfg.PRINTBANG_DELAY (nop s2)).interrupts = s2.interrupts := rfl
  have dpar : (run_delay cfg.PRINTBANG_DELAY (nop s2)).parity = s2.parity := rfl
  have dpv : (run_delay cfg.PRINTBANG_DELAY (nop s2)).port_value = s2.port_value := rfl
  obtain ⟨pw, pi, l, hl⟩ :=
    transmit_parity_values cfg s.port (aligned_value cfg value)
      (run_delay cfg.PRINTBANG_DELAY (nop s2))
      (fun hne => by rw [dpar, bpar]; exact epar hne) (by rw [dpv]; exact bpv)
  rw [dw, di, bw, bi] at pw
  rw [di, bi] at pi
  generalize transmit_parity cfg (run_delay cfg.PRINTBANG_DELAY (nop s2)) = s4 at pw pi hl ⊢
  simp only [sei, run_delay, out_port, sbr_port_value, lpm, List.map_append, pw, pi, hl,
    pin_byte_lor]
  simp [frame_levels, hk, pin_byte]

/-! ## The transmitter: pin levels of a frame -/

theorem shift_and_one (x p : Nat) : (x >>> p) &&& 1 = (x.testBit p).toNat := by
  rw [Nat.and_one_is_mod, Nat.shiftRight_eq_div_pow, Nat.testBit_to_div_mod]
  by_cases h : x / 2 ^ p % 2 = 1
  · simp [h]
  · have : x / 2 ^ p % 2 = 0 := by omega
    simp [this]

theorem pin_level_pin_byte (P m pin : Nat) (l : Bool) (hm : m < 256)
    (hp : m.testBit pin = true) :
    avr_regbit_get (pin_byte P m l) { bit := pin, mask := 1 } = l.toNat := by
  have h255 : 255 - m = 2 ^ 8 - (m + 1) := by omega
  have hm8 : m < 2 ^ 8 := by omega
  simp only [avr_regbit_get, shift_and_one]
  cases l
  · simp only [pin_byte, pin_low, Nat.testBit_land, h255, Nat.testBit_two_pow_sub_succ hm8, hp,
      Bool.false_eq_true, if_false]
    simp
  · simp [pin_byte, pin_high, Nat.testBit_lor, hp]

theorem bang_char_frame_values (cfg : printbang_config) (s : avr_state) (value : Nat)
    (h1 : 1 ≤ cfg.PRINTBANG_DATA_BITS) (h8 : cfg.PRINTBANG_DATA_BITS ≤ 8) :
    (bang_char_frame cfg s value).map (fun w => (w.value, w.interrupts)) =
      (frame_levels cfg value).map
        (fun l => (pin_byte s.port cfg.PRINTBANG_PIN_MASK l, false)) := by
  unfold bang_char_frame
  rw [List.map_drop, bang_char_values cfg s value h1 h8]
  have hl : s.writes.length = (s.writes.map (fun w => (w.value, w.interrupts))).length := by
    simp
  rw [hl, List.drop_left]

theorem bang_char_frame_levels (cfg : printbang_config) (s : avr_state) (value pin : Nat)
    (h1 : 1 ≤ cfg.PRINTBANG_DATA_BITS) (h8 : cfg.PRINTBANG_DATA_BITS ≤ 8)
    (hm : cfg.PRINTBANG_PIN_MASK < 256) (hp : cfg.PRINTBANG_PIN_MASK.testBit pin = true) :
    (bang_char_frame cfg s value).map (pin_level pin) =
      (frame_levels cfg value).map Bool.toNat := by
  have h := congrArg (List.map (fun p : Nat × Bool => avr_regbit_get p.1 { bit := pin, mask := 1 }))
    (bang_char_frame_values cfg s value h1 h8)
  simp only [List.map_map, Function.comp_def, pin_level_pin_byte _ _ _ _ hm hp] at h
  simpa [pin_level] using h

theorem bang_char_frame_length (cfg : printbang_config) (s : avr_state) (value : Nat)
    (h1 : 1 ≤ cfg.PRINTBANG_DATA_BITS) (h8 : cfg.PRINTBANG_DATA_BITS ≤ 8) :
    (bang_char_frame cfg s value).length =
      1 + cfg.PRINTBANG_DATA_BITS +
        (if cfg.parity = .PRINTBANG_PARITY_NONE then 0 else 1) + 1 := by
  have h := congrArg List.length (bang_char_frame_values cfg s value h1 h8)
  simp only [List.length_map] at h
  rw [h]
  cases hp : cfg.parity <;> simp [frame_levels, parity_levels, hp] <;> omega

/-! ## The data bits of a byte, checked over all bytes -/

set_option maxRecDepth 100000 in
theorem lsb_bits_popcount : ∀ n < 9, ∀ x < 256, x < 2 ^ n →
    ((List.range' 0 n).map (fun j => (data_bit false x j).toNat)).sum = popcount x := by
  decide

set_option maxRecDepth 100000 in
theorem msb_bits_popcount : ∀ n < 9, ∀ v < 256,
    ((List.range' 0 n).map (fun j => (data_bit true ((v <<< (8 - n)) % 256) j).toNat)).sum =
      popcount ((v <<< (8 - n)) % 256) := by
  decide

set_option maxRecDepth 100000 in
theorem lsb_bits_value : ∀ n < 9, ∀ v < 256, v < 2 ^ n →
    lsb_value ((List.range' 0 n).map (fun j => (data_bit false v j).toNat)) = v := by
  decide

set_option maxRecDepth 100000 in
theorem msb_bits_value : ∀ n < 9, ∀ v < 256, v < 2 ^ n →
    msb_value ((List.range' 0 n).map
      (fun j => (data_bit true ((v <<< (8 - n)) % 256) j).toNat)) = v := by
  decide

/-! ## Claims on the framing -/

/-- C2. LSB-first framing: with `PRINTBANG_ORDER_MSB` undefined and 1 to 8 data bits, the
pin levels that one call of `bang_char` writes are 0 (start), bit `i` of the value for
`i = 0, ..., dataBits - 1` in that order, one parity level exactly when a parity switch is
defined, and 1 (stop): `1 + dataBits + (0 or 1) + 1` writes.  For 7 data bits, no parity and
the value 0x48 the levels are 0,0,0,0,1,0,0,1,1. -/
theorem lsb_first_framing (cfg : printbang_config) (s : avr_state) (v pin : Nat)
    (hlsb : cfg.PRINTBANG_ORDER_MSB = false)
    (h1 : 1 ≤ cfg.PRINTBANG_DATA_BITS) (h8 : cfg.PRINTBANG_DATA_BITS ≤ 8)
    (hm : cfg.PRINTBANG_PIN_MASK < 256) (hp : cfg.PRINTBANG_PIN_MASK.testBit pin = true) :
    (∃ par : List Nat,
        par.length = (if cfg.parity = .PRINTBANG_PARITY_NONE then 0 else 1) ∧
        (∀ p ∈ par, p ≤ 1) ∧
        (bang_char_frame cfg s v).map (pin_level pin) =
          0 :: ((List.range cfg.PRINTBANG_DATA_BITS).map (fun i => (v.testBit i).toNat) ++
            par ++ [1]))
    ∧ (bang_char_frame cfg s v).length =
        1 + cfg.PRINTBANG_DATA_BITS +
          (if cfg.parity = .PRINTBANG_PARITY_NONE then 0 else 1) + 1
    ∧ (cfg.PRINTBANG_DATA_BITS = 7 → cfg.parity = .PRINTBANG_PARITY_NONE → v = 0x48 →
        (bang_char_frame cfg s v).map (pin_level pin) = [0, 0, 0, 0, 1, 0, 0, 1, 1]) := by
  have hl := bang_char_frame_levels cfg s v pin h1 h8 hm hp
  have hlev : (frame_levels cfg v).map Bool.toNat =
      0 :: ((List.range cfg.PRINTBANG_DATA_BITS).map (fun i => (v.testBit i).toNat) ++
        (parity_levels cfg.parity (aligned_value cfg v)).map Bool.toNat ++ [1]) := by
    simp [frame_levels, hlsb, aligned_value, data_bit, List.range_eq_range', Function.comp_def]
  refine ⟨⟨(parity_levels cfg.parity (aligned_value cfg v)).map Bool.toNat, ?_, ?_, ?_⟩,
    bang_char_frame_length cfg s v h1 h8, ?_⟩
  · cases hpar : cfg.parity <;> simp [parity_levels]
  · intro p hp
    obtain ⟨b, -, rfl⟩ := List.mem_map.1 hp
    cases b <;> simp
  · rw [hl, hlev]
  · intro h7 hnone hv
    rw [hl, hlev, h7, hnone, hv]
    simp only [parity_levels, List.map_nil, List.append_nil]
    decide

/-- C2, instance: the firmware configuration sending 0x48. -/
theorem lsb_first_framing_witness :
    (bang_char_frame firmware_config idle_avr 0x48).map (pin_level 0) =
      [0, 0, 0, 0, 1, 0, 0, 1, 1] :=
  (lsb_first_framing firmware_config idle_avr 0x48 0 rfl (by decide) (by decide) (by decide)
    (by decide)).2.2 rfl rfl rfl

/-- C3. MSB-first framing: with `PRINTBANG_ORDER_MSB` defined and 1 to 8 data bits,
`bang_char` starts the `asm` statement with the byte `(v << (8 - dataBits)) mod 256` in the
register (for 8 data bits that is `v`), and the pin levels written between the start level 0
and the parity and stop levels are the bits 7, 6, ... of that byte, `dataBits` of them: bits
`dataBits - 1`, ..., 0 of `v`, in that order. -/
theorem msb_first_framing (cfg : printbang_config) (s : avr_state) (v pin : Nat)
    (hmsb : cfg.PRINTBANG_ORDER_MSB = true) (hv : v < 256)
    (h1 : 1 ≤ cfg.PRINTBANG_DATA_BITS) (h8 : cfg.PRINTBANG_DATA_BITS ≤ 8)
    (hm : cfg.PRINTBANG_PIN_MASK < 256) (hp : cfg.PRINTBANG_PIN_MASK.testBit pin = true) :
    (bang_char_entry cfg s v).value = (v <<< (8 - cfg.PRINTBANG_DATA_BITS)) % 256
    ∧ (∃ par : List Nat,
        par.length = (if cfg.parity = .PRINTBANG_PARITY_NONE then 0 else 1) ∧
        (∀ p ∈ par, p ≤ 1) ∧
        (bang_char_frame cfg s v).map (pin_level pin) =
          0 :: ((List.range cfg.PRINTBANG_DATA_BITS).map
              (fun i => ((bang_char_entry cfg s v).value.testBit (7 - i)).toNat) ++
            par ++ [1]))
    ∧ (∀ i, i < cfg.PRINTBANG_DATA_BITS →
        (bang_char_entry cfg s v).value.testBit (7 - i) =
          v.testBit (cfg.PRINTBANG_DATA_BITS - 1 - i)) := by
  have hl := bang_char_frame_levels cfg s v pin h1 h8 hm hp
  have hal : aligned_value cfg v = (v <<< (8 - cfg.PRINTBANG_DATA_BITS)) % 256 := by
    unfold aligned_value
    by_cases h : cfg.PRINTBANG_DATA_BITS = 8
    · simp [h, Nat.mod_eq_of_lt hv]
    · simp [h, hmsb]
  have he : (bang_char_entry cfg s v).value = aligned_value cfg v := rfl
  have hlev : (frame_levels cfg v).map Bool.toNat =
      0 :: ((List.range cfg.PRINTBANG_DATA_BITS).map
          (fun i => ((aligned_value cfg v).testBit (7 - i)).toNat) ++
        (parity_levels cfg.parity (aligned_value cfg v)).map Bool.toNat ++ [1]) := by
    simp [frame_levels, hmsb, data_bit, List.range_eq_range', Function.comp_def]
  refine ⟨by rw [he, hal], ⟨(parity_levels cfg.parity (aligned_value cfg v)).map Bool.toNat,
    ?_, ?_, ?_⟩, ?_⟩
  · cases hpar : cfg.parity <;> simp [parity_levels]
  · intro p hp
    obtain ⟨b, -, rfl⟩ := List.mem_map.1 hp
    cases b <;> simp
  · rw [hl, hlev, he]
  · intro i hi
    have h256 : (256 : Nat) = 2 ^ 8 := by norm_num
    rw [he, hal, h256, Nat.testBit_mod_two_pow, Nat.testBit_shiftLeft]
    have e : 7 - i - (8 - cfg.PRINTBANG_DATA_BITS) = cfg.PRINTBANG_DATA_BITS - 1 - i := by omega
    have h7 : 7 - i < 8 := by omega
    have hge : 7 - i ≥ 8 - cfg.PRINTBANG_DATA_BITS := by omega
    simp [e, h7, hge]

/-- C3, instance: 7 data bits, MSB first, even parity, the value 0x48: the register holds
0x90 and the levels are start, 1,0,0,1,0,0,0, parity 0, stop. -/
theorem msb_first_framing_witness :
    (bang_char_entry { firmware_config with
        PRINTBANG_ORDER_MSB := true, parity := .PRINTBANG_PARITY_EVEN } idle_avr 0x48).value
      = 0x90
    ∧ (bang_char_frame { firmware_config with
        PRINTBANG_ORDER_MSB := true, parity := .PRINTBANG_PARITY_EVEN } idle_avr 0x48).map
        (pin_level 0) = [0, 1, 0, 0, 1, 0, 0, 0, 0, 1] := by
  have h := msb_first_framing { firmware_config with
      PRINTBANG_ORDER_MSB := true, parity := .PRINTBANG_PARITY_EVEN } idle_avr 0x48 0 rfl
    (by decide) (by decide) (by decide) (by decide) (by decide)
  refine ⟨h.1, ?_⟩
  rw [bang_char_frame_levels _ _ _ 0 (by decide) (by decide) (by decide) (by decide)]
  decide

theorem frame_parity (cfg : printbang_config) (v : Nat) (hv : v < 256)
    (h1 : 1 ≤ cfg.PRINTBANG_DATA_BITS) (h8 : cfg.PRINTBANG_DATA_BITS ≤ 8)
    (hfit : cfg.PRINTBANG_ORDER_MSB = true ∨ v < 2 ^ cfg.PRINTBANG_DATA_BITS) :
    (((List.range' 0 cfg.PRINTBANG_DATA_BITS).map
          (fun j => (data_bit cfg.PRINTBANG_ORDER_MSB (aligned_value cfg v) j).toNat)).sum +
        ((parity_levels cfg.parity (aligned_value cfg v)).map Bool.toNat).sum) % 2 =
      match cfg.parity with
      | .PRINTBANG_PARITY_NONE => (popcount (aligned_value cfg v)) % 2
      | .PRINTBANG_PARITY_EVEN => 0
      | .PRINTBANG_PARITY_ODD => 1 := by
  have hsum : ((List.range' 0 cfg.PRINTBANG_DATA_BITS).map
      (fun j => (data_bit cfg.PRINTBANG_ORDER_MSB (aligned_value cfg v) j).toNat)).sum =
        popcount (aligned_value cfg v) := by
    cases hmsb : cfg.PRINTBANG_ORDER_MSB
    · have hal : aligned_value cfg v = v := by simp [aligned_value, hmsb]
      rw [hal]
      rcases hfit with h | h
      · rw [hmsb] at h; cases h
      · exact lsb_bits_popcount _ (by omega) v hv h
    · have hal : aligned_value cfg v = (v <<< (8 - cfg.PRINTBANG_DATA_BITS)) % 256 := by
        unfold aligned_value
        by_cases h : cfg.PRINTBANG_DATA_BITS = 8
        · simp [h, Nat.mod_eq_of_lt hv]
        · simp [h, hmsb]
      rw [hal]
      exact msb_bits_popcount _ (by omega) v hv
  rw [hsum]
  cases hp : cfg.parity
  · simp [parity_levels]
  · by_cases h0 : popcount (aligned_value cfg v) % 2 = 0
    · simp [parity_levels, parity_even_bit, h0]
    · simp [parity_levels, parity_even_bit, h0]; omega
  · by_cases h0 : popcount (aligned_value cfg v) % 2 = 0
    · simp [parity_levels, parity_even_bit, h0]; omega
    · simp [parity_levels, parity_even_bit, h0]; omega

/-- C4, the code at the failing input: 7 data bits, LSB first, `PRINTBANG_PARITY_EVEN`, and
the char 0x80, whatever the delay snippet and the machine state.  All seven data levels are
0 and the parity level is 1 (the parity of all eight bits of the char): one 1 level among
data and parity bits, an odd number under even parity. -/
theorem parity_counts_untransmitted_bits (d : delay_state → delay_state) (s : avr_state) :
    (bang_char_frame { firmware_config with
        parity := .PRINTBANG_PARITY_EVEN, PRINTBANG_DELAY := d } s 0x80).map (pin_level 0) =
      [0, 0, 0, 0, 0, 0, 0, 0, 1, 1] := by
  rw [bang_char_frame_levels _ _ _ 0 (by simp [firmware_config]) (by simp [firmware_config])
    (by simp [firmware_config]) (by simp [firmware_config])]
  simp only [frame_levels, firmware_config, aligned_value, parity_levels, parity_even_bit]
  decide

/-! ## Timing -/

theorem delay_loop_cycle : ∀ (k : Nat) (s : delay_state), s.r18 = k + 1 → k + 1 < 256 →
    (delay_loop s).cycle = s.cycle + 3 * k + 2 := by
  intro k
  induction k with
  | zero =>
    intro s h _
    rw [delay_loop]
    simp [h]
  | succ k ih =>
    intro s h hk
    rw [delay_loop]
    have hr : (s.r18 + 255) % 256 = k + 1 := by omega
    simp only [hr]
    have hz : ((k + 1 == 0) = true) = False := by simp
    simp only [hz, if_false]
    rw [ih _ rfl (by omega)]
    ring

theorem delay_16500000_costs : delay_costs delay_16500000 58 := by
  intro s
  simp only [delay_16500000, delay_pause, ldi_r18]
  rw [delay_loop_cycle 18 _ rfl (by norm_num)]

theorem delay_16000000_costs : delay_costs delay_16000000 56 := by
  intro s
  simp only [delay_16000000, delay_pause, ldi_r18]
  rw [delay_loop_cycle 17 _ rfl (by norm_num)]

theorem delay_8000000_costs : delay_costs delay_8000000 24 := by
  intro s
  simp only [delay_8000000, delay_pause, ldi_r18]
  rw [delay_loop_cycle 7 _ rfl (by norm_num)]

theorem timed_writes_chain (T : Nat) (irq : Bool) : ∀ (bs : List Nat) (t : Nat),
    List.Chain' (fun a b : pin_write => b.cycle = a.cycle + T) (timed_writes t T irq bs) := by
  intro bs
  induction bs with
  | nil => intro t; simp [timed_writes]
  | cons b bs ih =>
    intro t
    cases bs with
    | nil => simp [timed_writes]
    | cons c cs =>
      have h := ih (t + T)
      simp only [timed_writes] at h ⊢
      exact List.Chain'.cons rfl h

theorem bang_char_frame_timed (cfg : printbang_config) (D : Nat)
    (hd : delay_costs cfg.PRINTBANG_DELAY D) (s : avr_state) (value : Nat)
    (h1 : 1 ≤ cfg.PRINTBANG_DATA_BITS) (h8 : cfg.PRINTBANG_DATA_BITS ≤ 8) :
    bang_char_frame cfg s value =
      timed_writes (s.cycle + 1) (D + 8) false
        ((frame_levels cfg value).map (pin_byte s.port cfg.PRINTBANG_PIN_MASK)) := by
  unfold bang_char_frame
  rw [bang_char_writes cfg D hd s value h1 h8, List.drop_left]

/-- C5. Fixed cycle budget: with the instruction costs of the embedding (`cbr`, `sbr`, `out`,
`ror`, `rol`, `dec`, `nop`, `tst` 1 cycle, `lpm` 3 cycles, a conditional branch 2 cycles
taken and 1 not taken) and a delay snippet that always costs `D` cycles, any two consecutive
writes of one `bang_char` frame are exactly `D + 8` cycles apart, for every value, 1 to 8
data bits, both bit orders and every parity setting; the frame has
`1 + dataBits + (0 or 1) + 1` writes. -/
theorem fixed_cycle_budget (cfg : printbang_config) (D : Nat)
    (hd : delay_costs cfg.PRINTBANG_DELAY D) (s : avr_state) (value : Nat)
    (h1 : 1 ≤ cfg.PRINTBANG_DATA_BITS) (h8 : cfg.PRINTBANG_DATA_BITS ≤ 8) :
    List.Chain' (fun a b : pin_write => b.cycle = a.cycle + (D + 8))
        (bang_char_frame cfg s value)
    ∧ (bang_char_frame cfg s value).length =
        1 + cfg.PRINTBANG_DATA_BITS +
          (if cfg.parity = .PRINTBANG_PARITY_NONE then 0 else 1) + 1 := by
  refine ⟨?_, bang_char_frame_length cfg s value h1 h8⟩
  rw [bang_char_frame_timed cfg D hd s value h1 h8]
  exact timed_writes_chain _ _ _ _

/-- C5, instance: the firmware configuration (16 MHz snippet, 56 cycles) sending 0x48. -/
theorem fixed_cycle_budget_witness :
    List.Chain' (fun a b : pin_write => b.cycle = a.cycle + (56 + 8))
        (bang_char_frame firmware_config idle_avr 0x48)
    ∧ (bang_char_frame firmware_config idle_avr 0x48).length = 1 + 7 + 0 + 1 :=
  fixed_cycle_budget firmware_config 56 delay_16000000_costs idle_avr 0x48 (by decide)
    (by decide)

theorem to_int_small (x : Int) (h0 : -(2 ^ 31) ≤ x) (h1 : x < 2 ^ 31) : to_int x = x := by
  unfold to_int
  omega

theorem snippet_16500000_falls_through : falls_through snippet_16500000 8 delay_16500000 := by
  intro s
  rfl

theorem snippet_16000000_falls_through : falls_through snippet_16000000 8 delay_16000000 := by
  intro s
  rfl

theorem snippet_8000000_falls_through : falls_through snippet_8000000 6 delay_8000000 := by
  intro s
  rfl

theorem snippet_4000000_run (s : snippet_state) :
    snippet_4000000 s =
      { regs := { s.regs with cycle := s.regs.cycle + 8 }, pc := 0 } := by
  simp [snippet_4000000, rjmp, straight, delay_pause]

theorem snippet_4000000_jumps (size : Nat) (d : delay_state → delay_state) :
    ¬ falls_through snippet_4000000 size d := by
  intro h
  have h1 := congrArg snippet_state.pc
    (h { regs := { r18 := 0, carry := false, zero := false, cycle := 0 }, pc := 1 })
  rw [snippet_4000000_run] at h1
  simp only at h1
  omega

/-- C6, the code.  For 16.5, 16 and 8 MHz the `#if` chain selects a snippet that returns to
the `asm` statement and costs exactly the documented 58, 56 and 24 cycles; the distance
`D + 8` between consecutive writes of a frame is then `F / 250000` exactly (66, 64, 32; no
remainder, so it is also the rounded quotient), and it is the `expected_cycles` that
`serial_connect` computes for baud rate 250000.  For 4 MHz the receiver expects
`16 = 8 + 8` cycles and the selected snippet `lpm; lpm; rjmp 0` does take 8 cycles, but its
`rjmp` goes to address 0: wherever the snippet stands, control does not reach the word
after it, so it is no delay that returns to the frame. -/
theorem default_timing_table :
    default_table.map (fun p => p.2 + 8) = [66, 64, 32, 16]
    ∧ (∀ F D, (F, D) ∈ default_table →
        (D + 8) * 250000 = F
        ∧ round ((F : ℚ) / 250000) = ((D + 8 : Nat) : ℤ)
        ∧ (∀ r : serial_receiver, r.config.baudrate = 250000 →
            (serial_connect F r).expected_cycles = ((D + 8 : Nat) : ℤ)))
    ∧ (∀ F D, (F, D) ∈ [(16500000, 58), (16000000, 56), (8000000, 24)] →
        ∃ f size d, default_delay F = some f
          ∧ falls_through f size d
          ∧ delay_costs d D
          ∧ (∀ (cfg : printbang_config) (s : avr_state) (v : Nat), cfg.PRINTBANG_DELAY = d →
              1 ≤ cfg.PRINTBANG_DATA_BITS → cfg.PRINTBANG_DATA_BITS ≤ 8 →
              List.Chain' (fun a b : pin_write => b.cycle = a.cycle + (D + 8))
                (bang_char_frame cfg s v)))
    ∧ default_delay 4000000 = some snippet_4000000
    ∧ (∀ s : snippet_state,
        (snippet_4000000 s).regs.cycle = s.regs.cycle + 8
        ∧ (snippet_4000000 s).pc = 0
        ∧ (snippet_4000000 s).pc ≠ s.pc + 6)
    ∧ (∀ (size : Nat) (d : delay_state → delay_state),
        ¬ falls_through snippet_4000000 size d) := by
  have key : ∀ (D : Nat) (d : delay_state → delay_state), delay_costs d D →
      ∀ (cfg : printbang_config) (s : avr_state) (v : Nat), cfg.PRINTBANG_DELAY = d →
        1 ≤ cfg.PRINTBANG_DATA_BITS → cfg.PRINTBANG_DATA_BITS ≤ 8 →
        List.Chain' (fun a b : pin_write => b.cycle = a.cycle + (D + 8))
          (bang_char_frame cfg s v) := by
    intro D d hd cfg s v hcd h1 h8
    rw [bang_char_frame_timed cfg D (hcd ▸ hd) s v h1 h8]
    exact timed_writes_chain _ _ _ _
  refine ⟨rfl, ?_, ?_, rfl, ?_, snippet_4000000_jumps⟩
  · intro F D hFD
    simp only [default_table, List.mem_cons, Prod.mk.injEq, List.mem_singleton,
      List.not_mem_nil, or_false] at hFD
    rcases hFD with ⟨rfl, rfl⟩ | ⟨rfl, rfl⟩ | ⟨rfl, rfl⟩ | ⟨rfl, rfl⟩
    · refine ⟨by norm_num, ?_, ?_⟩
      · have : ((16500000 : ℕ) : ℚ) / 250000 = ((66 : ℤ) : ℚ) := by norm_num
        rw [this, round_intCast]; rfl
      · intro r hr
        simp only [serial_connect, hr]
        exact to_int_small _ (by norm_num) (by norm_num)
    · refine ⟨by norm_num, ?_, ?_⟩
      · have : ((16000000 : ℕ) : ℚ) / 250000 = ((64 : ℤ) : ℚ) := by norm_num
        rw [this, round_intCast]; rfl
      · intro r hr
        simp only [serial_connect, hr]
        exact to_int_small _ (by norm_num) (by norm_num)
    · refine ⟨by norm_num, ?_, ?_⟩
      · have : ((8000000 : ℕ) : ℚ) / 250000 = ((32 : ℤ) : ℚ) := by norm_num
        rw [this, round_intCast]; rfl
      · intro r hr
        simp only [serial_connect, hr]
        exact to_int_small _ (by norm_num) (by norm_num)
    · refine ⟨by norm_num, ?_, ?_⟩
      · have : ((4000000 : ℕ) : ℚ) / 250000 = ((16 : ℤ) : ℚ) := by norm_num
        rw [this, round_intCast]; rfl
      · intro r hr
        simp only [serial_connect, hr]
        exact to_int_small _ (by norm_num) (by norm_num)
  · intro F D hFD
    simp only [List.mem_cons, Prod.mk.injEq, List.mem_singleton, List.not_mem_nil,
      or_false] at hFD
    rcases hFD with ⟨rfl, rfl⟩ | ⟨rfl, rfl⟩ | ⟨rfl, rfl⟩
    · exact ⟨snippet_16500000, 8, delay_16500000, rfl, snippet_16500000_falls_through,
        delay_16500000_costs, key _ _ delay_16500000_costs⟩
    · exact ⟨snippet_16000000, 8, delay_16000000, rfl, snippet_16000000_falls_through,
        delay_16000000_costs, key _ _ delay_16000000_costs⟩
    · exact ⟨snippet_8000000, 6, delay_8000000, rfl, snippet_8000000_falls_through,
        delay_8000000_costs, key _ _ delay_8000000_costs⟩
  · intro s
    rw [snippet_4000000_run]
    refine ⟨rfl, rfl, ?_⟩
    show 0 ≠ s.pc + 6
    omega

/-- C6, instance: 16 MHz, where the snippet returns to the frame and costs 56 cycles: the
receiver of the test expects 64 cycles per bit and the writes of a frame are 64 cycles
apart. -/
theorem default_timing_table_witness :
    runner_receiver.expected_cycles = 64
    ∧ List.Chain' (fun a b : pin_write => b.cycle = a.cycle + 64)
        (bang_char_frame firmware_config idle_avr 0x48) := by
  have hr := (default_timing_table.2.1 16000000 56 (by decide)).2.2
  obtain ⟨f, size, d, hsel, hft, -, hc⟩ := default_timing_table.2.2.1 16000000 56 (by decide)
  have hf : f = snippet_16000000 := by
    simp only [default_delay] at hsel
    exact (Option.some.inj hsel).symm
  subst hf
  have hd : d = delay_16000000 := by
    funext x
    have h1 := congrArg snippet_state.regs (hft { regs := x, pc := 0 })
    have h2 := congrArg snippet_state.regs
      (snippet_16000000_falls_through { regs := x, pc := 0 })
    exact h1.symm.trans h2
  subst hd
  exact ⟨hr _ rfl, hc firmware_config idle_avr 0x48 rfl (by decide) (by decide)⟩


/-! ## The receiver: single events -/

theorem get_even_parity_loop_mod : ∀ (n x p : Nat), x < 2 ^ n →
    get_even_parity_loop x p % 2 = (p + popcount_bits n x) % 2 := by
  intro n
  induction n with
  | zero =>
    intro x p hx
    have h0 : x = 0 := by simpa using hx
    subst h0
    rw [get_even_parity_loop]
    simp [popcount_bits]
  | succ n ih =>
    intro x p hx
    rw [get_even_parity_loop]
    by_cases h0 : x = 0
    · subst h0
      have hz : ∀ m, popcount_bits m 0 = 0 := by
        intro m
        induction m with
        | zero => rfl
        | succ m ihm => simp [popcount_bits, ihm]
      simp [hz]
    · have hx2 : x >>> 1 < 2 ^ n := by
        rw [Nat.shiftRight_eq_div_pow, pow_one]
        rw [pow_succ] at hx
        omega
      simp only [ne_eq, h0, not_false_eq_true, if_true]
      rw [ih _ _ hx2, Nat.and_one_is_mod, Nat.shiftRight_eq_div_pow, pow_one]
      simp only [popcount_bits]
      omega

theorem get_even_parity_eq (b : Nat) (hb : b < 256) :
    get_even_parity b = if popcount b % 2 = 0 then 1 else 0 := by
  have h := get_even_parity_loop_mod 8 b 0 (by simpa using hb)
  unfold get_even_parity
  rw [Nat.and_one_is_mod, h]
  simp [popcount]

theorem check_timing_ok (cycle : Nat) (r : serial_receiver)
    (ht : to_int (((cycle : Int) - (r.last_cycle : Int)) % 2 ^ 64) = r.expected_cycles) :
    check_timing cycle r = { r with last_cycle := cycle } := by
  unfold check_timing
  simp only [ne_eq, ht, not_true_eq_false, if_false]

theorem check_timing_bad (cycle : Nat) (r : serial_receiver)
    (ht : to_int (((cycle : Int) - (r.last_cycle : Int)) % 2 ^ 64) ≠ r.expected_cycles) :
    check_timing cycle r = { r with last_cycle := cycle, state := .SERIAL_STATE_FAULT } := by
  unfold check_timing
  simp only [ne_eq, ht, not_false_eq_true, if_true]

theorem check_timing_ite_state (cycle : Nat) (r : serial_receiver) (c : Prop) [Decidable c]
    (a b : serial_state)
    (ht : to_int (((cycle : Int) - (r.last_cycle : Int)) % 2 ^ 64) = r.expected_cycles) :
    (check_timing cycle (if c then { r with state := a } else { r with state := b })).state =
      if c then a else b := by
  by_cases h : c
  · simp only [h, if_true]
    exact congrArg serial_receiver.state (check_timing_ok cycle { r with state := a } ht)
  · simp only [h, if_false]
    exact congrArg serial_receiver.state (check_timing_ok cycle { r with state := b } ht)

theorem elapsed_fits (cycle last : Nat)
    (h0 : -(2 ^ 31) ≤ (cycle : Int) - (last : Int)) (h1 : (cycle : Int) - (last : Int) < 2 ^ 31) :
    to_int (((cycle : Int) - (last : Int)) % 2 ^ 64) = (cycle : Int) - (last : Int) := by
  unfold to_int
  omega

/-- C8. Receiver parity check: a receiver in the parity-bit state with accumulated byte `b`
that gets an event of level `p` (0 or 1) passing the timing check moves to the stop-bit
state exactly when `popcount b + p` is even (configured for even parity), respectively odd
(configured for odd parity), and to the fault state otherwise; so an event with the flipped
level `1 - p` in place of an accepted one ends in the fault state. -/
theorem receiver_parity_check (r : serial_receiver) (cycle value p : Nat)
    (hs : r.state = .SERIAL_STATE_PARITY_BIT) (hb : r.current_byte < 256)
    (hl : avr_regbit_get value r.regbit = p) (hp : p ≤ 1)
    (ht : to_int (((cycle : Int) - (r.last_cycle : Int)) % 2 ^ 64) = r.expected_cycles) :
    (r.config.parity = .SERIAL_PARITY_EVEN →
      ((serial_write_cb r cycle value).state = .SERIAL_STATE_STOP_BIT ↔
        (popcount r.current_byte + p) % 2 = 0))
    ∧ (r.config.parity = .SERIAL_PARITY_ODD →
      ((serial_write_cb r cycle value).state = .SERIAL_STATE_STOP_BIT ↔
        (popcount r.current_byte + p) % 2 = 1))
    ∧ ((serial_write_cb r cycle value).state = .SERIAL_STATE_STOP_BIT ∨
        (serial_write_cb r cycle value).state = .SERIAL_STATE_FAULT)
    ∧ (∀ flipped, avr_regbit_get flipped r.regbit = 1 - p →
        r.config.parity ≠ .SERIAL_PARITY_NONE →
        (serial_write_cb r cycle value).state = .SERIAL_STATE_STOP_BIT →
        (serial_write_cb r cycle flipped).state = .SERIAL_STATE_FAULT) := by
  have hstep : ∀ (val q : Nat), avr_regbit_get val r.regbit = q → q ≤ 1 →
      (serial_write_cb r cycle val).state =
        if (if (if popcount r.current_byte % 2 = 0 then (1 : Int) else 0) = (q : Int)
              then (1 : Int) else 0) ≠ r.config.parity.toInt
        then .SERIAL_STATE_FAULT else .SERIAL_STATE_STOP_BIT := by
    intro val q hq _
    simp only [serial_write_cb, hs, hq, get_even_parity_eq _ hb]
    exact check_timing_ite_state cycle r _ _ _ ht
  have hpar : popcount r.current_byte % 2 = 0 ∨ popcount r.current_byte % 2 = 1 := by omega
  have hp01 : p = 0 ∨ p = 1 := by omega
  refine ⟨?_, ?_, ?_, ?_⟩
  · intro he
    rw [hstep value p hl hp, he]
    rcases hpar with h | h <;> rcases hp01 with rfl | rfl <;>
      simp [serial_parity.toInt, h, Nat.add_mod]
  · intro ho
    rw [hstep value p hl hp, ho]
    rcases hpar with h | h <;> rcases hp01 with rfl | rfl <;>
      simp [serial_parity.toInt, h, Nat.add_mod]
  · rw [hstep value p hl hp]
    split_ifs <;> simp
  · intro flipped hf hne hacc
    rw [hstep value p hl hp] at hacc
    rw [hstep flipped (1 - p) hf (by omega)]
    cases hc : r.config.parity
    · exact absurd hc hne
    · rw [hc] at hacc
      revert hacc
      rcases hpar with h | h <;> rcases hp01 with rfl | rfl <;>
        simp [serial_parity.toInt, h]
    · rw [hc] at hacc
      revert hacc
      rcases hpar with h | h <;> rcases hp01 with rfl | rfl <;>
        simp [serial_parity.toInt, h]


/-- C8, instance: even parity, accumulated byte 0x01: level 1 is accepted, level 0 faults. -/
theorem receiver_parity_check_witness :
    (serial_write_cb parity_receiver 164 1).state = .SERIAL_STATE_STOP_BIT
    ∧ (serial_write_cb parity_receiver 164 0).state = .SERIAL_STATE_FAULT := by
  have h := receiver_parity_check parity_receiver 164 1 1 rfl (by decide) rfl (by decide)
    (by decide)
  have hacc := (h.1 rfl).2 (by decide)
  exact ⟨hacc, h.2.2.2 0 rfl (by decide) hacc⟩

/-- C9. Timing glitch detection: for an event processed in the in-word, parity-bit or
stop-bit state, whatever its level, if the elapsed cycles `cycle - last_cycle` (fitting an
`int`) differ from `expected_cycles` -- for instance by +1 or -1 -- the state after the
event is the fault state; if they are equal, `check_timing` changes nothing but
`last_cycle`. -/
theorem timing_glitch_detection (r : serial_receiver) (cycle value : Nat)
    (hs : r.state = .SERIAL_STATE_IN_WORD ∨ r.state = .SERIAL_STATE_PARITY_BIT ∨
      r.state = .SERIAL_STATE_STOP_BIT)
    (h0 : -(2 ^ 31) ≤ (cycle : Int) - (r.last_cycle : Int))
    (h1 : (cycle : Int) - (r.last_cycle : Int) < 2 ^ 31) :
    ((cycle : Int) - (r.last_cycle : Int) ≠ r.expected_cycles →
      (serial_write_cb r cycle value).state = .SERIAL_STATE_FAULT)
    ∧ ((cycle : Int) - (r.last_cycle : Int) = r.expected_cycles + 1 ∨
        (cycle : Int) - (r.last_cycle : Int) = r.expected_cycles - 1 →
      (serial_write_cb r cycle value).state = .SERIAL_STATE_FAULT)
    ∧ ((cycle : Int) - (r.last_cycle : Int) = r.expected_cycles →
      ∀ r1 : serial_receiver, r1.last_cycle = r.last_cycle →
        r1.expected_cycles = r.expected_cycles →
        check_timing cycle r1 = { r1 with last_cycle := cycle }) := by
  have hfit := elapsed_fits cycle r.last_cycle h0 h1
  have hbad : (cycle : Int) - (r.last_cycle : Int) ≠ r.expected_cycles →
      ∀ r1 : serial_receiver, r1.last_cycle = r.last_cycle →
        r1.expected_cycles = r.expected_cycles →
        (check_timing cycle r1).state = .SERIAL_STATE_FAULT := by
    intro hne r1 hl he
    rw [check_timing_bad cycle r1 (by rw [hl, he, hfit]; exact hne)]
  have hfault : (cycle : Int) - (r.last_cycle : Int) ≠ r.expected_cycles →
      (serial_write_cb r cycle value).state = .SERIAL_STATE_FAULT := by
    intro hne
    rcases hs with hs | hs | hs
    · simp only [serial_write_cb, hs]
      apply hbad hne
      · split_ifs <;> rfl
      · split_ifs <;> rfl
    · simp only [serial_write_cb, hs]
      apply hbad hne
      · split_ifs <;> rfl
      · split_ifs <;> rfl
    · simp only [serial_write_cb, hs]
      apply hbad hne
      · split_ifs <;> rfl
      · split_ifs <;> rfl
  refine ⟨hfault, ?_, ?_⟩
  · intro h
    apply hfault
    rcases h with h | h <;> omega
  · intro heq r1 hl he
    exact check_timing_ok cycle r1 (by rw [hl, he, hfit]; exact heq)

/-- C9, instance: a receiver in the parity-bit state expecting 64 cycles faults on an event
after 65 and after 63 cycles. -/
theorem timing_glitch_detection_witness :
    (serial_write_cb parity_receiver 165 1).state = .SERIAL_STATE_FAULT
    ∧ (serial_write_cb parity_receiver 163 1).state = .SERIAL_STATE_FAULT :=
  ⟨(timing_glitch_detection parity_receiver 165 1 (Or.inr (Or.inl rfl)) (by decide)
      (by decide)).2.1 (Or.inl (by decide)),
   (timing_glitch_detection parity_receiver 163 1 (Or.inr (Or.inl rfl)) (by decide)
      (by decide)).2.1 (Or.inr (by decide))⟩

/-- C10. Fault is sticky: a receiver in the fault state is left unchanged, in every field,
by every event (any level, any cycle) and hence by every sequence of events; `serial_init`
puts it back into the idle state. -/
theorem fault_is_sticky (r : serial_receiver) (hs : r.state = .SERIAL_STATE_FAULT) :
    (∀ cycle value, serial_write_cb r cycle value = r)
    ∧ (∀ ws, serial_run r ws = r)
    ∧ (∀ config regbit, (serial_init r config regbit).state = .SERIAL_STATE_IDLE) := by
  have hstep : ∀ cycle value, serial_write_cb r cycle value = r := by
    intro cycle value
    simp only [serial_write_cb, hs]
  refine ⟨hstep, ?_, fun _ _ => rfl⟩
  intro ws
  induction ws with
  | nil => rfl
  | cons w ws ih =>
    simp only [serial_run, List.foldl_cons, hstep] at ih ⊢
    exact ih

/-- C10, instance: a receiver in the fault state ignores a start bit. -/
theorem fault_is_sticky_witness :
    serial_write_cb { parity_receiver with state := .SERIAL_STATE_FAULT } 229 0 =
      { parity_receiver with state := .SERIAL_STATE_FAULT } :=
  (fault_is_sticky { parity_receiver with state := .SERIAL_STATE_FAULT } rfl).1 229 0

/-! ## The receiver: the accumulated byte -/

set_option maxRecDepth 100000 in
theorem shift_in_lsb : ∀ x < 256, ∀ b < 2,
    shift_in .SERIAL_ORDER_LSB x b = x / 2 + 128 * b := by
  decide

set_option maxRecDepth 100000 in
theorem shift_in_msb : ∀ x < 256, ∀ b < 2,
    shift_in .SERIAL_ORDER_MSB x b = (2 * x + b) % 256 := by
  decide

theorem shift_in_lt (order : serial_order) (x b : Nat) : shift_in order x b < 256 := by
  unfold shift_in
  split_ifs <;> exact Nat.mod_lt _ (by norm_num)

theorem lsb_value_lt : ∀ bs : List Nat, (∀ b ∈ bs, b ≤ 1) → lsb_value bs < 2 ^ bs.length := by
  intro bs
  induction bs with
  | nil => intro _; simp [lsb_value]
  | cons b bs ih =>
    intro h
    have hb : b ≤ 1 := h b (List.mem_cons_self _ _)
    have := ih (fun x hx => h x (List.mem_cons_of_mem _ hx))
    simp only [lsb_value, List.length_cons, pow_succ]
    omega

theorem foldl_shift_in_lsb : ∀ (bs : List Nat) (cb : Nat), cb < 256 → (∀ b ∈ bs, b ≤ 1) →
    bs.length ≤ 8 →
    bs.foldl (shift_in .SERIAL_ORDER_LSB) cb =
      cb / 2 ^ bs.length + lsb_value bs * 2 ^ (8 - bs.length) := by
  intro bs
  induction bs with
  | nil => intro cb _ _ _; simp [lsb_value]
  | cons b bs ih =>
    intro cb hcb h hlen
    have hb : b < 2 := by
      have := h b (List.mem_cons_self _ _); omega
    have hrest : ∀ x ∈ bs, x ≤ 1 := fun x hx => h x (List.mem_cons_of_mem _ hx)
    simp only [List.length_cons] at hlen
    rw [List.foldl_cons, shift_in_lsb cb hcb b hb,
      ih _ (by omega) hrest (by omega)]
    simp only [lsb_value, List.length_cons]
    have hL := lsb_value_lt bs hrest
    generalize lsb_value bs = L at hL ⊢
    generalize bs.length = k at hlen hL ⊢
    have hk : k ≤ 7 := by omega
    clear hlen
    interval_cases k <;> simp at hL ⊢ <;> omega


theorem foldl_msb_congr : ∀ (bs : List Nat) (a c : Nat), a % 256 = c % 256 →
    bs.foldl (fun acc b => 2 * acc + b) a % 256 = bs.foldl (fun acc b => 2 * acc + b) c % 256 := by
  intro bs
  induction bs with
  | nil => intro a c h; simpa using h
  | cons b bs ih =>
    intro a c h
    simp only [List.foldl_cons]
    exact ih _ _ (by omega)

theorem foldl_shift_in_msb : ∀ (bs : List Nat) (cb : Nat), cb < 256 → (∀ b ∈ bs, b ≤ 1) →
    bs.foldl (shift_in .SERIAL_ORDER_MSB) cb =
      bs.foldl (fun acc b => 2 * acc + b) cb % 256 := by
  intro bs
  induction bs with
  | nil => intro cb hcb _; simp [Nat.mod_eq_of_lt hcb]
  | cons b bs ih =>
    intro cb hcb h
    have hb : b < 2 := by
      have := h b (List.mem_cons_self _ _); omega
    have hrest : ∀ x ∈ bs, x ≤ 1 := fun x hx => h x (List.mem_cons_of_mem _ hx)
    rw [List.foldl_cons, List.foldl_cons, shift_in_msb cb hcb b hb,
      ih _ (Nat.mod_lt _ (by norm_num)) hrest]
    exact foldl_msb_congr bs _ _ (by simp)

theorem foldl_msb_lt : ∀ (bs : List Nat) (a j : Nat), a < 2 ^ j → (∀ b ∈ bs, b ≤ 1) →
    bs.foldl (fun acc b => 2 * acc + b) a < 2 ^ (j + bs.length) := by
  intro bs
  induction bs with
  | nil => intro a j h _; simpa using h
  | cons b bs ih =>
    intro a j ha h
    have hb : b ≤ 1 := h b (List.mem_cons_self _ _)
    have hrest : ∀ x ∈ bs, x ≤ 1 := fun x hx => h x (List.mem_cons_of_mem _ hx)
    have h2 : 2 * a + b < 2 ^ (j + 1) := by rw [pow_succ]; omega
    have := ih (2 * a + b) (j + 1) h2 hrest
    simp only [List.foldl_cons, List.length_cons]
    rw [show j + (bs.length + 1) = j + 1 + bs.length by omega]
    exact this

theorem popcount_bits_double (m y b : Nat) (hb : b ≤ 1) :
    popcount_bits (m + 1) (2 * y + b) = b + popcount_bits m y := by
  have h1 : (2 * y + b) % 2 = b := by omega
  have h2 : (2 * y + b) / 2 = y := by omega
  simp only [popcount_bits, h1, h2]

theorem popcount_bits_zero : ∀ m, popcount_bits m 0 = 0 := by
  intro m
  induction m with
  | zero => rfl
  | succ m ih => simp [popcount_bits, ih]

theorem popcount_bits_extend : ∀ (n k y : Nat), y < 2 ^ n →
    popcount_bits (n + k) y = popcount_bits n y := by
  intro n
  induction n with
  | zero =>
    intro k y hy
    have h0 : y = 0 := by simpa using hy
    subst h0
    simp [popcount_bits_zero]
  | succ n ih =>
    intro k y hy
    rw [show n + 1 + k = (n + k) + 1 by omega]
    simp only [popcount_bits]
    rw [ih k (y / 2) (by rw [pow_succ] at hy; omega)]

theorem popcount_bits_shift : ∀ (k n y : Nat),
    popcount_bits (n + k) (y * 2 ^ k) = popcount_bits n y := by
  intro k
  induction k with
  | zero => intro n y; simp
  | succ k ih =>
    intro n y
    have e : y * 2 ^ (k + 1) = 2 * (y * 2 ^ k) + 0 := by rw [pow_succ]; ring
    rw [show n + (k + 1) = (n + k) + 1 by omega, e, popcount_bits_double _ _ 0 (by omega), ih]
    simp

theorem popcount_bits_lsb_value : ∀ bs : List Nat, (∀ b ∈ bs, b ≤ 1) →
    popcount_bits bs.length (lsb_value bs) = bs.sum := by
  intro bs
  induction bs with
  | nil => intro _; rfl
  | cons b bs ih =>
    intro h
    have hb : b ≤ 1 := h b (List.mem_cons_self _ _)
    have hrest : ∀ x ∈ bs, x ≤ 1 := fun x hx => h x (List.mem_cons_of_mem _ hx)
    simp only [lsb_value, List.length_cons, List.sum_cons]
    rw [show b + 2 * lsb_value bs = 2 * lsb_value bs + b by omega,
      popcount_bits_double _ _ b hb, ih hrest]

theorem popcount_bits_foldl_msb : ∀ (bs : List Nat) (a j : Nat), (∀ b ∈ bs, b ≤ 1) →
    popcount_bits (j + bs.length) (bs.foldl (fun acc b => 2 * acc + b) a) =
      popcount_bits j a + bs.sum := by
  intro bs
  induction bs with
  | nil => intro a j _; simp
  | cons b bs ih =>
    intro a j h
    have hb : b ≤ 1 := h b (List.mem_cons_self _ _)
    have hrest : ∀ x ∈ bs, x ≤ 1 := fun x hx => h x (List.mem_cons_of_mem _ hx)
    simp only [List.foldl_cons, List.length_cons, List.sum_cons]
    rw [show j + (bs.length + 1) = (j + 1) + bs.length by omega, ih _ _ hrest,
      popcount_bits_double _ _ b hb]
    omega

theorem received_byte (order : serial_order) (bs : List Nat) (n : Nat)
    (hlen : bs.length = n) (hn : n ≤ 8) (hbits : ∀ b ∈ bs, b ≤ 1) :
    popcount (bs.foldl (shift_in order) 0) = bs.sum
    ∧ (if order = .SERIAL_ORDER_LSB then (bs.foldl (shift_in order) 0) >>> (8 - n)
       else bs.foldl (shift_in order) 0) = bits_value order bs := by
  subst hlen
  cases order
  · rw [foldl_shift_in_lsb bs 0 (by norm_num) hbits hn]
    simp only [Nat.zero_div, Nat.zero_add, if_true, bits_value]
    refine ⟨?_, ?_⟩
    · unfold popcount
      have h := popcount_bits_shift (8 - bs.length) bs.length (lsb_value bs)
      rw [show bs.length + (8 - bs.length) = 8 by omega] at h
      rw [h, popcount_bits_lsb_value bs hbits]
    · rw [Nat.shiftRight_eq_div_pow, Nat.mul_div_cancel _ (by positivity)]
  · rw [foldl_shift_in_msb bs 0 (by norm_num) hbits]
    have hlt := foldl_msb_lt bs 0 0 (by norm_num) hbits
    have hle : 2 ^ (0 + bs.length) ≤ 2 ^ 8 := Nat.pow_le_pow_right (by norm_num) (by omega)
    rw [Nat.mod_eq_of_lt (by omega)]
    have hne : ¬ (serial_order.SERIAL_ORDER_MSB = serial_order.SERIAL_ORDER_LSB) := by decide
    simp only [hne, if_false, bits_value, msb_value]
    refine ⟨?_, trivial⟩
    unfold popcount
    have h := popcount_bits_extend (0 + bs.length) (8 - bs.length) _ hlt
    rw [show 0 + bs.length + (8 - bs.length) = 8 by omega] at h
    rw [h, popcount_bits_foldl_msb bs 0 0 hbits]
    simp [popcount_bits]

/-! ## The receiver: a whole frame -/

theorem in_word_step (r : serial_receiver) (cycle value : Nat)
    (hs : r.state = .SERIAL_STATE_IN_WORD)
    (ht : to_int (((cycle : Int) - (r.last_cycle : Int)) % 2 ^ 64) = r.expected_cycles) :
    serial_write_cb r cycle value =
      { r with
        bits_remaining := (r.bits_remaining + 255) % 256
        current_byte := shift_in r.config.order r.current_byte (avr_regbit_get value r.regbit)
        state :=
          if (r.bits_remaining + 255) % 256 = 0 then
            (if r.config.parity ≠ .SERIAL_PARITY_NONE then .SERIAL_STATE_PARITY_BIT
             else .SERIAL_STATE_STOP_BIT)
          else .SERIAL_STATE_IN_WORD
        last_cycle := cycle } := by
  simp only [serial_write_cb, hs, shift_in]
  by_cases ho : r.config.order = .SERIAL_ORDER_LSB <;>
  by_cases hz : (r.bits_remaining + 255) % 256 = 0 <;>
  by_cases hp : r.config.parity = .SERIAL_PARITY_NONE <;>
  simp only [ho, hz, hp, if_true, if_false, ne_eq, not_true_eq_false, not_false_eq_true,
    check_timing, ht]

theorem in_word_run : ∀ (wd : List pin_write) (r : serial_receiver),
    r.state = .SERIAL_STATE_IN_WORD → r.bits_remaining = wd.length → wd ≠ [] →
    wd.length ≤ 8 →
    List.Chain (fun c c1 : Nat =>
        to_int (((c1 : Int) - (c : Int)) % 2 ^ 64) = r.expected_cycles)
      r.last_cycle (wd.map (fun w => w.cycle)) →
    serial_run r wd =
      { r with
        bits_remaining := 0
        current_byte := (wd.map (fun w => avr_regbit_get w.value r.regbit)).foldl
          (shift_in r.config.order) r.current_byte
        state := if r.config.parity ≠ .SERIAL_PARITY_NONE then .SERIAL_STATE_PARITY_BIT
                 else .SERIAL_STATE_STOP_BIT
        last_cycle := wd.foldl (fun _ w => w.cycle) r.last_cycle } := by
  intro wd
  induction wd with
  | nil => intro r _ _ h; exact absurd rfl h
  | cons w wd ih =>
    intro r hs hbr _ hlen hch
    simp only [List.map_cons, List.chain_cons] at hch
    obtain ⟨ht, hch⟩ := hch
    simp only [List.length_cons] at hbr hlen
    have hstep := in_word_step r w.cycle w.value hs ht
    simp only [serial_run, List.foldl_cons] at ih ⊢
    rw [hstep]
    cases wd with
    | nil =>
      simp only [List.length_nil] at hbr
      simp [hbr]
    | cons w2 wd2 =>
      have hz : (r.bits_remaining + 255) % 256 ≠ 0 := by
        simp only [List.length_cons] at hbr hlen; omega
      simp only [hz, if_false]
      rw [ih _ rfl (by simp only [List.length_cons] at hbr hlen ⊢; omega) (by simp)
        (by omega) hch]
      simp


theorem idle_step (r : serial_receiver) (cycle value : Nat)
    (hs : r.state = .SERIAL_STATE_IDLE) (hl : avr_regbit_get value r.regbit = 0) :
    serial_write_cb r cycle value =
      { r with
        state := .SERIAL_STATE_IN_WORD
        bits_remaining := r.config.databits
        current_byte := 0
        last_cycle := cycle } := by
  simp only [serial_write_cb, hs, hl, if_true]

theorem parity_step (r : serial_receiver) (cycle value : Nat)
    (hs : r.state = .SERIAL_STATE_PARITY_BIT) (hb : r.current_byte < 256)
    (hp : avr_regbit_get value r.regbit ≤ 1)
    (hacc : (r.config.parity = .SERIAL_PARITY_EVEN ∧
        (popcount r.current_byte + avr_regbit_get value r.regbit) % 2 = 0) ∨
      (r.config.parity = .SERIAL_PARITY_ODD ∧
        (popcount r.current_byte + avr_regbit_get value r.regbit) % 2 = 1))
    (ht : to_int (((cycle : Int) - (r.last_cycle : Int)) % 2 ^ 64) = r.expected_cycles) :
    serial_write_cb r cycle value =
      { r with state := .SERIAL_STATE_STOP_BIT, last_cycle := cycle } := by
  have hcond : ¬ ((if get_even_parity r.current_byte = ((avr_regbit_get value r.regbit : Nat) : Int)
      then (1 : Int) else 0) ≠ r.config.parity.toInt) := by
    rw [get_even_parity_eq _ hb]
    generalize avr_regbit_get value r.regbit = p at hp hacc
    have hp01 : p = 0 ∨ p = 1 := by omega
    have hpar : popcount r.current_byte % 2 = 0 ∨ popcount r.current_byte % 2 = 1 := by omega
    rcases hacc with ⟨hc, h⟩ | ⟨hc, h⟩ <;> rw [hc] <;>
      rcases hpar with h2 | h2 <;> rcases hp01 with rfl | rfl <;>
      simp [serial_parity.toInt, h2] <;> omega
  simp only [serial_write_cb, hs, hcond, if_false, check_timing, ht, ne_eq, not_true_eq_false]

theorem stop_step (r : serial_receiver) (cycle value : Nat)
    (hs : r.state = .SERIAL_STATE_STOP_BIT) (hl : avr_regbit_get value r.regbit = 1)
    (ht : to_int (((cycle : Int) - (r.last_cycle : Int)) % 2 ^ 64) = r.expected_cycles) :
    serial_write_cb r cycle value =
      { r with
        state := .SERIAL_STATE_IDLE
        current_byte := aligned_byte r.config r.current_byte
        buffer := r.buffer ++ [aligned_byte r.config r.current_byte]
        last_cycle := cycle } := by
  simp only [serial_write_cb, hs, hl, if_true, aligned_byte]
  by_cases ho : r.config.order = .SERIAL_ORDER_LSB <;>
    simp only [ho, if_true, if_false, check_timing, ht, ne_eq, not_true_eq_false]

theorem chain_append_last (R : Nat → Nat → Prop) : ∀ (l1 : List pin_write) (l2 : List Nat)
    (a : Nat), List.Chain R a (l1.map (fun w => w.cycle) ++ l2) →
      List.Chain R a (l1.map (fun w => w.cycle)) ∧
      List.Chain R (l1.foldl (fun _ w => w.cycle) a) l2 := by
  intro l1
  induction l1 with
  | nil => intro l2 a h; exact ⟨List.Chain.nil, by simpa using h⟩
  | cons w l1 ih =>
    intro l2 a h
    simp only [List.map_cons, List.cons_append, List.chain_cons] at h
    obtain ⟨h1, h2⟩ := ih l2 w.cycle h.2
    exact ⟨List.Chain.cons h.1 h1, by simpa using h2⟩

theorem serial_run_append (r : serial_receiver) (l1 l2 : List pin_write) :
    serial_run r (l1 ++ l2) = serial_run (serial_run r l1) l2 := by
  simp [serial_run, List.foldl_append]

theorem receive_frame (r : serial_receiver) (w0 ws : pin_write) (wd wp : List pin_write)
    (hs : r.state = .SERIAL_STATE_IDLE)
    (h1 : 1 ≤ r.config.databits) (h8 : r.config.databits ≤ 8)
    (hlen : wd.length = r.config.databits)
    (h0 : avr_regbit_get w0.value r.regbit = 0)
    (hbits : ∀ w ∈ wd, avr_regbit_get w.value r.regbit ≤ 1)
    (hstop : avr_regbit_get ws.value r.regbit = 1)
    (hpar : (r.config.parity = .SERIAL_PARITY_NONE ∧ wp = []) ∨
      ∃ w, wp = [w] ∧ avr_regbit_get w.value r.regbit ≤ 1 ∧
        ((r.config.parity = .SERIAL_PARITY_EVEN ∧
          ((wd.map (fun w => avr_regbit_get w.value r.regbit)).sum +
            avr_regbit_get w.value r.regbit) % 2 = 0) ∨
         (r.config.parity = .SERIAL_PARITY_ODD ∧
          ((wd.map (fun w => avr_regbit_get w.value r.regbit)).sum +
            avr_regbit_get w.value r.regbit) % 2 = 1)))
    (htime : List.Chain (fun c c1 : Nat =>
        to_int (((c1 : Int) - (c : Int)) % 2 ^ 64) = r.expected_cycles)
      w0.cycle ((wd ++ (wp ++ [ws])).map (fun w => w.cycle))) :
    serial_run r (w0 :: (wd ++ (wp ++ [ws]))) =
      { r with
        state := .SERIAL_STATE_IDLE
        bits_remaining := 0
        current_byte :=
          bits_value r.config.order (wd.map (fun w => avr_regbit_get w.value r.regbit))
        buffer := r.buffer ++
          [bits_value r.config.order (wd.map (fun w => avr_regbit_get w.value r.regbit))]
        last_cycle := ws.cycle } := by
  have hbits2 : ∀ b ∈ wd.map (fun w => avr_regbit_get w.value r.regbit), b ≤ 1 := by
    intro b hb
    obtain ⟨w, hw, rfl⟩ := List.mem_map.1 hb
    exact hbits w hw
  obtain ⟨hpop, hval⟩ := received_byte r.config.order
    (wd.map (fun w => avr_regbit_get w.value r.regbit)) r.config.databits
    (by simpa using hlen) h8 hbits2
  rw [List.map_append] at htime
  obtain ⟨htd, htrest⟩ := chain_append_last _ wd _ _ htime
  -- start bit and data bits
  have hrun1 : serial_run r (w0 :: wd) =
      { r with
        state := if r.config.parity ≠ .SERIAL_PARITY_NONE then .SERIAL_STATE_PARITY_BIT
                 else .SERIAL_STATE_STOP_BIT
        bits_remaining := 0
        current_byte := (wd.map (fun w => avr_regbit_get w.value r.regbit)).foldl
          (shift_in r.config.order) 0
        last_cycle := wd.foldl (fun _ w => w.cycle) w0.cycle } := by
    have hi := idle_step r w0.cycle w0.value hs h0
    have hne : wd ≠ [] := by
      intro h; rw [h] at hlen; simp at hlen; omega
    have := in_word_run wd (serial_write_cb r w0.cycle w0.value)
      (by rw [hi]) (by rw [hi]; exact hlen.symm) hne (by omega) (by rw [hi]; exact htd)
    simp only [serial_run, List.foldl_cons] at this ⊢
    rw [this, hi]
  rw [show w0 :: (wd ++ (wp ++ [ws])) = (w0 :: wd) ++ (wp ++ [ws]) by simp,
    serial_run_append, hrun1]
  have hcb : (wd.map (fun w => avr_regbit_get w.value r.regbit)).foldl
      (shift_in r.config.order) 0 < 256 := by
    cases hwd : wd.map (fun w => avr_regbit_get w.value r.regbit) using List.reverseRecOn with
    | nil => simp
    | append_singleton l a _ => rw [List.foldl_append]; exact shift_in_lt _ _ _
  rcases hpar with ⟨hnone, rfl⟩ | ⟨w, rfl, hp1, hacc⟩
  · -- no parity bit
    simp only [List.nil_append, List.map_cons, List.map_nil, List.chain_cons] at htrest
    simp only [hnone, ne_eq, not_true_eq_false, if_false, List.nil_append, serial_run,
      List.foldl_cons, List.foldl_nil]
    refine (stop_step _ ws.cycle ws.value ?_ ?_ ?_).trans ?_
    · rfl
    · exact hstop
    · exact htrest.1
    · simp only [aligned_byte, hval]
  · -- parity bit
    have hpne : r.config.parity ≠ .SERIAL_PARITY_NONE := by
      rcases hacc with ⟨h, -⟩ | ⟨h, -⟩ <;> rw [h] <;> decide
    simp only [List.cons_append, List.nil_append, List.map_cons, List.map_nil,
      List.chain_cons] at htrest
    simp only [hpne, ne_eq, not_false_eq_true, if_true, List.cons_append, List.nil_append,
      serial_run, List.foldl_cons, List.foldl_nil]
    have hps : serial_write_cb _ w.cycle w.value = _ :=
      parity_step
        { r with
          state := .SERIAL_STATE_PARITY_BIT
          bits_remaining := 0
          current_byte := (wd.map (fun w => avr_regbit_get w.value r.regbit)).foldl
            (shift_in r.config.order) 0
          last_cycle := wd.foldl (fun _ w => w.cycle) w0.cycle }
        w.cycle w.value rfl hcb hp1 (by rw [hpop]; exact hacc) htrest.1
    rw [hps]
    refine (stop_step _ ws.cycle ws.value ?_ ?_ ?_).trans ?_
    · rfl
    · exact hstop
    · exact htrest.2.1
    · simp only [aligned_byte, hval]

theorem serial_run_fault (r : serial_receiver) (hs : r.state = .SERIAL_STATE_FAULT) :
    ∀ ws, serial_run r ws = r := by
  intro ws
  induction ws with
  | nil => rfl
  | cons w ws ih =>
    have hstep : serial_write_cb r w.cycle w.value = r := by
      simp only [serial_write_cb, hs]
    simp only [serial_run, List.foldl_cons, hstep] at ih ⊢
    exact ih

theorem never_fault_of_final (r : serial_receiver) (ws : List pin_write)
    (h : (serial_run r ws).state ≠ .SERIAL_STATE_FAULT) :
    ∀ k, (serial_run r (ws.take k)).state ≠ .SERIAL_STATE_FAULT := by
  intro k hk
  apply h
  conv_lhs => rw [← List.take_append_drop k ws]
  rw [serial_run_append, serial_run_fault _ hk, hk]

theorem timed_writes_values (f : Nat → Nat) (T : Nat) (irq : Bool) :
    ∀ (bs : List Nat) (t : Nat),
      (timed_writes t T irq bs).map (fun w => f w.value) = bs.map f := by
  intro bs
  induction bs with
  | nil => intro t; rfl
  | cons b bs ih => intro t; simp only [timed_writes, List.map_cons, ih]

theorem timed_writes_length (T : Nat) (irq : Bool) :
    ∀ (bs : List Nat) (t : Nat), (timed_writes t T irq bs).length = bs.length := by
  intro bs
  induction bs with
  | nil => intro t; rfl
  | cons b bs ih => intro t; simp only [timed_writes, List.length_cons, ih]

theorem timed_writes_ok (e : Int) (T : Nat) (irq : Bool) (hT : (T : Int) = e)
    (h1 : e < 2 ^ 31) :
    ∀ (bs : List Nat) (t : Nat),
      List.Chain (fun c c1 : Nat => to_int (((c1 : Int) - (c : Int)) % 2 ^ 64) = e) t
        ((timed_writes (t + T) T irq bs).map (fun w => w.cycle)) := by
  intro bs
  induction bs with
  | nil => intro t; exact List.Chain.nil
  | cons b bs ih =>
    intro t
    simp only [timed_writes, List.map_cons]
    refine List.Chain.cons ?_ (ih (t + T))
    have hfit := elapsed_fits (t + T) t (by push_cast; omega) (by push_cast; omega)
    rw [hfit]
    push_cast
    omega

/-! ## Transmitter and receiver together -/

theorem frame_decodes (cfg : printbang_config) (D : Nat)
    (hd : delay_costs cfg.PRINTBANG_DELAY D) (s : avr_state) (r : serial_receiver)
    (v pin : Nat)
    (h1 : 1 ≤ cfg.PRINTBANG_DATA_BITS) (h8 : cfg.PRINTBANG_DATA_BITS ≤ 8)
    (hm : cfg.PRINTBANG_PIN_MASK < 256) (hp : cfg.PRINTBANG_PIN_MASK.testBit pin = true)
    (hv : v < 2 ^ cfg.PRINTBANG_DATA_BITS)
    (hs : r.state = .SERIAL_STATE_IDLE)
    (hreg : r.regbit = { bit := pin, mask := 1 })
    (hsame : same_configuration cfg r.config)
    (hexp : r.expected_cycles = ((D + 8 : Nat) : Int)) (hD : D + 8 < 2 ^ 31) :
    serial_run r (bang_char_frame cfg s v) =
      { r with
        state := .SERIAL_STATE_IDLE
        bits_remaining := 0
        current_byte := v
        buffer := r.buffer ++ [v]
        last_cycle := s.cycle + 1 +
          (cfg.PRINTBANG_DATA_BITS + (parity_levels cfg.parity (aligned_value cfg v)).length
            + 1) * (D + 8) } := by
  obtain ⟨hdb, hord, hparc⟩ := hsame
  have hv256 : v < 256 := by
    have : 2 ^ cfg.PRINTBANG_DATA_BITS ≤ 2 ^ 8 := Nat.pow_le_pow_right (by norm_num) h8
    omega
  have hlv : ∀ l : Bool,
      avr_regbit_get (pin_byte s.port cfg.PRINTBANG_PIN_MASK l) r.regbit = l.toNat := by
    intro l; rw [hreg]; exact pin_level_pin_byte _ _ _ l hm hp
  -- the frame, event by event
  have hsplit : bang_char_frame cfg s v =
      { cycle := s.cycle + 1, value := pin_byte s.port cfg.PRINTBANG_PIN_MASK false,
        interrupts := false } ::
      (timed_writes (s.cycle + 1 + (D + 8)) (D + 8) false
          ((List.range' 0 cfg.PRINTBANG_DATA_BITS).map (fun j =>
            pin_byte s.port cfg.PRINTBANG_PIN_MASK
              (data_bit cfg.PRINTBANG_ORDER_MSB (aligned_value cfg v) j))) ++
        (timed_writes (s.cycle + 1 + (D + 8) + cfg.PRINTBANG_DATA_BITS * (D + 8)) (D + 8) false
            ((parity_levels cfg.parity (aligned_value cfg v)).map
              (pin_byte s.port cfg.PRINTBANG_PIN_MASK)) ++
          [{ cycle := s.cycle + 1 + (D + 8) + cfg.PRINTBANG_DATA_BITS * (D + 8) +
               (parity_levels cfg.parity (aligned_value cfg v)).length * (D + 8),
             value := pin_byte s.port cfg.PRINTBANG_PIN_MASK true,
             interrupts := false }])) := by
    rw [bang_char_frame_timed cfg D hd s v h1 h8]
    simp only [frame_levels, List.map_cons, List.map_append, timed_writes,
      timed_writes_append, List.length_map, List.length_range', List.map_nil, List.map_map,
      Function.comp_def]
  have hjoin : timed_writes (s.cycle + 1 + (D + 8)) (D + 8) false
      ((List.range' 0 cfg.PRINTBANG_DATA_BITS).map (fun j =>
        pin_byte s.port cfg.PRINTBANG_PIN_MASK
          (data_bit cfg.PRINTBANG_ORDER_MSB (aligned_value cfg v) j)) ++
        ((parity_levels cfg.parity (aligned_value cfg v)).map
            (pin_byte s.port cfg.PRINTBANG_PIN_MASK) ++
          [pin_byte s.port cfg.PRINTBANG_PIN_MASK true])) =
      timed_writes (s.cycle + 1 + (D + 8)) (D + 8) false
          ((List.range' 0 cfg.PRINTBANG_DATA_BITS).map (fun j =>
            pin_byte s.port cfg.PRINTBANG_PIN_MASK
              (data_bit cfg.PRINTBANG_ORDER_MSB (aligned_value cfg v) j))) ++
        (timed_writes (s.cycle + 1 + (D + 8) + cfg.PRINTBANG_DATA_BITS * (D + 8)) (D + 8) false
            ((parity_levels cfg.parity (aligned_value cfg v)).map
              (pin_byte s.port cfg.PRINTBANG_PIN_MASK)) ++
          [{ cycle := s.cycle + 1 + (D + 8) + cfg.PRINTBANG_DATA_BITS * (D + 8) +
               (parity_levels cfg.parity (aligned_value cfg v)).length * (D + 8),
             value := pin_byte s.port cfg.PRINTBANG_PIN_MASK true,
             interrupts := false }]) := by
    simp only [timed_writes_append, timed_writes, List.length_map, List.length_range']
  have hdata : (timed_writes (s.cycle + 1 + (D + 8)) (D + 8) false
      ((List.range' 0 cfg.PRINTBANG_DATA_BITS).map (fun j =>
        pin_byte s.port cfg.PRINTBANG_PIN_MASK
          (data_bit cfg.PRINTBANG_ORDER_MSB (aligned_value cfg v) j)))).map
        (fun w => avr_regbit_get w.value r.regbit) =
      (List.range' 0 cfg.PRINTBANG_DATA_BITS).map
        (fun j => (data_bit cfg.PRINTBANG_ORDER_MSB (aligned_value cfg v) j).toNat) := by
    rw [timed_writes_values (fun b => avr_regbit_get b r.regbit)]
    simp only [List.map_map, Function.comp_def, hlv]
  have hpty := frame_parity cfg v hv256 h1 h8
    (by cases h : cfg.PRINTBANG_ORDER_MSB
        · exact Or.inr hv
        · exact Or.inl rfl)
  have hvalue : bits_value r.config.order ((List.range' 0 cfg.PRINTBANG_DATA_BITS).map
      (fun j => (data_bit cfg.PRINTBANG_ORDER_MSB (aligned_value cfg v) j).toNat)) = v := by
    cases hmsb : cfg.PRINTBANG_ORDER_MSB
    · have hal : aligned_value cfg v = v := by simp [aligned_value, hmsb]
      rw [hord, hmsb, hal]
      simp only [bits_value, Bool.false_eq_true, if_false, if_true]
      exact lsb_bits_value _ (by omega) v hv256 hv
    · have hal : aligned_value cfg v = (v <<< (8 - cfg.PRINTBANG_DATA_BITS)) % 256 := by
        unfold aligned_value
        by_cases h : cfg.PRINTBANG_DATA_BITS = 8
        · simp [h, Nat.mod_eq_of_lt hv256]
        · simp [h, hmsb]
      rw [hord, hmsb, hal]
      have hne : ¬ (serial_order.SERIAL_ORDER_MSB = serial_order.SERIAL_ORDER_LSB) := by decide
      simp only [bits_value, if_true, hne, if_false]
      exact msb_bits_value _ (by omega) v hv256 hv
  rw [hsplit]
  refine (receive_frame r _ _ _ _ hs (by omega) (by omega) ?_ ?_ ?_ ?_ ?_ ?_).trans ?_
  · rw [timed_writes_length]; simp [hdb]
  · exact hlv false
  · intro w hw
    have hmem : avr_regbit_get w.value r.regbit ∈
        (List.range' 0 cfg.PRINTBANG_DATA_BITS).map
          (fun j => (data_bit cfg.PRINTBANG_ORDER_MSB (aligned_value cfg v) j).toNat) := by
      rw [← hdata]; exact List.mem_map_of_mem _ hw
    obtain ⟨j, -, hj⟩ := List.mem_map.1 hmem
    rw [← hj]
    cases data_bit cfg.PRINTBANG_ORDER_MSB (aligned_value cfg v) j <;> simp
  · exact hlv true
  · rw [hdata]
    cases hpc : cfg.parity
    · left
      rw [hpc] at hparc
      exact ⟨hparc, by simp [parity_levels, timed_writes]⟩
    · right
      rw [hpc] at hparc hpty
      simp only [parity_levels, List.map_cons, List.map_nil, timed_writes]
      refine ⟨_, rfl, ?_, Or.inl ⟨hparc, ?_⟩⟩
      · rw [hlv]; cases decide (parity_even_bit (aligned_value cfg v) ≠ 0) <;> simp
      · rw [hlv]
        simpa [parity_levels] using hpty
    · right
      rw [hpc] at hparc hpty
      simp only [parity_levels, List.map_cons, List.map_nil, timed_writes]
      refine ⟨_, rfl, ?_, Or.inr ⟨hparc, ?_⟩⟩
      · rw [hlv]; cases decide (parity_even_bit (aligned_value cfg v) = 0) <;> simp
      · rw [hlv]
        simpa [parity_levels] using hpty
  · rw [← hjoin, hexp]
    exact timed_writes_ok _ (D + 8) false rfl (by exact_mod_cast hD) _ _
  · rw [hdata, hvalue]
    congr 1
    ring

theorem lsb_value_eq_sum : ∀ bs : List Nat,
    lsb_value bs = ∑ i ∈ Finset.range bs.length, bs.getD i 0 * 2 ^ i := by
  intro bs
  induction bs with
  | nil => simp [lsb_value]
  | cons b bs ih =>
    rw [List.length_cons, Finset.sum_range_succ', lsb_value, ih, Finset.mul_sum]
    simp only [List.getD_cons_succ, List.getD_cons_zero, pow_zero, mul_one, pow_succ]
    rw [Nat.add_comm]
    congr 1
    apply Finset.sum_congr rfl
    intro i _
    ring

theorem foldl_msb_eq_sum : ∀ (bs : List Nat) (a : Nat),
    bs.foldl (fun acc b => 2 * acc + b) a =
      a * 2 ^ bs.length + ∑ i ∈ Finset.range bs.length, bs.getD i 0 * 2 ^ (bs.length - 1 - i) := by
  intro bs
  induction bs with
  | nil => intro a; simp
  | cons b bs ih =>
    intro a
    rw [List.foldl_cons, ih, List.length_cons, Finset.sum_range_succ']
    simp only [List.getD_cons_succ, List.getD_cons_zero, Nat.add_sub_cancel, Nat.sub_zero]
    have e : ∑ x ∈ Finset.range bs.length, bs.getD x 0 * 2 ^ (bs.length - (x + 1)) =
        ∑ x ∈ Finset.range bs.length, bs.getD x 0 * 2 ^ (bs.length - 1 - x) := by
      apply Finset.sum_congr rfl
      intro i _
      rw [show bs.length - (i + 1) = bs.length - 1 - i by omega]
    rw [e, pow_succ]
    ring

theorem msb_value_eq_sum (bs : List Nat) :
    msb_value bs = ∑ i ∈ Finset.range bs.length, bs.getD i 0 * 2 ^ (bs.length - 1 - i) := by
  unfold msb_value
  rw [foldl_msb_eq_sum]
  simp

/-- C1. Round trip: for 1 to 8 data bits, either bit order, every parity mode and every
value `v < 2 ^ dataBits`, feeding the writes of `bang_char v` (which are `D + 8` cycles
apart for a delay snippet of `D` cycles) to a receiver that is idle, has the same
configuration, watches the transmitter's pin and expects `D + 8` cycles per bit, never puts
the receiver into the fault state, leaves it idle, and appends exactly the byte `v` to its
buffer. -/
theorem round_trip (cfg : printbang_config) (D : Nat)
    (hd : delay_costs cfg.PRINTBANG_DELAY D) (s : avr_state) (r : serial_receiver)
    (v pin : Nat)
    (h1 : 1 ≤ cfg.PRINTBANG_DATA_BITS) (h8 : cfg.PRINTBANG_DATA_BITS ≤ 8)
    (hm : cfg.PRINTBANG_PIN_MASK < 256) (hp : cfg.PRINTBANG_PIN_MASK.testBit pin = true)
    (hv : v < 2 ^ cfg.PRINTBANG_DATA_BITS)
    (hs : r.state = .SERIAL_STATE_IDLE)
    (hreg : r.regbit = { bit := pin, mask := 1 })
    (hsame : same_configuration cfg r.config)
    (hexp : r.expected_cycles = ((D + 8 : Nat) : Int)) (hD : D + 8 < 2 ^ 31) :
    (serial_run r (bang_char_frame cfg s v)).state = .SERIAL_STATE_IDLE
    ∧ (serial_run r (bang_char_frame cfg s v)).buffer = r.buffer ++ [v]
    ∧ (∀ k, (serial_run r ((bang_char_frame cfg s v).take k)).state ≠
        .SERIAL_STATE_FAULT) := by
  have h := frame_decodes cfg D hd s r v pin h1 h8 hm hp hv hs hreg hsame hexp hD
  have hst : (serial_run r (bang_char_frame cfg s v)).state = .SERIAL_STATE_IDLE := by
    rw [h]
  refine ⟨hst, by rw [h], never_fault_of_final r _ (by rw [hst]; decide)⟩

/-- C1, instance: the firmware configuration sends 0x48 to the receiver of the test. -/
theorem round_trip_witness :
    (serial_run runner_receiver (bang_char_frame firmware_config idle_avr 0x48)).state =
        .SERIAL_STATE_IDLE
    ∧ (serial_run runner_receiver (bang_char_frame firmware_config idle_avr 0x48)).buffer =
        runner_receiver.buffer ++ [0x48]
    ∧ (∀ k, (serial_run runner_receiver
          ((bang_char_frame firmware_config idle_avr 0x48).take k)).state ≠
        .SERIAL_STATE_FAULT) :=
  round_trip firmware_config 56 delay_16000000_costs idle_avr runner_receiver 0x48 0
    (by decide) (by decide) (by decide) (by decide) (by decide) rfl rfl ⟨rfl, rfl, rfl⟩
    (by decide) (by decide)

/-- C7. Receiver decoding: a receiver in the idle state (whatever its accumulator and
`bits_remaining` hold), configured for `n` data bits with `1 ≤ n ≤ 8`, that gets a level-0
event, then `n` events with levels `b_1 .. b_n`, then (when parity is configured) a parity
level it accepts, then a level-1 event, each exactly `expected_cycles` after the one before,
ends in the idle state, is never in the fault state on the way, and has appended exactly one
byte: the sum of `b_i * 2 ^ (i - 1)` in LSB order and the sum of `b_i * 2 ^ (n - i)` in MSB
order (positions counted from 1; the sums below run over `i = 0, .., n - 1`). -/
theorem receiver_decoding (r : serial_receiver) (w0 ws : pin_write) (wd wp : List pin_write)
    (hs : r.state = .SERIAL_STATE_IDLE)
    (h1 : 1 ≤ r.config.databits) (h8 : r.config.databits ≤ 8)
    (hlen : wd.length = r.config.databits)
    (he0 : -(2 ^ 31) ≤ r.expected_cycles) (he1 : r.expected_cycles < 2 ^ 31)
    (h0 : avr_regbit_get w0.value r.regbit = 0)
    (hbits : ∀ w ∈ wd, avr_regbit_get w.value r.regbit ≤ 1)
    (hstop : avr_regbit_get ws.value r.regbit = 1)
    (hpar : (r.config.parity = .SERIAL_PARITY_NONE ∧ wp = []) ∨
      ∃ w, wp = [w] ∧ avr_regbit_get w.value r.regbit ≤ 1 ∧
        ((r.config.parity = .SERIAL_PARITY_EVEN ∧
          ((wd.map (fun w => avr_regbit_get w.value r.regbit)).sum +
            avr_regbit_get w.value r.regbit) % 2 = 0) ∨
         (r.config.parity = .SERIAL_PARITY_ODD ∧
          ((wd.map (fun w => avr_regbit_get w.value r.regbit)).sum +
            avr_regbit_get w.value r.regbit) % 2 = 1)))
    (hspaced : List.Chain'
      (fun a b : pin_write => (b.cycle : Int) = (a.cycle : Int) + r.expected_cycles)
      (w0 :: (wd ++ (wp ++ [ws])))) :
    (serial_run r (w0 :: (wd ++ (wp ++ [ws])))).state = .SERIAL_STATE_IDLE
    ∧ (serial_run r (w0 :: (wd ++ (wp ++ [ws])))).buffer = r.buffer ++
        [if r.config.order = .SERIAL_ORDER_LSB
         then ∑ i ∈ Finset.range r.config.databits,
           (wd.map (fun w => avr_regbit_get w.value r.regbit)).getD i 0 * 2 ^ i
         else ∑ i ∈ Finset.range r.config.databits,
           (wd.map (fun w => avr_regbit_get w.value r.regbit)).getD i 0 *
             2 ^ (r.config.databits - 1 - i)]
    ∧ (∀ k, (serial_run r ((w0 :: (wd ++ (wp ++ [ws]))).take k)).state ≠
        .SERIAL_STATE_FAULT) := by
  have htime : List.Chain (fun c c1 : Nat =>
      to_int (((c1 : Int) - (c : Int)) % 2 ^ 64) = r.expected_cycles)
      w0.cycle ((wd ++ (wp ++ [ws])).map (fun w => w.cycle)) := by
    rw [List.chain_map]
    refine List.Chain.imp ?_ hspaced
    intro a b hab
    rw [elapsed_fits b.cycle a.cycle (by omega) (by omega)]
    omega
  have h := receive_frame r w0 ws wd wp hs h1 h8 hlen h0 hbits hstop hpar htime
  have hst : (serial_run r (w0 :: (wd ++ (wp ++ [ws])))).state = .SERIAL_STATE_IDLE := by
    rw [h]
  have hl : (wd.map (fun w => avr_regbit_get w.value r.regbit)).length =
      r.config.databits := by simpa using hlen
  have hbuf : bits_value r.config.order (wd.map (fun w => avr_regbit_get w.value r.regbit)) =
      if r.config.order = .SERIAL_ORDER_LSB
      then ∑ i ∈ Finset.range r.config.databits,
        (wd.map (fun w => avr_regbit_get w.value r.regbit)).getD i 0 * 2 ^ i
      else ∑ i ∈ Finset.range r.config.databits,
        (wd.map (fun w => avr_regbit_get w.value r.regbit)).getD i 0 *
          2 ^ (r.config.databits - 1 - i) := by
    unfold bits_value
    rw [lsb_value_eq_sum, msb_value_eq_sum, hl]
  refine ⟨hst, by rw [h, ← hbuf], never_fault_of_final r _ (by rw [hst]; decide)⟩

/-- C7, instance: the receiver of the test decodes the sample frame to 0x48. -/
theorem receiver_decoding_witness :
    (serial_run runner_receiver (sample_start :: (sample_data ++ ([] ++ [sample_stop])))).state
        = .SERIAL_STATE_IDLE
    ∧ (serial_run runner_receiver
        (sample_start :: (sample_data ++ ([] ++ [sample_stop])))).buffer = [0x48] := by
  have h := receiver_decoding runner_receiver sample_start sample_stop sample_data []
    rfl (by decide) (by decide) rfl (by decide) (by decide) rfl (by decide) rfl
    (Or.inl ⟨rfl, rfl⟩)
    (by
      have he : runner_receiver.expected_cycles = 64 := by decide
      rw [he]
      simp [sample_start, sample_data, sample_stop])
  exact ⟨h.1, h.2.1⟩

/-! ## The receiver: buffer, stop bit, transitions -/

theorem check_timing_buffer (cycle : Nat) (r : serial_receiver) :
    (check_timing cycle r).buffer = r.buffer := by
  simp only [check_timing]
  split_ifs <;> rfl

theorem check_timing_state (cycle : Nat) (r : serial_receiver) :
    (check_timing cycle r).state = r.state ∨
      (check_timing cycle r).state = .SERIAL_STATE_FAULT := by
  simp only [check_timing]
  split_ifs
  · exact Or.inr rfl
  · exact Or.inl rfl

/-- C13. Commit only on a stop bit: whatever the receiver state and the event, the buffer
after the event is the buffer before it, except for an event processed in the stop-bit
state with level 1, which appends exactly one byte (the aligned accumulator). -/
theorem commit_only_on_stop_bit (r : serial_receiver) (cycle value : Nat) :
    (serial_write_cb r cycle value).buffer =
      if r.state = .SERIAL_STATE_STOP_BIT ∧ avr_regbit_get value r.regbit = 1
      then r.buffer ++ [aligned_byte r.config r.current_byte]
      else r.buffer := by
  cases hs : r.state
  · simp only [serial_write_cb, hs]
    split_ifs <;> simp_all
  · simp only [serial_write_cb, hs, check_timing_buffer]
    split_ifs <;> simp_all
  · simp only [serial_write_cb, hs, check_timing_buffer, aligned_byte]
    split_ifs <;> simp_all
  · simp only [serial_write_cb, hs, check_timing_buffer]
    split_ifs <;> simp_all
  · simp only [serial_write_cb, hs]
    simp

theorem stop_step_low (r : serial_receiver) (cycle value : Nat)
    (hs : r.state = .SERIAL_STATE_STOP_BIT) (hl : avr_regbit_get value r.regbit ≠ 1)
    (ht : to_int (((cycle : Int) - (r.last_cycle : Int)) % 2 ^ 64) = r.expected_cycles) :
    serial_write_cb r cycle value = { r with last_cycle := cycle } := by
  simp only [serial_write_cb, hs, hl, if_false, check_timing, ht, ne_eq, not_true_eq_false]

/-- C18. A stop-bit level violation goes undetected: a receiver in the stop-bit state that
gets a level-0 event with correct timing does not fault; it stays in the stop-bit state,
appends nothing and keeps its accumulator, only `last_cycle` changes; a later correctly
timed level-1 event still commits the accumulated byte. -/
theorem stop_bit_level_undetected (r : serial_receiver) (cycle value : Nat)
    (hs : r.state = .SERIAL_STATE_STOP_BIT) (hl : avr_regbit_get value r.regbit = 0)
    (ht : to_int (((cycle : Int) - (r.last_cycle : Int)) % 2 ^ 64) = r.expected_cycles) :
    serial_write_cb r cycle value = { r with last_cycle := cycle }
    ∧ (∀ cycle2 value2 : Nat, avr_regbit_get value2 r.regbit = 1 →
        to_int (((cycle2 : Int) - (cycle : Int)) % 2 ^ 64) = r.expected_cycles →
        serial_write_cb (serial_write_cb r cycle value) cycle2 value2 =
          { r with
            state := .SERIAL_STATE_IDLE
            current_byte := aligned_byte r.config r.current_byte
            buffer := r.buffer ++ [aligned_byte r.config r.current_byte]
            last_cycle := cycle2 }) := by
  have h1 := stop_step_low r cycle value hs (by rw [hl]; decide) ht
  refine ⟨h1, ?_⟩
  intro cycle2 value2 hl2 ht2
  rw [h1]
  refine (stop_step _ cycle2 value2 ?_ ?_ ?_).trans ?_
  · exact hs
  · exact hl2
  · exact ht2
  · rfl

/-- C18, instance: the receiver waiting for the stop bit of 0x48 gets level 0 after 64
cycles and stays as it is; level 1 after another 64 cycles commits 0x48. -/
theorem stop_bit_level_undetected_witness :
    serial_write_cb stop_receiver 164 0 = { stop_receiver with last_cycle := 164 }
    ∧ (serial_write_cb (serial_write_cb stop_receiver 164 0) 228 1).buffer = [0x48] := by
  have h := stop_bit_level_undetected stop_receiver 164 0 rfl rfl (by decide)
  refine ⟨h.1, ?_⟩
  rw [h.2 228 1 rfl (by decide)]
  rfl

/-- C19. Receiver transitions are forward only: one event moves the receiver from Idle to
InWord (level 0) or leaves it in Idle (any other level); from InWord to InWord, ParityBit
(only when a parity mode is configured), StopBit (only when none is) or Fault; from
ParityBit to StopBit or Fault; from StopBit to StopBit, Idle or Fault; from Fault to Fault.
This holds for every configuration, in particular for 1 to 8 data bits. -/
theorem transitions_forward_only (r : serial_receiver) (cycle value : Nat) :
    forward_transition r.config.parity (avr_regbit_get value r.regbit) r.state
      (serial_write_cb r cycle value).state := by
  cases hs : r.state
  · simp only [forward_transition, serial_write_cb, hs]
    split_ifs <;> simp_all
  · simp only [forward_transition, serial_write_cb, hs]
    by_cases hz : (r.bits_remaining + 255) % 256 = 0 <;>
    by_cases hp : r.config.parity = .SERIAL_PARITY_NONE <;>
    by_cases ho : r.config.order = .SERIAL_ORDER_LSB <;>
    simp only [hz, hp, ho, if_true, if_false, ne_eq, not_true_eq_false, not_false_eq_true] <;>
    rcases check_timing_state cycle _ with h | h <;> rw [h] <;> simp [hp, hs]
  · simp only [forward_transition, serial_write_cb, hs]
    split_ifs <;> rcases check_timing_state cycle _ with h | h <;> rw [h] <;> simp [hs]
  · simp only [forward_transition, serial_write_cb, hs]
    split_ifs <;> rcases check_timing_state cycle _ with h | h <;> rw [h] <;> simp [hs]
  · simp only [forward_transition, serial_write_cb, hs]

/-! ## The receiver: diagnostics -/

theorem wrong_parity_names_byte (r : serial_receiver) (cycle value : Nat)
    (hs : r.state = .SERIAL_STATE_PARITY_BIT) (hb : r.current_byte < 256)
    (hrej : (if get_even_parity r.current_byte = ((avr_regbit_get value r.regbit : Nat) : Int)
      then (1 : Int) else 0) ≠ r.config.parity.toInt) :
    (serial_write_cb_stderr r cycle value).head? =
      some (.wrong_parity (if popcount r.current_byte % 2 = 0 then .even else .odd)) := by
  rw [get_even_parity_eq _ hb] at hrej
  simp only [serial_write_cb_stderr, hs, get_even_parity_eq _ hb]
  rw [if_pos hrej]
  by_cases h : popcount r.current_byte % 2 = 0 <;> simp [h]

theorem masked_since_of_eq (base : List pin_write) (s t : avr_state)
    (h : masked_since base s) (hi : t.interrupts = s.interrupts) (hw : t.writes = s.writes) :
    masked_since base t := by
  unfold masked_since at h ⊢
  rw [hi, hw]
  exact h

theorem masked_since_out (base : List pin_write) (s : avr_state) (h : masked_since base s) :
    masked_since base (out_port s) := by
  obtain ⟨hi, l, hl, hall⟩ := h
  refine ⟨hi, l ++ [{ cycle := s.cycle, value := s.port_value, interrupts := s.interrupts }],
    by simp [out_port, hl], ?_⟩
  intro w hw
  rcases List.mem_append.1 hw with h1 | h1
  · exact hall w h1
  · simp only [List.mem_singleton] at h1
    rw [h1]; exact hi

theorem transmit_bit_log (cfg : printbang_config) (s : avr_state) :
    (transmit_bit cfg s).interrupts = s.interrupts ∧
    ∃ c v, (transmit_bit cfg s).writes =
      s.writes ++ [{ cycle := c, value := v, interrupts := s.interrupts }] := by
  simp only [transmit_bit, dec_bits_remaining, out_port, branch, cbr_port_value,
    sbr_port_value, run_delay, ror_value, rol_value]
  split_ifs <;> exact ⟨rfl, _, _, rfl⟩

theorem masked_since_append (base : List pin_write) (s t : avr_state) (c v : Nat)
    (h : masked_since base s) (hi : t.interrupts = s.interrupts)
    (hw : t.writes = s.writes ++ [{ cycle := c, value := v, interrupts := s.interrupts }]) :
    masked_since base t := by
  obtain ⟨hi0, l, hl, hall⟩ := h
  refine ⟨by rw [hi, hi0], l ++ [{ cycle := c, value := v, interrupts := s.interrupts }],
    by rw [hw, hl, List.append_assoc], ?_⟩
  intro w hw
  rcases List.mem_append.1 hw with h1 | h1
  · exact hall w h1
  · simp only [List.mem_singleton] at h1
    rw [h1]; exact hi0

theorem masked_since_transmit_bit (cfg : printbang_config) (base : List pin_write)
    (s : avr_state) (h : masked_since base s) : masked_since base (transmit_bit cfg s) := by
  obtain ⟨hi, c, v, hw⟩ := transmit_bit_log cfg s
  exact masked_since_append base s _ c v h hi hw

theorem masked_since_transmit_bits (cfg : printbang_config) (base : List pin_write) :
    ∀ s : avr_state, masked_since base s → masked_since base (transmit_bits cfg s) := by
  intro s
  induction s using transmit_bits.induct cfg with
  | case1 s s1 hz =>
    intro h
    rw [transmit_bits]
    rw [if_pos hz]
    exact masked_since_of_eq base _ _ (masked_since_transmit_bit cfg base s h) rfl rfl
  | case2 s s1 hz ih =>
    intro h
    rw [transmit_bits]
    rw [if_neg hz]
    exact ih (masked_since_of_eq base _ _ (masked_since_transmit_bit cfg base s h) rfl rfl)

theorem masked_since_transmit_parity (cfg : printbang_config) (base : List pin_write)
    (s : avr_state) (h : masked_since base s) :
    masked_since base (transmit_parity cfg s) := by
  have key : (transmit_parity cfg s).interrupts = s.interrupts ∧
      ((transmit_parity cfg s).writes = s.writes ∨
       ∃ c v, (transmit_parity cfg s).writes =
        s.writes ++ [{ cycle := c, value := v, interrupts := s.interrupts }]) := by
    cases hp : cfg.parity
    · simp [transmit_parity, hp]
    · simp only [transmit_parity, hp, sbr_port_value, tst_parity, branch, cbr_port_value,
        out_port, lpm, run_delay]
      split_ifs <;> exact ⟨rfl, Or.inr ⟨_, _, rfl⟩⟩
    · simp only [transmit_parity, hp, sbr_port_value, tst_parity, branch, cbr_port_value,
        out_port, lpm, run_delay]
      split_ifs <;> exact ⟨rfl, Or.inr ⟨_, _, rfl⟩⟩
  obtain ⟨hi, hw | ⟨c, v, hw⟩⟩ := key
  · exact masked_since_of_eq base _ _ h hi hw
  · exact masked_since_append base s _ c v h hi hw


theorem masked_since_frame (cfg : printbang_config) (base : List pin_write) (x : avr_state)
    (h : masked_since base x) :
    masked_since base
      (sbr_port_value cfg.PRINTBANG_PIN_MASK (lpm
        (transmit_parity cfg (run_delay cfg.PRINTBANG_DELAY (nop (transmit_bits cfg x)))))) := by
  have h2 := masked_since_transmit_bits cfg base _ h
  have h3 : masked_since base (run_delay cfg.PRINTBANG_DELAY (nop (transmit_bits cfg x))) :=
    masked_since_of_eq _ _ _ h2 rfl rfl
  have h4 := masked_since_transmit_parity cfg base _ h3
  exact masked_since_of_eq _ _ _ h4 rfl rfl

theorem quiet_since_of_eq (base : List irq_event) (s t : avr_state)
    (h : quiet_since base s) (hi : t.interrupts = s.interrupts) (hw : t.irq_log = s.irq_log) :
    quiet_since base t := by
  unfold quiet_since at h ⊢
  rw [hi, hw]
  exact h

theorem quiet_since_held (base : List irq_event) (s t : avr_state) (a b : Nat)
    (h : quiet_since base s) (hi : t.interrupts = s.interrupts)
    (hw : t.irq_log = s.irq_log ++ [.held a b s.interrupts]) :
    quiet_since base t := by
  obtain ⟨hi0, hs, hl, hall⟩ := h
  refine ⟨by rw [hi, hi0], hs ++ [.held a b false], by rw [hw, hl, hi0, List.append_assoc], ?_⟩
  intro e he
  rcases List.mem_append.1 he with h1 | h1
  · exact hall e h1
  · exact ⟨a, b, List.mem_singleton.1 h1⟩

theorem transmit_bit_irq_log (cfg : printbang_config) (s : avr_state) :
    (transmit_bit cfg s).interrupts = s.interrupts ∧
    ∃ a b, (transmit_bit cfg s).irq_log = s.irq_log ++ [.held a b s.interrupts] := by
  simp only [transmit_bit, dec_bits_remaining, out_port, branch, cbr_port_value,
    sbr_port_value, run_delay, ror_value, rol_value]
  split_ifs <;> exact ⟨rfl, _, _, rfl⟩

theorem quiet_since_transmit_bit (cfg : printbang_config) (base : List irq_event)
    (s : avr_state) (h : quiet_since base s) : quiet_since base (transmit_bit cfg s) := by
  obtain ⟨hi, a, b, hw⟩ := transmit_bit_irq_log cfg s
  exact quiet_since_held base s _ a b h hi hw

theorem quiet_since_transmit_bits (cfg : printbang_config) (base : List irq_event) :
    ∀ s : avr_state, quiet_since base s → quiet_since base (transmit_bits cfg s) := by
  intro s
  induction s using transmit_bits.induct cfg with
  | case1 s s1 hz =>
    intro h
    rw [transmit_bits]
    rw [if_pos hz]
    exact quiet_since_of_eq base _ _ (quiet_since_transmit_bit cfg base s h) rfl rfl
  | case2 s s1 hz ih =>
    intro h
    rw [transmit_bits]
    rw [if_neg hz]
    exact ih (quiet_since_of_eq base _ _ (quiet_since_transmit_bit cfg base s h) rfl rfl)

theorem quiet_since_transmit_parity (cfg : printbang_config) (base : List irq_event)
    (s : avr_state) (h : quiet_since base s) :
    quiet_since base (transmit_parity cfg s) := by
  have key : (transmit_parity cfg s).interrupts = s.interrupts ∧
      ((transmit_parity cfg s).irq_log = s.irq_log ∨
       ∃ a b, (transmit_parity cfg s).irq_log = s.irq_log ++ [.held a b s.interrupts]) := by
    cases hp : cfg.parity
    · simp [transmit_parity, hp]
    · simp only [transmit_parity, hp, sbr_port_value, tst_parity, branch, cbr_port_value,
        out_port, lpm, run_delay]
      split_ifs <;> exact ⟨rfl, Or.inr ⟨_, _, rfl⟩⟩
    · simp only [transmit_parity, hp, sbr_port_value, tst_parity, branch, cbr_port_value,
        out_port, lpm, run_delay]
      split_ifs <;> exact ⟨rfl, Or.inr ⟨_, _, rfl⟩⟩
  obtain ⟨hi, hw | ⟨a, b, hw⟩⟩ := key
  · exact quiet_since_of_eq base _ _ h hi hw
  · exact quiet_since_held base s _ a b h hi hw

theorem quiet_since_frame (cfg : printbang_config) (base : List irq_event) (x : avr_state)
    (h : quiet_since base x) :
    quiet_since base
      (sbr_port_value cfg.PRINTBANG_PIN_MASK (lpm
        (transmit_parity cfg (run_delay cfg.PRINTBANG_DELAY (nop (transmit_bits cfg x)))))) := by
  have h2 := quiet_since_transmit_bits cfg base _ h
  have h3 : quiet_since base (run_delay cfg.PRINTBANG_DELAY (nop (transmit_bits cfg x))) :=
    quiet_since_held base (transmit_bits cfg x) _ _ _ h2 rfl rfl
  have h4 := quiet_since_transmit_parity cfg base _ h3
  exact quiet_since_of_eq _ _ _ h4 rfl rfl

theorem timed_writes_getLast (T : Nat) (irq : Bool) : ∀ (bs : List Nat) (t : Nat), bs ≠ [] →
    ((timed_writes t T irq bs).getLast?).map (fun w => w.cycle) =
      some (t + (bs.length - 1) * T) := by
  intro bs
  induction bs with
  | nil => intro t h; exact absurd rfl h
  | cons b bs ih =>
    intro t _
    cases bs with
    | nil => simp [timed_writes]
    | cons c cs =>
      have h := ih (t + T) (by simp)
      simp only [timed_writes, List.getLast?_cons_cons, List.length_cons] at h ⊢
      rw [h]
      congr 1
      have e : cs.length + 1 + 1 - 1 = (cs.length + 1 - 1) + 1 := by omega
      rw [e, Nat.add_mul]
      omega

/-- C15. Atomic frame: in every call of `bang_char`, for every value and configuration,
the record of the interrupt flag over the call is: `cli()` clears it at entry, one cycle
before the first pin write; then only runs of the delay snippet, every one with the flag
clear, the last of them the hold delay of the stop bit, which starts in the cycle after
the stop-bit write; then `sei()` sets it, in the cycle in which that hold delay ends.
Every pin write is made with the flag clear, the stop bit is the last write, and the call
returns through that `sei()` with the flag set.  For a delay snippet of `D` cycles the flag
is set `1 + D` cycles after the stop-bit write. -/
theorem atomic_frame (cfg : printbang_config) (s : avr_state) (value : Nat) :
    (∃ (t : avr_state) (holds : List irq_event),
        bang_char cfg s value = sei (run_delay cfg.PRINTBANG_DELAY (out_port t))
        ∧ t.interrupts = false
        ∧ (bang_char cfg s value).writes = (out_port t).writes
        ∧ (bang_char_frame cfg s value).getLast? =
            some { cycle := t.cycle, value := t.port_value, interrupts := false }
        ∧ (bang_char cfg s value).irq_log = s.irq_log ++
            (irq_event.changed s.cycle false :: holds) ++
            [.held (t.cycle + 1) (run_delay cfg.PRINTBANG_DELAY (out_port t)).cycle false,
             .changed (run_delay cfg.PRINTBANG_DELAY (out_port t)).cycle true]
        ∧ (∀ e ∈ holds, ∃ a b, e = irq_event.held a b false)
        ∧ (∀ D, delay_costs cfg.PRINTBANG_DELAY D →
            (run_delay cfg.PRINTBANG_DELAY (out_port t)).cycle = t.cycle + 1 + D))
    ∧ (∀ w ∈ bang_char_frame cfg s value, w.interrupts = false)
    ∧ (bang_char_frame cfg s value).head? =
        some { cycle := s.cycle + 1, value := pin_low s.port cfg.PRINTBANG_PIN_MASK,
               interrupts := false }
    ∧ (bang_char cfg s value).interrupts = true
    ∧ (∀ D, delay_costs cfg.PRINTBANG_DELAY D →
        1 ≤ cfg.PRINTBANG_DATA_BITS → cfg.PRINTBANG_DATA_BITS ≤ 8 →
        bang_char_frame cfg s value =
            timed_writes (s.cycle + 1) (D + 8) false
              ((frame_levels cfg value).map (pin_byte s.port cfg.PRINTBANG_PIN_MASK))
        ∧ (bang_char cfg s value).irq_log.getLast? =
            some (.changed
              (s.cycle + 1 + ((bang_char_frame cfg s value).length - 1) * (D + 8) + 1 + D)
              true)) := by
  have heq := bang_char_eq cfg s value
  -- the state after the start bit
  have hstart : (lpm (out_port (cbr_port_value cfg.PRINTBANG_PIN_MASK
      (bang_char_entry cfg s value)))).writes = s.writes ++
        [{ cycle := s.cycle + 1, value := pin_low s.port cfg.PRINTBANG_PIN_MASK,
           interrupts := false }] := by
    simp [lpm, out_port, cbr_port_value, bang_char_entry, pin_low]
  have h1 : masked_since (s.writes ++
        [{ cycle := s.cycle + 1, value := pin_low s.port cfg.PRINTBANG_PIN_MASK,
           interrupts := false }])
      (lpm (out_port (cbr_port_value cfg.PRINTBANG_PIN_MASK
        (bang_char_entry cfg s value)))) :=
    ⟨rfl, [], by rw [hstart, List.append_nil], by simp⟩
  have hq1 : quiet_since (s.irq_log ++ [.changed s.cycle false])
      (lpm (out_port (cbr_port_value cfg.PRINTBANG_PIN_MASK
        (bang_char_entry cfg s value)))) :=
    ⟨rfl, [], by rw [List.append_nil]; rfl, by simp⟩
  have hm := masked_since_frame cfg _ _ h1
  have hq := quiet_since_frame cfg _ _ hq1
  obtain ⟨hi, l, hl, hall⟩ := hm
  obtain ⟨-, holds, hlog, hquiet⟩ := hq
  generalize ht : sbr_port_value cfg.PRINTBANG_PIN_MASK (lpm
      (transmit_parity cfg (run_delay cfg.PRINTBANG_DELAY (nop (transmit_bits cfg (lpm
        (out_port (cbr_port_value cfg.PRINTBANG_PIN_MASK
          (bang_char_entry cfg s value))))))))) = t at heq hi hl hlog
  have hw : (bang_char cfg s value).writes = (out_port t).writes := by rw [heq]; rfl
  have hw2 : (bang_char cfg s value).writes = s.writes ++
      ({ cycle := s.cycle + 1, value := pin_low s.port cfg.PRINTBANG_PIN_MASK,
         interrupts := false } ::
        (l ++ [{ cycle := t.cycle, value := t.port_value, interrupts := false }])) := by
    rw [hw]
    simp only [out_port, hl, hi, List.append_assoc, List.singleton_append, List.cons_append,
      List.nil_append]
  have hframe : bang_char_frame cfg s value =
      { cycle := s.cycle + 1, value := pin_low s.port cfg.PRINTBANG_PIN_MASK,
        interrupts := false } ::
        (l ++ [{ cycle := t.cycle, value := t.port_value, interrupts := false }]) := by
    unfold bang_char_frame
    rw [hw2, List.drop_left]
  have hirq : (bang_char cfg s value).irq_log = s.irq_log ++
      (irq_event.changed s.cycle false :: holds) ++
      [.held (t.cycle + 1) (run_delay cfg.PRINTBANG_DELAY (out_port t)).cycle false,
       .changed (run_delay cfg.PRINTBANG_DELAY (out_port t)).cycle true] := by
    rw [heq]
    have e : (sei (run_delay cfg.PRINTBANG_DELAY (out_port t))).irq_log =
        t.irq_log ++ [.held (t.cycle + 1) (run_delay cfg.PRINTBANG_DELAY (out_port t)).cycle
          t.interrupts] ++
          [.changed (run_delay cfg.PRINTBANG_DELAY (out_port t)).cycle true] := rfl
    rw [e, hlog, hi]
    simp only [List.append_assoc, List.singleton_append, List.cons_append, List.nil_append]
  have hstamp : ∀ D, delay_costs cfg.PRINTBANG_DELAY D →
      (run_delay cfg.PRINTBANG_DELAY (out_port t)).cycle = t.cycle + 1 + D := by
    intro D hd
    rw [run_delay_cycle hd]
    rfl
  have hlast : (bang_char_frame cfg s value).getLast? =
      some { cycle := t.cycle, value := t.port_value, interrupts := false } := by
    rw [hframe, ← List.cons_append, List.getLast?_append]
    rfl
  refine ⟨⟨t, holds, heq, hi, hw, hlast, hirq, hquiet, hstamp⟩, ?_, by rw [hframe]; rfl,
    by rw [heq]; rfl, ?_⟩
  · intro w hwm
    rw [hframe] at hwm
    rcases List.mem_cons.1 hwm with h | h
    · rw [h]
    · rcases List.mem_append.1 h with h | h
      · exact hall w h
      · rw [List.mem_singleton.1 h]
  · intro D hd hb1 hb8
    have htimed := bang_char_frame_timed cfg D hd s value hb1 hb8
    refine ⟨htimed, ?_⟩
    have hne : (frame_levels cfg value).map (pin_byte s.port cfg.PRINTBANG_PIN_MASK) ≠ [] := by
      simp [frame_levels]
    have hg := timed_writes_getLast (D + 8) false _ (s.cycle + 1) hne
    rw [← htimed, hlast] at hg
    have hlen : (bang_char_frame cfg s value).length =
        ((frame_levels cfg value).map (pin_byte s.port cfg.PRINTBANG_PIN_MASK)).length := by
      rw [htimed, timed_writes_length]
    simp only [Option.map_some', Option.some.injEq] at hg
    rw [hirq, List.getLast?_append, hstamp D hd, hg, hlen]
    rfl

/-- C15, instance: the firmware configuration (delay snippet of 56 cycles) sending 0x48
from the idle state at cycle 0: the flag is cleared at cycle 0, the nine writes are at
cycles 1, 65, ..., 513, and the flag is set at cycle 570 = 513 + 1 + 56. -/
theorem atomic_frame_witness :
    (bang_char firmware_config idle_avr 0x48).irq_log.getLast? = some (.changed 570 true)
    ∧ (bang_char_frame firmware_config idle_avr 0x48).map (fun w => w.cycle) =
        [1, 65, 129, 193, 257, 321, 385, 449, 513]
    ∧ (∀ w ∈ bang_char_frame firmware_config idle_avr 0x48, w.interrupts = false) := by
  have h := atomic_frame firmware_config idle_avr 0x48
  have hB := h.2.2.2.2 56 delay_16000000_costs (by decide) (by decide)
  have hlen : (bang_char_frame firmware_config idle_avr 0x48).length = 9 := by
    rw [hB.1, timed_writes_length]
    decide
  refine ⟨?_, ?_, h.2.1⟩
  · rw [hB.2, hlen]
    rfl
  · rw [hB.1]
    decide


/-- C14, amended: after `bang_char` returns the global interrupt enable flag is set,
whatever it was before the call; it has its value from before the call exactly when
interrupts were enabled before the call. -/
theorem interrupts_enabled_on_exit (cfg : printbang_config) (s : avr_state) (value : Nat) :
    (bang_char cfg s value).interrupts = true
    ∧ ((bang_char cfg s value).interrupts = s.interrupts ↔ s.interrupts = true) := by
  have h : (bang_char cfg s value).interrupts = true := by rw [bang_char_eq]; rfl
  refine ⟨h, ?_⟩
  rw [h]
  exact eq_comm

/-- C14, counterexample: called with interrupts disabled, `bang_char` returns with
interrupts enabled: the flag does not have the value it had before the call. -/
theorem interrupts_not_restored :
    ({ idle_avr with interrupts := false } : avr_state).interrupts = false
    ∧ (bang_char firmware_config { idle_avr with interrupts := false } 0x48).interrupts ≠
        ({ idle_avr with interrupts := false } : avr_state).interrupts := by
  refine ⟨rfl, ?_⟩
  rw [bang_char_eq]
  decide

/-! ## The transmitter: the parity level -/

/-- C12, amended: with `PRINTBANG_PARITY_EVEN` the parity level that `bang_char` writes is
the even-parity bit of the byte in the register `value` (the char, left-aligned for MSB
order): 1 exactly when that byte has an odd number of set bits.  With
`PRINTBANG_PARITY_ODD` the transmitter writes the inverse (`breq` in place of `brne`): 1
exactly when the byte has an even number of set bits. -/
theorem parity_level_written (cfg : printbang_config) (s : avr_state) (v pin : Nat)
    (h1 : 1 ≤ cfg.PRINTBANG_DATA_BITS) (h8 : cfg.PRINTBANG_DATA_BITS ≤ 8)
    (hm : cfg.PRINTBANG_PIN_MASK < 256) (hp : cfg.PRINTBANG_PIN_MASK.testBit pin = true)
    (hpar : cfg.parity ≠ .PRINTBANG_PARITY_NONE) :
    (bang_char_frame cfg s v).map (pin_level pin) =
      0 :: ((List.range cfg.PRINTBANG_DATA_BITS).map
          (fun j => (data_bit cfg.PRINTBANG_ORDER_MSB (bang_char_entry cfg s v).value j).toNat) ++
        [if cfg.parity = .PRINTBANG_PARITY_EVEN
         then parity_even_bit (bang_char_entry cfg s v).value
         else 1 - parity_even_bit (bang_char_entry cfg s v).value] ++ [1])
    ∧ parity_even_bit (bang_char_entry cfg s v).value =
        (if popcount (bang_char_entry cfg s v).value % 2 = 1 then 1 else 0) := by
  have he : (bang_char_entry cfg s v).value = aligned_value cfg v := rfl
  have hpe : parity_even_bit (aligned_value cfg v) = 0 ∨
      parity_even_bit (aligned_value cfg v) = 1 := by
    unfold parity_even_bit; omega
  refine ⟨?_, ?_⟩
  · rw [bang_char_frame_levels cfg s v pin h1 h8 hm hp, he]
    cases hc : cfg.parity
    · exact absurd hc hpar
    · rcases hpe with h | h <;>
        simp [frame_levels, parity_levels, Function.comp_def, h, hc, List.range_eq_range']
    · rcases hpe with h | h <;>
        simp [frame_levels, parity_levels, Function.comp_def, h, hc, List.range_eq_range']
  · rw [he]
    unfold parity_even_bit
    split_ifs <;> omega

/-- C12, amended, instance: 7 data bits, LSB first, odd parity, the value 0x01: the
even-parity bit of 0x01 is 1 and the parity level written is 0. -/
theorem parity_level_written_witness :
    (bang_char_frame { firmware_config with parity := .PRINTBANG_PARITY_ODD } idle_avr 0x01).map
        (pin_level 0) = [0, 1, 0, 0, 0, 0, 0, 0, 0, 1] := by
  have h := (parity_level_written { firmware_config with parity := .PRINTBANG_PARITY_ODD }
    idle_avr 0x01 0 (by decide) (by decide) (by decide) (by decide) (by decide)).1
  rw [h]
  decide

/-- C12, counterexample: 7 data bits, LSB first, `PRINTBANG_PARITY_ODD`, the value 0: the
even-parity bit of 0 is 0, but the parity level written (the ninth write) is 1. -/
theorem odd_mode_inverts_parity_bit :
    (bang_char_frame { firmware_config with parity := .PRINTBANG_PARITY_ODD } idle_avr 0).map
        (pin_level 0) = [0, 0, 0, 0, 0, 0, 0, 0, 1, 1]
    ∧ parity_even_bit 0 = 0
    ∧ ((bang_char_frame { firmware_config with parity := .PRINTBANG_PARITY_ODD }
          idle_avr 0).map (pin_level 0)).getD 8 0 ≠ parity_even_bit 0 := by
  have h : (bang_char_frame { firmware_config with parity := .PRINTBANG_PARITY_ODD }
      idle_avr 0).map (pin_level 0) = [0, 0, 0, 0, 0, 0, 0, 0, 1, 1] := by
    rw [bang_char_frame_levels _ _ _ 0 (by decide) (by decide) (by decide) (by decide)]
    decide
  refine ⟨h, by decide, ?_⟩
  rw [h]
  decide

/-! ## Strings: one frame per character -/


theorem bang_char_writes_frame (cfg : printbang_config) (D : Nat)
    (hd : delay_costs cfg.PRINTBANG_DELAY D) (s : avr_state) (value : Nat)
    (h1 : 1 ≤ cfg.PRINTBANG_DATA_BITS) (h8 : cfg.PRINTBANG_DATA_BITS ≤ 8) :
    (bang_char cfg s value).writes = s.writes ++ bang_char_frame cfg s value := by
  unfold bang_char_frame
  rw [bang_char_writes cfg D hd s value h1 h8, List.drop_left]

theorem bang_pstr_terminated (cfg : printbang_config) (glue : Nat) (rest : List Nat) :
    ∀ (chars : List Nat) (s : avr_state), (∀ c ∈ chars, c ≠ 0) →
      bang_pstr cfg glue (chars ++ 0 :: rest) s = bang_char_sequence cfg glue s chars := by
  intro chars
  induction chars with
  | nil => intro s _; simp [bang_pstr, bang_char_sequence]
  | cons c cs ih =>
    intro s h
    have hc : c ≠ 0 := h c (List.mem_cons_self _ _)
    have hcs : ∀ c ∈ cs, c ≠ 0 := fun x hx => h x (List.mem_cons_of_mem _ hx)
    show bang_pstr cfg glue (c :: (cs ++ 0 :: rest)) s = _
    rw [bang_pstr, if_pos hc, ih _ hcs]
    rfl

theorem bang_char_sequence_append (cfg : printbang_config) (glue : Nat) (s : avr_state)
    (xs ys : List Nat) :
    bang_char_sequence cfg glue s (xs ++ ys) =
      bang_char_sequence cfg glue (bang_char_sequence cfg glue s xs) ys := by
  simp [bang_char_sequence, List.foldl_append]

theorem bang_char_sequence_decodes (cfg : printbang_config) (D : Nat)
    (hd : delay_costs cfg.PRINTBANG_DELAY D) (glue pin : Nat)
    (h1 : 1 ≤ cfg.PRINTBANG_DATA_BITS) (h8 : cfg.PRINTBANG_DATA_BITS ≤ 8)
    (hm : cfg.PRINTBANG_PIN_MASK < 256) (hp : cfg.PRINTBANG_PIN_MASK.testBit pin = true)
    (hD : D + 8 < 2 ^ 31) :
    ∀ (chars : List Nat) (s : avr_state) (r : serial_receiver),
      (∀ c ∈ chars, c < 2 ^ cfg.PRINTBANG_DATA_BITS) →
      r.state = .SERIAL_STATE_IDLE →
      r.regbit = { bit := pin, mask := 1 } →
      same_configuration cfg r.config →
      r.expected_cycles = ((D + 8 : Nat) : Int) →
      ∃ ws : List pin_write,
        (bang_char_sequence cfg glue s chars).writes = s.writes ++ ws
        ∧ ws.map (pin_level pin) =
            chars.flatMap (fun c => (frame_levels cfg c).map Bool.toNat)
        ∧ (serial_run r ws).state = .SERIAL_STATE_IDLE
        ∧ (serial_run r ws).buffer = r.buffer ++ chars := by
  intro chars
  induction chars with
  | nil =>
    intro s r _ hs _ _ _
    exact ⟨[], by simp [bang_char_sequence], rfl, hs, by simp [serial_run]⟩
  | cons c cs ih =>
    intro s r hc hs hreg hsame hexp
    have hc0 : c < 2 ^ cfg.PRINTBANG_DATA_BITS := hc c (List.mem_cons_self _ _)
    have hcs : ∀ x ∈ cs, x < 2 ^ cfg.PRINTBANG_DATA_BITS :=
      fun x hx => hc x (List.mem_cons_of_mem _ hx)
    have hf := frame_decodes cfg D hd (compiled_code glue s) r c pin h1 h8 hm hp hc0 hs hreg
      hsame hexp hD
    have hw := bang_char_writes_frame cfg D hd (compiled_code glue s) c h1 h8
    have hl := bang_char_frame_levels cfg (compiled_code glue s) c pin h1 h8 hm hp
    obtain ⟨ws, e1, e2, e3, e4⟩ := ih (bang_char cfg (compiled_code glue s) c)
      (serial_run r (bang_char_frame cfg (compiled_code glue s) c)) hcs
      (by rw [hf]) (by rw [hf]; exact hreg) (by rw [hf]; exact hsame) (by rw [hf]; exact hexp)
    refine ⟨bang_char_frame cfg (compiled_code glue s) c ++ ws, ?_, ?_, ?_, ?_⟩
    · have e : bang_char_sequence cfg glue s (c :: cs) =
          bang_char_sequence cfg glue (bang_char cfg (compiled_code glue s) c) cs := rfl
      rw [e, e1, hw, List.append_assoc]
      rfl
    · rw [List.map_append, hl, e2, List.flatMap_cons]
    · rw [serial_run_append, e3]
    · rw [serial_run_append, e4, hf]
      simp


/-- C11. End-to-end line transmission: with the firmware configuration (7 data bits, LSB
first, no parity, pin 0) and the default line ending, for every string of non-zero
characters below 0x80 followed by its NUL in program memory, `bangln` makes exactly the
calls `bang_char(c)` for the characters of the string in order, then for CR and for LF;
the writes it adds to the log are one frame per character; fed to the receiver set up as
in `runner.c`, they never put it into the fault state, leave it idle, and append exactly
the characters of the string followed by 0x0D, 0x0A to its buffer.  The cycles spent in
compiled code between two frames (`glue`) are arbitrary. -/
theorem line_transmission (glue : Nat) (s : avr_state) (str rest : List Nat)
    (hstr : ∀ c ∈ str, c ≠ 0 ∧ c < 0x80) :
    bangln firmware_config glue (str ++ 0 :: rest) s =
        bang_char_sequence firmware_config glue s (str ++ [0x0D, 0x0A])
    ∧ ∃ ws : List pin_write,
        (bangln firmware_config glue (str ++ 0 :: rest) s).writes = s.writes ++ ws
        ∧ ws.map (pin_level 0) =
            (str ++ [0x0D, 0x0A]).flatMap
              (fun c => (frame_levels firmware_config c).map Bool.toNat)
        ∧ (serial_run runner_receiver ws).state = .SERIAL_STATE_IDLE
        ∧ (serial_run runner_receiver ws).buffer =
            runner_receiver.buffer ++ (str ++ [0x0D, 0x0A])
        ∧ (∀ k, (serial_run runner_receiver (ws.take k)).state ≠ .SERIAL_STATE_FAULT) := by
  have hcalls : bangln firmware_config glue (str ++ 0 :: rest) s =
      bang_char_sequence firmware_config glue s (str ++ [0x0D, 0x0A]) := by
    unfold bangln
    rw [bang_pstr_terminated firmware_config glue rest str s (fun c hc => (hstr c hc).1)]
    have hle : printbang_line_ending = [0x0D, 0x0A] ++ 0 :: [] := rfl
    rw [hle, bang_pstr_terminated firmware_config glue [] [0x0D, 0x0A] _ (by decide),
      bang_char_sequence_append]
  refine ⟨hcalls, ?_⟩
  have hlt : ∀ c ∈ str ++ [0x0D, 0x0A], c < 2 ^ firmware_config.PRINTBANG_DATA_BITS := by
    intro c hc
    have h128 : 2 ^ firmware_config.PRINTBANG_DATA_BITS = 128 := by decide
    rw [h128]
    rcases List.mem_append.1 hc with h | h
    · exact (hstr c h).2
    · simp only [List.mem_cons, List.mem_singleton, List.not_mem_nil, or_false] at h
      rcases h with h | h <;> omega
  obtain ⟨ws, e1, e2, e3, e4⟩ := bang_char_sequence_decodes firmware_config 56
    delay_16000000_costs glue 0 (by decide) (by decide) (by decide) (by decide) (by decide)
    (str ++ [0x0D, 0x0A]) s runner_receiver hlt rfl rfl ⟨rfl, rfl, rfl⟩ (by decide)
  refine ⟨ws, by rw [hcalls, e1], e2, e3, e4, ?_⟩
  exact never_fault_of_final runner_receiver ws (by rw [e3]; decide)

/-- C11, instance: the string "Hello, World!" of the test firmware, sent from the idle
machine state with 20 cycles of compiled code between frames. -/
theorem line_transmission_witness :
    bangln firmware_config 20 (hello_world ++ 0 :: []) idle_avr =
        bang_char_sequence firmware_config 20 idle_avr (hello_world ++ [0x0D, 0x0A])
    ∧ ∃ ws : List pin_write,
        (bangln firmware_config 20 (hello_world ++ 0 :: []) idle_avr).writes =
          idle_avr.writes ++ ws
        ∧ ws.map (pin_level 0) =
            (hello_world ++ [0x0D, 0x0A]).flatMap
              (fun c => (frame_levels firmware_config c).map Bool.toNat)
        ∧ (serial_run runner_receiver ws).state = .SERIAL_STATE_IDLE
        ∧ (serial_run runner_receiver ws).buffer =
            runner_receiver.buffer ++ (hello_world ++ [0x0D, 0x0A])
        ∧ (∀ k, (serial_run runner_receiver (ws.take k)).state ≠ .SERIAL_STATE_FAULT) :=
  line_transmission 20 idle_avr hello_world [] (by decide)

/-! ## Integers: digits in a base -/


theorem digit_char_eq (base m : Nat) (hb : base ≤ 36) (hm : m < base) :
    (if base > 10 ∧ m ≥ 10 then (65 - 10) + m else 48 + m) % 256 = digit_char m := by
  unfold digit_char
  split_ifs <;> omega

theorem base_digits_step (base value : Nat) (h2 : 2 ≤ base) (hdiv : 0 < value / base) :
    base_digits base value = base_digits base (value / base) ++ [value % base] := by
  have hv : value ≠ 0 := by
    intro h; rw [h, Nat.zero_div] at hdiv; exact absurd hdiv (lt_irrefl 0)
  have hq : value / base ≠ 0 := by omega
  unfold base_digits
  rw [if_neg hv, if_neg hq]
  obtain ⟨b, rfl⟩ : ∃ b, base = b + 2 := ⟨base - 2, by omega⟩
  obtain ⟨n, rfl⟩ : ∃ n, value = n + 1 := ⟨value - 1, by omega⟩
  rw [Nat.digits_add_two_add_one, List.reverse_cons]

theorem base_digits_small (base value : Nat) (h2 : 2 ≤ base) (hdiv : ¬ 0 < value / base) :
    base_digits base value = [value % base] := by
  have hlt : value < base := by
    by_contra h
    exact hdiv (Nat.div_pos (by omega) (by omega))
  unfold base_digits
  split_ifs with h0
  · rw [h0, Nat.zero_mod]
  · rw [Nat.digits_of_lt base value h0 hlt, Nat.mod_eq_of_lt hlt]
    rfl

theorem bang_uint_eq (cfg : printbang_config) (glue base : Nat) (h2 : 2 ≤ base)
    (h36 : base ≤ 36) :
    ∀ (value : Nat) (s : avr_state),
      bang_uint cfg glue s value base =
        bang_char_sequence cfg glue s ((base_digits base value).map digit_char) := by
  intro value
  induction value using Nat.strong_induction_on with
  | _ value ih =>
    intro s
    have hb : ¬ (base < 2 ∨ base > 36) := by omega
    have hm : value % base < base := Nat.mod_lt _ (by omega)
    rw [bang_uint]
    simp only [dif_neg hb, digit_char_eq base _ h36 hm]
    by_cases hdiv : value / base > 0
    · have hlt : value / base < value := by
        have hv : 0 < value := by
          rcases Nat.eq_zero_or_pos value with h | h
          · rw [h, Nat.zero_div] at hdiv; exact absurd hdiv (lt_irrefl 0)
          · exact h
        exact Nat.div_lt_self hv h2
      rw [dif_pos hdiv, ih _ hlt s, base_digits_step base value h2 hdiv, List.map_append,
        bang_char_sequence_append]
      rfl
    · rw [dif_neg hdiv, base_digits_small base value h2 hdiv]
      rfl


theorem base_digits_horner (base value : Nat) :
    (base_digits base value).foldl (fun acc d => d + base * acc) 0 = value := by
  unfold base_digits
  split_ifs with h0
  · simp [h0]
  · rw [List.foldl_reverse]
    have h := Nat.ofDigits_digits base value
    rw [Nat.ofDigits_eq_foldr] at h
    simpa using h

theorem base_digits_lt (base value : Nat) (h2 : 2 ≤ base) :
    ∀ d ∈ base_digits base value, d < base := by
  intro d hd
  unfold base_digits at hd
  split_ifs at hd with h0
  · simp only [List.mem_singleton] at hd; omega
  · exact Nat.digits_lt_base (by omega) (List.mem_reverse.1 hd)

theorem base_digits_head (base value : Nat) (hv : value ≠ 0) :
    (base_digits base value).head? ≠ some 0 := by
  unfold base_digits
  rw [if_neg hv, List.head?_reverse]
  intro h
  have hne : Nat.digits base value ≠ [] := Nat.digits_ne_nil_iff_ne_zero.2 hv
  have hl := Nat.getLast_digit_ne_zero base hv
  rw [List.getLast?_eq_getLast _ hne] at h
  exact hl (Option.some.inj h)

theorem negate_convert (w : Nat) (value : Int) (hw : 1 ≤ w)
    (hlo : -(2 ^ (w - 1)) ≤ value) (hneg : value < 0) :
    convert_unsigned w (wrap_signed w (-value)) = value.natAbs := by
  obtain ⟨k, rfl⟩ : ∃ k, w = k + 1 := ⟨w - 1, by omega⟩
  have hP : (0 : Int) < 2 ^ k := by positivity
  have h2P : (2 : Int) ^ (k + 1) = 2 * 2 ^ k := by ring
  unfold convert_unsigned wrap_signed
  simp only [Nat.add_sub_cancel, h2P] at hlo ⊢
  generalize (2 : Int) ^ k = P at hP hlo ⊢
  rcases eq_or_lt_of_le hlo with h | h
  · have e1 : (-value + P) % (2 * P) = 0 := by
      have : -value + P = 2 * P := by omega
      rw [this, Int.emod_self]
    have e2 : (0 - P) % (2 * P) = P := by
      have : (0 - P) = P + (2 * P) * (-1) := by ring
      rw [this, Int.add_mul_emod_self_left, Int.emod_eq_of_lt (by omega) (by omega)]
    rw [e1, e2]
    omega
  · have e1 : (-value + P) % (2 * P) = -value + P :=
      Int.emod_eq_of_lt (by omega) (by omega)
    rw [e1]
    have e2 : (-value + P - P) % (2 * P) = -value := by
      rw [show -value + P - P = -value by ring]
      exact Int.emod_eq_of_lt (by omega) (by omega)
    rw [e2]
    omega

theorem convert_nonneg (w : Nat) (value : Int) (hw : 1 ≤ w)
    (h0 : 0 ≤ value) (hhi : value < 2 ^ (w - 1)) :
    convert_unsigned w value = value.toNat := by
  obtain ⟨k, rfl⟩ : ∃ k, w = k + 1 := ⟨w - 1, by omega⟩
  have hP : (0 : Int) < 2 ^ k := by positivity
  have h2P : (2 : Int) ^ (k + 1) = 2 * 2 ^ k := by ring
  unfold convert_unsigned
  simp only [Nat.add_sub_cancel, h2P] at hhi ⊢
  rw [Int.emod_eq_of_lt h0 (by omega)]

/-- C16. Unsigned integer formatting: for every value and every base from 2 to 36,
`bang_uint` (the template of `bang_uint`, `bang_ulong`, `bang_ulonglong`) makes exactly the
calls `bang_char(c)` for the digit characters of the value in that base, most significant
digit first: the digits are below the base, their Horner sum from the first digit on is
the value, the first digit is not 0 unless the value is 0, the value 0 gives the single
character `'0'`, and a digit `d` is sent as `'0' + d` below 10 and as `'A' + (d - 10)`
from 10 on. -/
theorem unsigned_formatting (cfg : printbang_config) (glue : Nat) (s : avr_state)
    (value base : Nat) (h2 : 2 ≤ base) (h36 : base ≤ 36) :
    bang_uint cfg glue s value base =
        bang_char_sequence cfg glue s ((base_digits base value).map digit_char)
    ∧ (∀ d ∈ base_digits base value, d < base)
    ∧ (base_digits base value).foldl (fun acc d => d + base * acc) 0 = value
    ∧ (value ≠ 0 → (base_digits base value).head? ≠ some 0)
    ∧ (value = 0 → (base_digits base value).map digit_char = [48])
    ∧ (∀ d, d < 10 → digit_char d = 48 + d)
    ∧ (∀ d, 10 ≤ d → digit_char d = 65 + (d - 10)) := by
  refine ⟨bang_uint_eq cfg glue base h2 h36 value s, base_digits_lt base value h2,
    base_digits_horner base value, base_digits_head base value, ?_, ?_, ?_⟩
  · intro h0; rw [h0]; rfl
  · intro d hd; unfold digit_char; rw [if_pos hd]
  · intro d hd; unfold digit_char; rw [if_neg (by omega)]

/-- C16, instance: 255 in base 16 is sent as "FF" by the firmware configuration. -/
theorem unsigned_formatting_witness :
    bang_uint firmware_config 20 idle_avr 255 16 =
        bang_char_sequence firmware_config 20 idle_avr [70, 70]
    ∧ (base_digits 16 255).foldl (fun acc d => d + 16 * acc) 0 = 255 := by
  have h := unsigned_formatting firmware_config 20 idle_avr 255 16 (by decide) (by decide)
  have e : (base_digits 16 255).map digit_char = [70, 70] := by
    norm_num [base_digits, digit_char]
  rw [e] at h
  exact ⟨h.1, h.2.2.1⟩

/-- C17. Signed integer formatting: for a signed type of `w` bits, every value of the type
and every base from 2 to 36, `bang_int` does what `bang_uint` does on the same value when
the value is not negative, and otherwise calls `bang_char('-')` and then `bang_char` for
the base digits of the absolute value; this includes the most negative value, whose
negation wraps and is converted to `2 ^ (w - 1)`. -/
theorem signed_formatting (cfg : printbang_config) (glue w : Nat) (s : avr_state)
    (value : Int) (base : Nat) (h2 : 2 ≤ base) (h36 : base ≤ 36) (hw : 1 ≤ w)
    (hlo : -(2 ^ (w - 1)) ≤ value) (hhi : value < 2 ^ (w - 1)) :
    (0 ≤ value →
      bang_int cfg glue w s value base = bang_uint cfg glue s value.toNat base)
    ∧ (value < 0 →
      bang_int cfg glue w s value base =
        bang_char_sequence cfg glue s
          (45 :: (base_digits base value.natAbs).map digit_char))
    ∧ (value = -(2 ^ (w - 1)) →
      convert_unsigned w (wrap_signed w (-value)) = 2 ^ (w - 1)) := by
  refine ⟨?_, ?_, ?_⟩
  · intro h0
    unfold bang_int
    rw [if_neg (by omega), convert_nonneg w value hw h0 hhi]
  · intro hneg
    unfold bang_int
    rw [if_pos hneg]
    simp only [negate_convert w value hw hlo hneg, bang_uint_eq cfg glue base h2 h36]
    rfl
  · intro hv
    have hneg : value < 0 := by
      have : (0 : Int) < 2 ^ (w - 1) := by positivity
      omega
    rw [negate_convert w value hw hlo hneg, hv]
    simp [Int.natAbs_pow]

/-- C17, instance: the 16-bit `int` value -32768 in base 10 is sent as "-32768". -/
theorem signed_formatting_witness :
    bang_int firmware_config 20 16 idle_avr (-32768) 10 =
        bang_char_sequence firmware_config 20 idle_avr [45, 51, 50, 55, 54, 56]
    ∧ convert_unsigned 16 (wrap_signed 16 (- (-32768))) = 2 ^ (16 - 1) := by
  have h := signed_formatting firmware_config 20 16 idle_avr (-32768) 10 (by decide)
    (by decide) (by decide) (by decide) (by decide)
  have e : (base_digits 10 (-32768 : Int).natAbs).map digit_char = [51, 50, 55, 54, 56] := by
    norm_num [base_digits, digit_char]
  rw [e] at h
  exact ⟨h.2.1 (by decide), h.2.2 (by decide)⟩

/-! ## The receiver: a mistimed stop bit -/


theorem stop_step_mistimed (r : serial_receiver) (cycle value : Nat)
    (hs : r.state = .SERIAL_STATE_STOP_BIT) (hl : avr_regbit_get value r.regbit = 1)
    (ht : to_int (((cycle : Int) - (r.last_cycle : Int)) % 2 ^ 64) ≠ r.expected_cycles) :
    serial_write_cb r cycle value =
      { r with
        state := .SERIAL_STATE_FAULT
        current_byte := aligned_byte r.config r.current_byte
        buffer := r.buffer ++ [aligned_byte r.config r.current_byte]
        last_cycle := cycle } := by
  simp only [serial_write_cb, hs, hl, if_true, aligned_byte]
  by_cases ho : r.config.order = .SERIAL_ORDER_LSB <;>
    simp only [ho, if_true, if_false, check_timing, ht, ne_eq, not_false_eq_true]

/-- C21. A mistimed stop bit still commits its byte: a receiver in the stop-bit state that
gets a level-1 event whose elapsed cycles differ from `expected_cycles` appends the aligned
byte to the buffer (so the buffer is not the one before the event) and ends in the fault
state; the same event with correct timing appends the same byte and ends in the idle
state. -/
theorem mistimed_stop_bit_commits (r : serial_receiver) (cycle value : Nat)
    (hs : r.state = .SERIAL_STATE_STOP_BIT) (hl : avr_regbit_get value r.regbit = 1) :
    (to_int (((cycle : Int) - (r.last_cycle : Int)) % 2 ^ 64) ≠ r.expected_cycles →
      (serial_write_cb r cycle value).state = .SERIAL_STATE_FAULT
      ∧ (serial_write_cb r cycle value).buffer =
          r.buffer ++ [aligned_byte r.config r.current_byte]
      ∧ (serial_write_cb r cycle value).buffer ≠ r.buffer)
    ∧ (to_int (((cycle : Int) - (r.last_cycle : Int)) % 2 ^ 64) = r.expected_cycles →
      (serial_write_cb r cycle value).state = .SERIAL_STATE_IDLE
      ∧ (serial_write_cb r cycle value).buffer =
          r.buffer ++ [aligned_byte r.config r.current_byte]) := by
  refine ⟨?_, ?_⟩
  · intro ht
    rw [stop_step_mistimed r cycle value hs hl ht]
    refine ⟨rfl, rfl, ?_⟩
    intro h
    have hlen := congrArg List.length h
    simp at hlen
  · intro ht
    rw [stop_step r cycle value hs hl ht]
    exact ⟨rfl, rfl⟩

/-- C21, instance: the receiver waiting for the stop bit of 0x48 (64 cycles per bit, last
event at cycle 100) gets level 1 at cycle 170: it commits 0x48 and faults. -/
theorem mistimed_stop_bit_commits_witness :
    (serial_write_cb stop_receiver 170 1).state = .SERIAL_STATE_FAULT
    ∧ (serial_write_cb stop_receiver 170 1).buffer = [0x48]
    ∧ (serial_write_cb stop_receiver 164 1).state = .SERIAL_STATE_IDLE
    ∧ (serial_write_cb stop_receiver 164 1).buffer = [0x48] := by
  have h1 := (mistimed_stop_bit_commits stop_receiver 170 1 rfl rfl).1 (by decide)
  have h2 := (mistimed_stop_bit_commits stop_receiver 164 1 rfl rfl).2 (by decide)
  exact ⟨h1.1, h1.2.1, h2.1, h2.2⟩

/-! ## The transmitter: the other pins of the port -/


theorem pin_byte_testBit (P m : Nat) (l : Bool) (i : Nat) (hm : m < 256) (hP : P < 256) :
    (pin_byte P m l).testBit i = if m.testBit i then l else P.testBit i := by
  have h255 : 255 - m = 2 ^ 8 - (m + 1) := by omega
  have hm8 : m < 2 ^ 8 := by omega
  have hhigh : ∀ x : Nat, x < 256 → 8 ≤ i → x.testBit i = false := by
    intro x hx hi
    apply Nat.testBit_eq_false_of_lt
    calc x < 2 ^ 8 := by omega
      _ ≤ 2 ^ i := Nat.pow_le_pow_right (by norm_num) hi
  have hc : (255 - m).testBit i = (decide (i < 8) && !m.testBit i) := by
    rw [h255, Nat.testBit_two_pow_sub_succ hm8]
  by_cases hi : i < 8
  · cases l <;> cases hb : m.testBit i <;>
      simp [pin_byte, pin_low, pin_high, Nat.testBit_land, Nat.testBit_lor, hc, hb, hi]
  · have hmi := hhigh m hm (by omega)
    have hPi := hhigh P hP (by omega)
    cases l <;>
      simp [pin_byte, pin_low, pin_high, Nat.testBit_land, Nat.testBit_lor, hc, hmi, hPi]

/-- C22. Other port pins are preserved: for 1 to 8 data bits, either order, every parity
mode, every value and every port byte `P` read at entry, the bytes that `bang_char` writes
are, segment by segment, `P` with the bits of `PRINTBANG_PIN_MASK` all set (level 1) or all
cleared (level 0): bit `i` of a written byte is the level of the segment if the mask has
bit `i`, and bit `i` of `P` otherwise. -/
theorem other_pins_preserved (cfg : printbang_config) (s : avr_state) (value : Nat)
    (h1 : 1 ≤ cfg.PRINTBANG_DATA_BITS) (h8 : cfg.PRINTBANG_DATA_BITS ≤ 8)
    (hm : cfg.PRINTBANG_PIN_MASK < 256) (hP : s.port < 256) :
    (bang_char_frame cfg s value).map (fun w => w.value) =
        (frame_levels cfg value).map (pin_byte s.port cfg.PRINTBANG_PIN_MASK)
    ∧ (∀ (l : Bool) (i : Nat),
        (pin_byte s.port cfg.PRINTBANG_PIN_MASK l).testBit i =
          if cfg.PRINTBANG_PIN_MASK.testBit i then l else s.port.testBit i)
    ∧ (∀ w ∈ bang_char_frame cfg s value, ∀ i,
        cfg.PRINTBANG_PIN_MASK.testBit i = false → w.value.testBit i = s.port.testBit i) := by
  have hv : (bang_char_frame cfg s value).map (fun w => w.value) =
      (frame_levels cfg value).map (pin_byte s.port cfg.PRINTBANG_PIN_MASK) := by
    have h := congrArg (List.map (fun p : Nat × Bool => p.1))
      (bang_char_frame_values cfg s value h1 h8)
    simpa [List.map_map, Function.comp_def] using h
  have hb : ∀ (l : Bool) (i : Nat),
      (pin_byte s.port cfg.PRINTBANG_PIN_MASK l).testBit i =
        if cfg.PRINTBANG_PIN_MASK.testBit i then l else s.port.testBit i :=
    fun l i => pin_byte_testBit s.port cfg.PRINTBANG_PIN_MASK l i hm hP
  refine ⟨hv, hb, ?_⟩
  intro w hw i hi
  have hmem : w.value ∈ (bang_char_frame cfg s value).map (fun w => w.value) :=
    List.mem_map_of_mem _ hw
  rw [hv] at hmem
  obtain ⟨l, _, hl⟩ := List.mem_map.1 hmem
  rw [← hl, hb l i, hi]
  simp

/-- C22, instance: pin 0 of a port that holds 0xA5 at entry, the firmware configuration
sending 0x48: the bytes written are 0xA4 for level 0 and 0xA5 for level 1. -/
theorem other_pins_preserved_witness :
    (bang_char_frame firmware_config { idle_avr with port := 0xA5 } 0x48).map
        (fun w => w.value) = [0xA4, 0xA4, 0xA4, 0xA4, 0xA5, 0xA4, 0xA4, 0xA5, 0xA5] := by
  have h := (other_pins_preserved firmware_config { idle_avr with port := 0xA5 } 0x48
    (by decide) (by decide) (by decide) (by decide)).1
  rw [h]
  decide

/-! ## Integers: termination, stack depth and character range -/


theorem bang_uint_invalid (cfg : printbang_config) (glue : Nat) (s : avr_state)
    (value base : Nat) (hb : base < 2 ∨ base > 36) :
    bang_uint cfg glue s value base = s := by
  rw [bang_uint, dif_pos hb]

theorem bang_uint_step (cfg : printbang_config) (glue : Nat) (s : avr_state)
    (value base : Nat) (h2 : 2 ≤ base) (h36 : base ≤ 36) :
    bang_uint cfg glue s value base =
      bang_char cfg
        (compiled_code glue
          (if value / base > 0 then bang_uint cfg glue s (value / base) base else s))
        ((if base > 10 ∧ value % base ≥ 10 then (65 - 10) + value % base
          else 48 + value % base) % 256) := by
  have hb : ¬ (base < 2 ∨ base > 36) := by omega
  conv_lhs => rw [bang_uint]
  simp only [dif_neg hb]
  by_cases hdiv : value / base > 0
  · simp only [dif_pos hdiv, if_pos hdiv]
  · simp only [dif_neg hdiv, if_neg hdiv]

theorem base_digits_length (base value : Nat) (h2 : 2 ≤ base) :
    (base_digits base value).length =
      if value / base > 0 then (base_digits base (value / base)).length + 1 else 1 := by
  by_cases hdiv : value / base > 0
  · rw [if_pos hdiv, base_digits_step base value h2 hdiv, List.length_append]
    rfl
  · rw [if_neg hdiv, base_digits_small base value h2 hdiv]
    rfl

theorem bang_uint_bounded_ok (cfg : printbang_config) (glue base : Nat) (h2 : 2 ≤ base)
    (h36 : base ≤ 36) :
    ∀ (value depth : Nat) (s : avr_state), (base_digits base value).length ≤ depth →
      bang_uint_bounded cfg glue depth s value base =
        .ok (bang_uint cfg glue s value base) := by
  intro value
  induction value using Nat.strong_induction_on with
  | _ value ih =>
    intro depth s hlen
    have hb : ¬ (base < 2 ∨ base > 36) := by omega
    have h0 : ¬ base = 0 := by omega
    rw [base_digits_length base value h2] at hlen
    rw [bang_uint_step cfg glue s value base h2 h36]
    by_cases hdiv : value / base > 0
    · rw [if_pos hdiv] at hlen
      obtain ⟨d, rfl⟩ : ∃ d, depth = d + 1 := ⟨depth - 1, by omega⟩
      have hlt : value / base < value := by
        have hv : 0 < value := by
          rcases Nat.eq_zero_or_pos value with h | h
          · rw [h, Nat.zero_div] at hdiv; exact absurd hdiv (lt_irrefl 0)
          · exact h
        exact Nat.div_lt_self hv h2
      simp only [bang_uint_bounded, if_neg hb, if_neg h0, if_pos hdiv,
        ih _ hlt d s (by omega)]
    · rw [if_neg hdiv] at hlen
      obtain ⟨d, rfl⟩ : ∃ d, depth = d + 1 := ⟨depth - 1, by omega⟩
      simp only [bang_uint_bounded, if_neg hb, if_neg h0, if_neg hdiv]

theorem bang_uint_bounded_short (cfg : printbang_config) (glue base : Nat) (h2 : 2 ≤ base)
    (h36 : base ≤ 36) :
    ∀ (value depth : Nat) (s : avr_state), depth < (base_digits base value).length →
      bang_uint_bounded cfg glue depth s value base = .error .stack_exhausted := by
  intro value
  induction value using Nat.strong_induction_on with
  | _ value ih =>
    intro depth s hlen
    have hb : ¬ (base < 2 ∨ base > 36) := by omega
    have h0 : ¬ base = 0 := by omega
    rw [base_digits_length base value h2] at hlen
    cases depth with
    | zero => rfl
    | succ d =>
      by_cases hdiv : value / base > 0
      · rw [if_pos hdiv] at hlen
        have hlt : value / base < value := by
          have hv : 0 < value := by
            rcases Nat.eq_zero_or_pos value with h | h
            · rw [h, Nat.zero_div] at hdiv; exact absurd hdiv (lt_irrefl 0)
            · exact h
          exact Nat.div_lt_self hv h2
        simp only [bang_uint_bounded, if_neg hb, if_neg h0, if_pos hdiv,
          ih _ hlt d s (by omega)]
      · rw [if_neg hdiv] at hlen
        omega

theorem bang_uint_bounded_divides (cfg : printbang_config) (glue base : Nat) :
    ∀ (depth value : Nat) (s : avr_state),
      bang_uint_bounded cfg glue depth s value base ≠ .error .division_by_zero := by
  intro depth
  induction depth with
  | zero => intro value s h; cases h
  | succ d ih =>
    intro value s
    by_cases hb : base < 2 ∨ base > 36
    · simp only [bang_uint_bounded, if_pos hb]
      intro h; cases h
    · have h0 : ¬ base = 0 := by omega
      simp only [bang_uint_bounded, if_neg hb, if_neg h0]
      by_cases hdiv : value / base > 0
      · simp only [if_pos hdiv]
        have hr := ih (value / base) s
        cases hres : bang_uint_bounded cfg glue d s (value / base) base with
        | error e =>
          rw [hres] at hr
          intro h
          injection h with h
          exact hr (by rw [h])
        | ok t => intro h; cases h
      · simp only [if_neg hdiv]
        intro h; cases h

theorem digit_char_range (d : Nat) (hd : d < 36) :
    (48 ≤ digit_char d ∧ digit_char d ≤ 57) ∨ (65 ≤ digit_char d ∧ digit_char d ≤ 90) := by
  unfold digit_char
  split_ifs <;> omega

theorem base_digits_bounds (base value : Nat) (h2 : 2 ≤ base) :
    value < base ^ (base_digits base value).length
    ∧ (value ≠ 0 → base ^ ((base_digits base value).length - 1) ≤ value) := by
  unfold base_digits
  split_ifs with h0
  · subst h0
    exact ⟨by simp; omega, fun h => absurd rfl h⟩
  · rw [List.length_reverse]
    refine ⟨Nat.lt_base_pow_length_digits (by omega), fun _ => ?_⟩
    have hle := Nat.base_pow_length_digits_le base value (by omega) h0
    have hpos : 0 < (Nat.digits base value).length :=
      List.length_pos.2 (Nat.digits_ne_nil_iff_ne_zero.2 h0)
    obtain ⟨k, hk⟩ : ∃ k, (Nat.digits base value).length = k + 1 :=
      ⟨(Nat.digits base value).length - 1, by omega⟩
    rw [hk] at hle ⊢
    rw [pow_succ, mul_comm] at hle
    exact Nat.le_of_mul_le_mul_left hle (by omega)


/-- C23. Formatter termination and safety.  `bang_uint` run with a bounded call stack
never divides by zero, whatever the base, and returns when the stack is deep enough.  For
`base < 2` or `base > 36` one call suffices and the machine state (the write log with it) is
returned unchanged.  For `2 ≤ base ≤ 36` the run returns exactly when the stack has room
for as many nested calls as the value has digits in that base (and runs out of stack with
fewer); it makes one `bang_char` call per digit; the recursive argument `value / base` is
smaller than `value`; the number of digits `n` is 1 for 0 and satisfies
`base ^ (n - 1) ≤ value < base ^ n` otherwise; `value % base` is below 36 and every
character sent is in `'0'..'9'` or `'A'..'Z'`. -/
theorem formatter_terminates (cfg : printbang_config) (glue : Nat) (s : avr_state)
    (value base : Nat) :
    (∀ depth, bang_uint_bounded cfg glue depth s value base ≠ .error .division_by_zero)
    ∧ (∃ depth, bang_uint_bounded cfg glue depth s value base =
        .ok (bang_uint cfg glue s value base))
    ∧ (base < 2 ∨ base > 36 →
        bang_uint_bounded cfg glue 1 s value base = .ok s
        ∧ bang_uint cfg glue s value base = s)
    ∧ (2 ≤ base ∧ base ≤ 36 →
        (∀ depth, (base_digits base value).length ≤ depth →
          bang_uint_bounded cfg glue depth s value base =
            .ok (bang_uint cfg glue s value base))
        ∧ (∀ depth, depth < (base_digits base value).length →
          bang_uint_bounded cfg glue depth s value base = .error .stack_exhausted)
        ∧ bang_uint cfg glue s value base =
            bang_char_sequence cfg glue s ((base_digits base value).map digit_char)
        ∧ ((base_digits base value).map digit_char).length = (base_digits base value).length
        ∧ (value / base > 0 → value / base < value)
        ∧ (value = 0 → (base_digits base value).length = 1)
        ∧ value < base ^ (base_digits base value).length
        ∧ (value ≠ 0 → base ^ ((base_digits base value).length - 1) ≤ value)
        ∧ value % base < 36
        ∧ (∀ c ∈ (base_digits base value).map digit_char,
            (48 ≤ c ∧ c ≤ 57) ∨ (65 ≤ c ∧ c ≤ 90))) := by
  have hinv : base < 2 ∨ base > 36 →
      bang_uint_bounded cfg glue 1 s value base = .ok s
      ∧ bang_uint cfg glue s value base = s := by
    intro hb
    exact ⟨by simp only [bang_uint_bounded, if_pos hb], bang_uint_invalid cfg glue s value base hb⟩
  refine ⟨fun depth => bang_uint_bounded_divides cfg glue base depth value s, ?_, hinv, ?_⟩
  · by_cases hb : base < 2 ∨ base > 36
    · exact ⟨1, by rw [(hinv hb).1, (hinv hb).2]⟩
    · exact ⟨(base_digits base value).length,
        bang_uint_bounded_ok cfg glue base (by omega) (by omega) value _ s (le_refl _)⟩
  · rintro ⟨h2, h36⟩
    have hbounds := base_digits_bounds base value h2
    refine ⟨fun depth h => bang_uint_bounded_ok cfg glue base h2 h36 value depth s h,
      fun depth h => bang_uint_bounded_short cfg glue base h2 h36 value depth s h,
      bang_uint_eq cfg glue base h2 h36 value s, List.length_map _ _, ?_, ?_,
      hbounds.1, hbounds.2, ?_, ?_⟩
    · intro hdiv
      have hv : 0 < value := by
        rcases Nat.eq_zero_or_pos value with h | h
        · rw [h, Nat.zero_div] at hdiv; exact absurd hdiv (lt_irrefl 0)
        · exact h
      exact Nat.div_lt_self hv h2
    · intro h0; rw [h0]; rfl
    · have := Nat.mod_lt value (show base > 0 by omega)
      omega
    · intro c hc
      obtain ⟨d, hd, rfl⟩ := List.mem_map.1 hc
      have := base_digits_lt base value h2 d hd
      exact digit_char_range d (by omega)

/-- C23, instance: with base 0 the call returns at once with the state unchanged; 1234 in
base 10 needs exactly four nested calls and is sent as four characters. -/
theorem formatter_terminates_witness :
    bang_uint_bounded firmware_config 20 1 idle_avr 1234 0 = .ok idle_avr
    ∧ bang_uint_bounded firmware_config 20 4 idle_avr 1234 10 =
        .ok (bang_uint firmware_config 20 idle_avr 1234 10)
    ∧ bang_uint_bounded firmware_config 20 3 idle_avr 1234 10 = .error .stack_exhausted
    ∧ bang_uint firmware_config 20 idle_avr 1234 10 =
        bang_char_sequence firmware_config 20 idle_avr [49, 50, 51, 52] := by
  have ha := (formatter_terminates firmware_config 20 idle_avr 1234 0).2.2.1
    (Or.inl (by decide))
  have hb := (formatter_terminates firmware_config 20 idle_avr 1234 10).2.2.2
    ⟨by decide, by decide⟩
  have hlen : (base_digits 10 1234).length = 4 := by
    norm_num [base_digits]
  have hchars : (base_digits 10 1234).map digit_char = [49, 50, 51, 52] := by
    norm_num [base_digits, digit_char]
  refine ⟨ha.1, hb.1 4 (by rw [hlen]), hb.2.1 3 (by rw [hlen]; decide), ?_⟩
  rw [← hchars]
  exact hb.2.2.1

end Printbang
